import Mathlib

/-!
# Verification of the FLAC bitstream engine

A shallow embedding of the core of the `flac` package: the stream driver
(`Next`, `ParseNext`, `validateSampleCount`, `Seek`, `searchFromStart`,
`makeSeekTable`), the ID3v2 skip of `parseStreamInfo`, and the buffered bit
reader of the internal `bits` package (`fill`, `needBytes`, `Read`,
`ReadUnary`, `ReadRice`, `WriteUnary`).

Machine integers are modelled as `Nat` with explicit reduction modulo `2 ^ 64`
(for `uint64`), `2 ^ 32` (for `uint32`) or `256` (for `uint8`) exactly where
the corresponding Go arithmetic can wrap.  Fallible operations return
`Except Err` values; operations that mutate their receiver even when they
fail (the bit reader's methods) additionally return the final state in a
product.

The frame codec (`frame.New` / `frame.Parse`) is an external collaborator of
the driver: the driver model takes the stream's audio frames as a list of
already-parsed frame values (block size, channel-assignment channel count,
starting sample number), and reader positions in the driver model are frame
indices relative to the data-start offset.  CRC accumulation is abstracted by
the trace of consumed bytes: the Go code folds exactly the consumed bytes into
the CRC accumulators, so equal traces with equal enable flags yield equal
CRC values.
-/

set_option maxRecDepth 100000

/-- The error kinds surfaced by the modelled operations (§7 of the spec).
`eof` is Go's `io.EOF`, `unexpectedEof` is `io.ErrUnexpectedEOF`; the others
correspond to the `fmt.Errorf`/sentinel errors of the sources. -/
inductive Err where
  | eof
  | unexpectedEof
  | outOfRange
  | channelMismatch
  | sampleOverflow
  | noSeekTable
  | seekOutOfRange
  | invalidSignature
  | invalidStreamInfo
deriving DecidableEq, Repr

/-- `2 ^ 64`, the modulus of Go's `uint64` arithmetic. -/
def U64 : Nat := 2 ^ 64

namespace Flac

/-- `meta.SeekPoint`: `SampleNum` and `Offset` are `uint64`, `NSamples` is
`uint16`.  `Offset` is measured from the data-start; in this model positions
are frame indices, so a stored offset designates the frame with that index. -/
structure SeekPoint where
  sampleNum : Nat
  offset : Nat
  nSamples : Nat
deriving DecidableEq, Repr

/-- The surface of a parsed audio frame consumed by the stream driver
(spec §4.3): channel-assignment channel count (`Frame.Channels.Count()`),
block size (`Frame.BlockSize`, `uint16`) and the resolved starting sample
number (`Frame.SampleNumber()`). -/
structure FrameData where
  channels : Nat
  blockSize : Nat
  sampleNum : Nat
deriving DecidableEq, Repr

/-- The part of `meta.StreamInfo` the driver checks against: declared channel
count (`NChannels`) and declared total inter-channel samples (`NSamples`,
0 = unknown). -/
structure StreamInfo where
  nchannels : Nat
  nsamples : Nat
deriving DecidableEq, Repr

/-- The mutable driver state of a `Stream`: reader position (a frame index
relative to the data-start), the running `samplesDecoded` counter (`uint64`)
and the optional seek table.  `Info`, `seekTableSize` and the frame list are
immutable after open and passed separately. -/
structure StreamState where
  pos : Nat
  samplesDecoded : Nat
  seekTable : Option (List SeekPoint)
deriving DecidableEq, Repr

/-- `Stream.validateSampleCount`: fails when the running total exceeds the
declared `StreamInfo.NSamples`; `NSamples = 0` means unknown and disables
the check. -/
def validateSampleCount (info : StreamInfo) (samplesDecoded : Nat) : Except Err Unit :=
  if info.nsamples = 0 then .ok ()
  else if info.nsamples < samplesDecoded then .error .sampleOverflow
  else .ok ()

/-- `Stream.Next`: parse the next frame header (`frame.New`, modelled as
taking the frame at the current index, or `eof` past the end), check the
frame's channel count against `StreamInfo.NChannels`, accumulate
`samplesDecoded` (`uint64` addition) and validate it. -/
def Next (info : StreamInfo) (frames : List FrameData) (st : StreamState) :
    (Except Err FrameData) × StreamState :=
  match frames[st.pos]? with
  | none => (.error .eof, st)
  | some f =>
    let st := { st with pos := st.pos + 1 }
    if f.channels ≠ info.nchannels then (.error .channelMismatch, st)
    else
      let st := { st with samplesDecoded := (st.samplesDecoded + f.blockSize) % U64 }
      match validateSampleCount info st.samplesDecoded with
      | .error e => (.error e, st)
      | .ok _ => (.ok f, st)

/-- `Stream.ParseNext`: parse the entire next frame (`frame.Parse`).  At the
granularity of this model it performs the same checks and state updates as
`Next`. -/
def ParseNext (info : StreamInfo) (frames : List FrameData) (st : StreamState) :
    (Except Err FrameData) × StreamState :=
  match frames[st.pos]? with
  | none => (.error .eof, st)
  | some f =>
    let st := { st with pos := st.pos + 1 }
    if f.channels ≠ info.nchannels then (.error .channelMismatch, st)
    else
      let st := { st with samplesDecoded := (st.samplesDecoded + f.blockSize) % U64 }
      match validateSampleCount info st.samplesDecoded with
      | .error e => (.error e, st)
      | .ok _ => (.ok f, st)

theorem ParseNext_eq_Next (info : StreamInfo) (frames : List FrameData) (st : StreamState) :
    ParseNext info frames st = Next info frames st := rfl

/-- C3 helper: shape of a successful `Next`. -/
theorem Next_ok_iff (info : StreamInfo) (frames : List FrameData) (st : StreamState)
    (f : FrameData) :
    (Next info frames st).1 = .ok f ↔
      frames[st.pos]? = some f ∧ f.channels = info.nchannels ∧
        (info.nsamples = 0 ∨ (st.samplesDecoded + f.blockSize) % U64 ≤ info.nsamples) := by
  unfold Next validateSampleCount
  cases h : frames[st.pos]? with
  | none => simp
  | some g =>
    simp only []
    by_cases hc : g.channels = info.nchannels
    · by_cases hz : info.nsamples = 0
      · simp [hc, hz]
        rintro rfl
        exact hc
      · by_cases hlt : info.nsamples < (st.samplesDecoded + g.blockSize) % U64
        · simp [hc, hz, hlt]
          rintro rfl
          omega
        · simp [hc, hz, hlt]
          rintro rfl
          refine ⟨hc, ?_⟩
          omega
    · simp [hc]
      rintro rfl hcf
      exact absurd hcf hc

/-- C3: a frame returned by `Next` or `ParseNext` has the channel-assignment
channel count declared in StreamInfo, and when the parsed frame's channel
count differs from the declared one both operations return the
`ChannelMismatch` error instead of the frame. -/
theorem c3_channel_count_matches (info : StreamInfo) (frames : List FrameData)
    (st : StreamState) (f : FrameData) :
    ((Next info frames st).1 = .ok f → f.channels = info.nchannels) ∧
    ((ParseNext info frames st).1 = .ok f → f.channels = info.nchannels) ∧
    (∀ g, frames[st.pos]? = some g → g.channels ≠ info.nchannels →
      (Next info frames st).1 = .error .channelMismatch ∧
      (ParseNext info frames st).1 = .error .channelMismatch) := by
  refine ⟨fun h => ((Next_ok_iff info frames st f).mp h).2.1,
          fun h => ((Next_ok_iff info frames st f).mp
            (by rw [← ParseNext_eq_Next]; exact h)).2.1, ?_⟩
  intro g hg hcg
  rw [ParseNext_eq_Next]
  unfold Next
  rw [hg]
  simp [hcg]

theorem c3_channel_count_matches_witness :
    (Next ⟨2, 0⟩ [⟨1, 10, 0⟩] ⟨0, 0, none⟩).1 = .error .channelMismatch ∧
    (ParseNext ⟨2, 0⟩ [⟨1, 10, 0⟩] ⟨0, 0, none⟩).1 = .error .channelMismatch :=
  (c3_channel_count_matches ⟨2, 0⟩ [⟨1, 10, 0⟩] ⟨0, 0, none⟩ ⟨1, 10, 0⟩).2.2
    ⟨1, 10, 0⟩ rfl (by decide)

/-- C4: after parsing a frame whose channel count matches, `Next` and
`ParseNext` add the frame's block size to `samplesDecoded` (with `uint64`
wrap-around, which never occurs for realizable streams); when StreamInfo
declares a non-zero total and the updated counter exceeds it, the operation
fails with `SampleOverflow`; a declared total of zero disables the check. -/
theorem c4_sample_count_validation (info : StreamInfo) (frames : List FrameData)
    (st : StreamState) (f : FrameData)
    (hf : frames[st.pos]? = some f) (hch : f.channels = info.nchannels) :
    ((Next info frames st).2.samplesDecoded = (st.samplesDecoded + f.blockSize) % U64) ∧
    ((ParseNext info frames st).2.samplesDecoded = (st.samplesDecoded + f.blockSize) % U64) ∧
    (info.nsamples = 0 →
      (Next info frames st).1 = .ok f ∧ (ParseNext info frames st).1 = .ok f) ∧
    (info.nsamples ≠ 0 → info.nsamples < (st.samplesDecoded + f.blockSize) % U64 →
      (Next info frames st).1 = .error .sampleOverflow ∧
      (ParseNext info frames st).1 = .error .sampleOverflow) ∧
    (info.nsamples ≠ 0 → (st.samplesDecoded + f.blockSize) % U64 ≤ info.nsamples →
      (Next info frames st).1 = .ok f ∧ (ParseNext info frames st).1 = .ok f) := by
  rw [ParseNext_eq_Next]
  unfold Next validateSampleCount
  rw [hf]
  simp only [hch]
  by_cases hz : info.nsamples = 0
  · simp [hz]
  · by_cases hlt : info.nsamples < (st.samplesDecoded + f.blockSize) % U64
    · simp [hz, hlt]
    · simp [hz, hlt]

theorem c4_sample_count_validation_witness :
    (Next ⟨1, 1000⟩ [⟨1, 1024, 0⟩] ⟨0, 0, none⟩).1 = .error .sampleOverflow ∧
    (Next ⟨1, 1000⟩ [⟨1, 1024, 0⟩] ⟨0, 0, none⟩).2.samplesDecoded = 1024 := by
  have h := c4_sample_count_validation ⟨1, 1000⟩ [⟨1, 1024, 0⟩] ⟨0, 0, none⟩ ⟨1, 1024, 0⟩
    rfl rfl
  refine ⟨(h.2.2.2.1 (by decide) (by norm_num [U64])).1, ?_⟩
  rw [h.1]
  norm_num [U64]

/-- The loop of `Stream.searchFromStart`: `prev` starts at `Points[0]` and the
loop returns `prev` at the first point whose `SampleNum + NSamples` (a
`uint64` sum) is at least the target sample, else the last point. -/
def searchGo (t : Nat) (prev : SeekPoint) : List SeekPoint → SeekPoint
  | [] => prev
  | p :: rest => if t ≤ (p.sampleNum + p.nSamples) % U64 then prev else searchGo t p rest

/-- `Stream.searchFromStart`: returns `ErrNoSeektable` on an empty seek table,
otherwise runs the scan loop over all points, starting with
`prev = Points[0]`. -/
def searchFromStart (pts : List SeekPoint) (t : Nat) : Except Err SeekPoint :=
  match pts with
  | [] => .error .noSeekTable
  | p0 :: _ => .ok (searchGo t p0 pts)

/-- The placeholder sample number `0xFFFFFFFFFFFFFFFF` marking an unused
seek-point slot. -/
def placeholderSampleNum : Nat := U64 - 1

/-- The lookup result described by the specification's words (§4.5): over the
real (non-placeholder) seek points, the last point `p` with
`p.SampleNum + p.NSamples < t`, and the first real point when no real point
satisfies that.  `none` when there is no real point. -/
def searchSpec (pts : List SeekPoint) (t : Nat) : Option SeekPoint :=
  let real := pts.filter (fun p => p.sampleNum ≠ placeholderSampleNum)
  match real with
  | [] => none
  | p0 :: _ =>
    match (real.filter (fun p => p.sampleNum + p.nSamples < t)).getLast? with
    | some p => some p
    | none => some p0

/-- The `uint64` sum `p.SampleNum + p.NSamples` compared against the target
in the seek-table scan (written without the wrap, which the lemmas assume
away via explicit bounds). -/
def seekSum (p : SeekPoint) : Nat := p.sampleNum + p.nSamples

/-- C2 counterexample: a seek table whose points are strictly sorted by
`SampleNum` and by `Offset`, but whose sums `SampleNum + NSamples` are not
monotone.  The scan returns the first point, while the last point with
`SampleNum + NSamples < 50` is the second. -/
theorem c2_counterexample :
    searchFromStart [⟨0, 0, 100⟩, ⟨10, 1, 5⟩] 50 = .ok ⟨0, 0, 100⟩ ∧
    searchSpec [⟨0, 0, 100⟩, ⟨10, 1, 5⟩] 50 = some ⟨10, 1, 5⟩ ∧
    (⟨0, 0, 100⟩ : SeekPoint) ≠ ⟨10, 1, 5⟩ :=
  ⟨rfl, rfl, by decide⟩

/-- The scan loop never passes a trailing block of placeholder points
(`SampleNum = 2^64 - 1`, `NSamples = 0`): their `uint64` sum is the maximal
`uint64` value, which is at least any target. -/
theorem searchGo_append_placeholders (t : Nat) (ph : List SeekPoint)
    (hph : ∀ p ∈ ph, p.sampleNum = placeholderSampleNum ∧ p.nSamples = 0)
    (ht : t < U64) :
    ∀ (l : List SeekPoint) (prev : SeekPoint),
      searchGo t prev (l ++ ph) = searchGo t prev l := by
  intro l
  induction l with
  | nil =>
    intro prev
    cases ph with
    | nil => rfl
    | cons q qs =>
      obtain ⟨h1, h2⟩ := hph q (List.mem_cons_self q qs)
      simp only [List.nil_append, searchGo, h1, h2, placeholderSampleNum]
      have : (U64 - 1 + 0) % U64 = U64 - 1 := by
        rw [Nat.add_zero]
        exact Nat.mod_eq_of_lt (by simp [U64])
      rw [this, if_pos (by omega)]
  | cons p rest ih =>
    intro prev
    simp only [List.cons_append, searchGo]
    by_cases h : t ≤ (p.sampleNum + p.nSamples) % U64
    · simp [h]
    · simp only [if_neg h]
      exact ih p

/-- On a block of points whose sums are below `2^64` and nondecreasing, the
scan loop returns the last point with sum below the target, with `prev` as
the default. -/
theorem searchGo_sorted (t : Nat) :
    ∀ (l : List SeekPoint) (prev : SeekPoint),
      (∀ p ∈ l, seekSum p < U64) →
      List.Sorted (· ≤ ·) ((prev :: l).map seekSum) →
      seekSum prev < t →
      searchGo t prev l = (l.filter (fun p => seekSum p < t)).getLastD prev := by
  intro l
  induction l with
  | nil => intro prev _ _ _; rfl
  | cons p rest ih =>
    intro prev hnw hsort hprev
    have hpnw : seekSum p < U64 := hnw p (List.mem_cons_self p rest)
    have hmod : (p.sampleNum + p.nSamples) % U64 = seekSum p :=
      Nat.mod_eq_of_lt hpnw
    simp only [searchGo, hmod]
    rw [List.map_cons, List.sorted_cons] at hsort
    obtain ⟨hprevle, hsort'⟩ := hsort
    have hple : ∀ q ∈ rest, seekSum p ≤ seekSum q := by
      have h2 := hsort'
      rw [List.map_cons, List.sorted_cons] at h2
      intro q hq
      exact h2.1 (seekSum q) (List.mem_map_of_mem seekSum hq)
    by_cases h : t ≤ seekSum p
    · rw [if_pos h]
      have hfilter : (p :: rest).filter (fun q => seekSum q < t) = [] := by
        rw [List.filter_eq_nil_iff]
        intro q hq
        rcases List.mem_cons.mp hq with rfl | hq'
        · simp only [decide_eq_true_eq]
          omega
        · have hle : seekSum p ≤ seekSum q := hple q hq'
          simp only [decide_eq_true_eq]
          omega
      rw [hfilter]
      rfl
    · rw [if_neg h]
      have hlt : seekSum p < t := by omega
      rw [ih p (fun q hq => hnw q (List.mem_cons_of_mem p hq)) hsort' hlt]
      have : (p :: rest).filter (fun q => seekSum q < t) =
          p :: rest.filter (fun q => seekSum q < t) := by
        rw [List.filter_cons_of_pos]
        simp only [decide_eq_true_eq]
        omega
      rw [this, List.getLastD_cons]

/-- C2 (amended): on a non-empty seek table consisting of real points whose
sums `SampleNum + NSamples` fit in `uint64` and are nondecreasing in table
order, followed by trailing placeholder points (`SampleNum = 2^64 - 1`,
`NSamples = 0`), the lookup returns the last real point `p` with
`p.SampleNum + p.NSamples < t` — and the first point when no real point
satisfies that — and the trailing placeholders never affect the result. -/
theorem c2_seek_table_lookup (p0 : SeekPoint) (rest ph : List SeekPoint) (t : Nat)
    (hr : ∀ p ∈ p0 :: rest, p.sampleNum ≠ placeholderSampleNum ∧ seekSum p < U64)
    (hsort : List.Sorted (· ≤ ·) (((p0 :: rest).map seekSum)))
    (hph : ∀ p ∈ ph, p.sampleNum = placeholderSampleNum ∧ p.nSamples = 0)
    (ht : t < U64) :
    ∃ p, searchFromStart ((p0 :: rest) ++ ph) t = .ok p ∧
      searchSpec ((p0 :: rest) ++ ph) t = some p := by
  have hspec_real : ((p0 :: rest) ++ ph).filter
      (fun p => p.sampleNum ≠ placeholderSampleNum) = p0 :: rest := by
    rw [List.filter_append]
    have h1 : (p0 :: rest).filter (fun p => p.sampleNum ≠ placeholderSampleNum) =
        p0 :: rest := List.filter_eq_self.mpr (by
      intro q hq
      simpa using (hr q hq).1)
    have h2 : ph.filter (fun p => p.sampleNum ≠ placeholderSampleNum) = [] := by
      rw [List.filter_eq_nil_iff]
      intro q hq
      simpa using (hph q hq).1
    rw [h1, h2, List.append_nil]
  have hgo_ph : searchGo t p0 ((p0 :: rest) ++ ph) = searchGo t p0 (p0 :: rest) :=
    searchGo_append_placeholders t ph hph ht (p0 :: rest) p0
  have hmod0 : (p0.sampleNum + p0.nSamples) % U64 = seekSum p0 :=
    Nat.mod_eq_of_lt (hr p0 (List.mem_cons_self p0 rest)).2
  unfold searchFromStart searchSpec
  simp only [List.cons_append] at hgo_ph hspec_real ⊢
  simp only [hspec_real]
  rw [hgo_ph]
  simp only [searchGo, hmod0]
  by_cases h : t ≤ seekSum p0
  · rw [if_pos h]
    have hfilter : (p0 :: rest).filter (fun q => seekSum q < t) = [] := by
      rw [List.filter_eq_nil_iff]
      intro q hq
      have : seekSum p0 ≤ seekSum q := by
        rcases List.mem_cons.mp hq with rfl | hq'
        · exact le_refl _
        · rw [List.map_cons, List.sorted_cons] at hsort
          exact hsort.1 (seekSum q) (List.mem_map_of_mem seekSum hq')
      simp only [decide_eq_true_eq]
      omega
    refine ⟨p0, rfl, ?_⟩
    rw [show ((p0 :: rest).filter (fun p => p.sampleNum + p.nSamples < t)) =
        (p0 :: rest).filter (fun q => seekSum q < t) from rfl, hfilter]
    rfl
  · rw [if_neg h]
    have hlt : seekSum p0 < t := by omega
    rw [searchGo_sorted t rest p0 (fun q hq => (hr q (List.mem_cons_of_mem p0 hq)).2)
      hsort hlt]
    have hfc : (p0 :: rest).filter (fun q => seekSum q < t) =
        p0 :: rest.filter (fun q => seekSum q < t) := by
      rw [List.filter_cons_of_pos]
      simp only [decide_eq_true_eq]
      omega
    refine ⟨(rest.filter (fun q => seekSum q < t)).getLastD p0, rfl, ?_⟩
    rw [show ((p0 :: rest).filter (fun p => p.sampleNum + p.nSamples < t)) =
        (p0 :: rest).filter (fun q => seekSum q < t) from rfl, hfc,
      List.getLast?_cons]
    simp

theorem c2_seek_table_lookup_witness :
    ∃ p, searchFromStart [⟨0, 0, 10⟩, ⟨10, 1, 10⟩, ⟨placeholderSampleNum, 0, 0⟩] 15 = .ok p ∧
      searchSpec [⟨0, 0, 10⟩, ⟨10, 1, 10⟩, ⟨placeholderSampleNum, 0, 0⟩] 15 = some p :=
  c2_seek_table_lookup ⟨0, 0, 10⟩ [⟨10, 1, 10⟩] [⟨placeholderSampleNum, 0, 0⟩] 15
    (by decide) (by decide) (by decide) (by decide)

/-- Characterization of `ParseNext`'s successful results, used for the
termination and correctness of the scanning loops. -/
theorem ParseNext_ok_state (info : StreamInfo) (frames : List FrameData)
    (st : StreamState) (f : FrameData) (st' : StreamState)
    (h : ParseNext info frames st = (.ok f, st')) :
    st.pos < frames.length ∧ st'.pos = st.pos + 1 ∧ frames[st.pos]? = some f ∧
      st'.samplesDecoded = (st.samplesDecoded + f.blockSize) % U64 ∧
      st'.seekTable = st.seekTable := by
  unfold ParseNext validateSampleCount at h
  cases hg : frames[st.pos]? with
  | none => rw [hg] at h; simp at h
  | some g =>
    rw [hg] at h
    have hlen : st.pos < frames.length := by
      by_contra hge
      rw [List.getElem?_eq_none (by omega)] at hg
      cases hg
    simp only [] at h
    split at h
    · simp at h
    · split at h
      · simp at h
      · rw [Prod.mk.injEq] at h
        obtain ⟨hf, hst⟩ := h
        cases hf
        exact ⟨hlen, by rw [← hst], rfl, by rw [← hst], by rw [← hst]⟩

/-- `ParseNext` reports `io.EOF` exactly at the end of the frame sequence,
leaving the state untouched. -/
theorem ParseNext_eof_state (info : StreamInfo) (frames : List FrameData)
    (st : StreamState) (st' : StreamState)
    (h : ParseNext info frames st = (.error .eof, st')) :
    frames[st.pos]? = none ∧ st' = st := by
  unfold ParseNext validateSampleCount at h
  cases hg : frames[st.pos]? with
  | none =>
    rw [hg] at h
    rw [Prod.mk.injEq] at h
    exact ⟨rfl, h.2.symm⟩
  | some g =>
    rw [hg] at h
    simp only [] at h
    split at h
    · simp at h
    · split at h
      · rename_i e he
        rw [Prod.mk.injEq] at h
        obtain ⟨h1, _⟩ := h
        split at he
        · cases he
        · split at he
          · cases he
            cases h1
          · cases he
      · simp at h

/-- The frame-scan loop of `Stream.makeSeekTable`: parse every frame from the
current position, emitting one seek point per frame (cumulative starting
sample, offset of the frame, block size); `io.EOF` ends the scan, any other
error aborts it. -/
def makeSeekTableScan (info : StreamInfo) (frames : List FrameData)
    (sampleNum : Nat) (points : List SeekPoint) (st : StreamState) :
    (Except Err (List SeekPoint)) × StreamState :=
  let off := st.pos
  match h : ParseNext info frames st with
  | (.error .eof, st') => (.ok points, st')
  | (.error e, st') => (.error e, st')
  | (.ok f, st') =>
    makeSeekTableScan info frames ((sampleNum + f.blockSize) % U64)
      (points ++ [⟨sampleNum, off, f.blockSize⟩]) st'
termination_by frames.length - st.pos
decreasing_by
  have := ParseNext_ok_state info frames st f st' h
  omega

/-- `Stream.makeSeekTable`: record the current position, rewind to the
data-start, save and zero `samplesDecoded`, scan every frame into seek
points, then install the table and restore the counter and the position. -/
def makeSeekTable (info : StreamInfo) (frames : List FrameData) (st : StreamState) :
    (Except Err Unit) × StreamState :=
  let pos := st.pos
  let savedSamples := st.samplesDecoded
  let st1 : StreamState := { st with pos := 0, samplesDecoded := 0 }
  match makeSeekTableScan info frames 0 [] st1 with
  | (.error e, st') => (.error e, st')
  | (.ok points, st') =>
    (.ok (), { st' with seekTable := some points, samplesDecoded := savedSamples, pos := pos })

/-- The forward-scan loop of `Stream.Seek`: record the offset of the frame
about to be parsed, parse it, and land as soon as the frame's samples extend
past the target: rewind to the recorded offset, set `samplesDecoded` to the
frame's starting sample and return that sample number. -/
def seekScan (info : StreamInfo) (frames : List FrameData) (sampleNum : Nat)
    (st : StreamState) : (Except Err Nat) × StreamState :=
  let offset := st.pos
  match h : ParseNext info frames st with
  | (.error e, st') => (.error e, st')
  | (.ok f, st') =>
    if sampleNum < (f.sampleNum + f.blockSize) % U64 then
      (.ok f.sampleNum, { st' with samplesDecoded := f.sampleNum, pos := offset })
    else seekScan info frames sampleNum st'
termination_by frames.length - st.pos
decreasing_by
  have := ParseNext_ok_state info frames st f st' h
  omega

/-- `Stream.Seek`: synthesize a seek table when none exists (and the
configured synthesized-table size is positive), reject targets at or past a
known total, look the target up in the seek table, jump to the seek point,
reset `samplesDecoded` to the point's starting sample, and scan forward to
the frame containing the target.  When no seek table exists and none may be
synthesized, the Go code dereferences a nil seek table; that panic is
modelled as the `noSeekTable` error. -/
def Seek (info : StreamInfo) (seekTableSize : Nat) (frames : List FrameData)
    (st : StreamState) (sampleNum : Nat) : (Except Err Nat) × StreamState :=
  match (if st.seekTable = none ∧ 0 < seekTableSize
         then makeSeekTable info frames st else (.ok (), st)) with
  | (.error e, st1) => (.error e, st1)
  | (.ok _, st1) =>
    if info.nsamples ≠ 0 ∧ info.nsamples ≤ sampleNum then (.error .seekOutOfRange, st1)
    else
      match st1.seekTable with
      | none => (.error .noSeekTable, st1)
      | some pts =>
        match searchFromStart pts sampleNum with
        | .error e => (.error e, st1)
        | .ok point =>
          seekScan info frames sampleNum
            { st1 with pos := point.offset, samplesDecoded := point.sampleNum }

/-- The seek points `makeSeekTable` synthesizes for the frame list starting at
frame index `idx` with cumulative starting sample `sampleNum`: one point per
frame carrying the cumulative sample count, the frame's offset and its block
size. -/
def synthPointsFrom (sampleNum idx : Nat) : List FrameData → List SeekPoint
  | [] => []
  | f :: rest =>
    ⟨sampleNum, idx, f.blockSize⟩ :: synthPointsFrom ((sampleNum + f.blockSize) % U64) (idx + 1) rest

/-- The full synthesized seek table: one point per frame of the stream. -/
def synthPoints (frames : List FrameData) : List SeekPoint := synthPointsFrom 0 0 frames

/-- A successful `makeSeekTableScan` emits exactly the synthesized points of
the remaining frames, appended to the accumulator. -/
theorem makeSeekTableScan_ok (info : StreamInfo) (frames : List FrameData) :
    ∀ (st : StreamState) (sampleNum : Nat) (points pts : List SeekPoint) (st' : StreamState),
      makeSeekTableScan info frames sampleNum points st = (.ok pts, st') →
      pts = points ++ synthPointsFrom sampleNum st.pos (frames.drop st.pos) := by
  suffices key : ∀ (n : Nat) (st : StreamState), frames.length - st.pos ≤ n →
      ∀ (sampleNum : Nat) (points pts : List SeekPoint) (st' : StreamState),
        makeSeekTableScan info frames sampleNum points st = (.ok pts, st') →
        pts = points ++ synthPointsFrom sampleNum st.pos (frames.drop st.pos) by
    intro st
    exact key (frames.length - st.pos) st le_rfl
  intro n
  induction n with
  | zero =>
    intro st hn sampleNum points pts st' h
    rw [makeSeekTableScan] at h
    cases hp : ParseNext info frames st with
    | mk res stp =>
      cases res with
      | error e =>
        cases e <;> rw [hp] at h <;> simp only [] at h
        case eof =>
          obtain ⟨hnone, -⟩ := ParseNext_eof_state info frames st stp hp
          rw [Prod.mk.injEq] at h
          obtain ⟨h1, -⟩ := h
          cases h1
          have : frames.length ≤ st.pos := List.getElem?_eq_none_iff.mp hnone
          rw [List.drop_eq_nil_of_le this]
          simp [synthPointsFrom]
        all_goals exact absurd h (by simp)
      | ok f =>
        have := (ParseNext_ok_state info frames st f stp hp).1
        omega
  | succ n ih =>
    intro st hn sampleNum points pts st' h
    rw [makeSeekTableScan] at h
    cases hp : ParseNext info frames st with
    | mk res stp =>
      cases res with
      | error e =>
        cases e <;> rw [hp] at h <;> simp only [] at h
        case eof =>
          obtain ⟨hnone, -⟩ := ParseNext_eof_state info frames st stp hp
          rw [Prod.mk.injEq] at h
          obtain ⟨h1, -⟩ := h
          cases h1
          have : frames.length ≤ st.pos := List.getElem?_eq_none_iff.mp hnone
          rw [List.drop_eq_nil_of_le this]
          simp [synthPointsFrom]
        all_goals exact absurd h (by simp)
      | ok f =>
        rw [hp] at h
        simp only [] at h
        obtain ⟨hlen, hpos, hsome, _, _⟩ := ParseNext_ok_state info frames st f stp hp
        have hdrop : frames.drop st.pos = f :: frames.drop (st.pos + 1) := by
          have hf : frames[st.pos] = f := by
            have := List.getElem?_eq_some_iff.mp hsome
            exact this.choose_spec
          rw [List.drop_eq_getElem_cons hlen, hf]
        have hrec := ih stp (by omega) ((sampleNum + f.blockSize) % U64)
          (points ++ [⟨sampleNum, st.pos, f.blockSize⟩]) pts st' h
        rw [hrec, hdrop, hpos]
        simp [synthPointsFrom]

/-- C9: a successful seek-table synthesis restores `samplesDecoded` and the
reader position to their pre-scan values and installs exactly the synthesized
seek table (one point per frame); no other driver state changes. -/
theorem c9_make_seek_table_restores (info : StreamInfo) (frames : List FrameData)
    (st st' : StreamState)
    (h : makeSeekTable info frames st = (.ok (), st')) :
    st'.samplesDecoded = st.samplesDecoded ∧ st'.pos = st.pos ∧
      st'.seekTable = some (synthPoints frames) := by
  simp only [makeSeekTable] at h
  cases hs : makeSeekTableScan info frames 0 [] { st with pos := 0, samplesDecoded := 0 } with
  | mk res sts =>
    cases res with
    | error e => rw [hs] at h; simp at h
    | ok points =>
      rw [hs] at h
      simp only [] at h
      rw [Prod.mk.injEq] at h
      obtain ⟨-, hst⟩ := h
      have hpts := makeSeekTableScan_ok info frames _ 0 [] points sts hs
      simp only [List.drop_zero, List.nil_append] at hpts
      rw [← hst]
      exact ⟨rfl, rfl, by rw [hpts]; rfl⟩


/-- The starting inter-channel sample of frame `i`: the sum of the block sizes
of all earlier frames. -/
def startOf (frames : List FrameData) (i : Nat) : Nat :=
  ((frames.take i).map (·.blockSize)).sum

theorem startOf_zero (frames : List FrameData) : startOf frames 0 = 0 := rfl

theorem startOf_succ (frames : List FrameData) (i : Nat) (hi : i < frames.length) :
    startOf frames (i + 1) = startOf frames i + frames[i].blockSize := by
  unfold startOf
  rw [List.take_succ, List.getElem?_eq_getElem hi, Option.toList_some, List.map_append,
    List.sum_append]
  simp

theorem startOf_of_ge (frames : List FrameData) (i : Nat) (hi : frames.length ≤ i) :
    startOf frames i = startOf frames frames.length := by
  unfold startOf
  rw [List.take_of_length_le hi, List.take_of_length_le le_rfl]

theorem startOf_mono (frames : List FrameData) {i j : Nat} (hij : i ≤ j) :
    startOf frames i ≤ startOf frames j := by
  induction j with
  | zero => simp_all
  | succ j ih =>
    rcases Nat.lt_or_ge j frames.length with hj | hj
    · rcases Nat.eq_or_lt_of_le hij with rfl | hlt
      · exact le_rfl
      · exact le_trans (ih (by omega)) (by rw [startOf_succ frames j hj]; omega)
    · rcases Nat.eq_or_lt_of_le hij with rfl | hlt
      · exact le_rfl
      · rw [startOf_of_ge frames (j + 1) (by omega), ← startOf_of_ge frames j hj]
        exact ih (by omega)

theorem startOf_le_total (frames : List FrameData) (i : Nat) :
    startOf frames i ≤ startOf frames frames.length := by
  rcases Nat.lt_or_ge i frames.length with hi | hi
  · exact startOf_mono frames (le_of_lt hi)
  · exact le_of_eq (startOf_of_ge frames i hi)

/-- Well-formedness of a FLAC stream at the driver's level of abstraction:
every frame carries the declared channel count, frames tile the sample range
contiguously from zero, and StreamInfo declares the exact total, which is
non-zero and fits `uint64`. -/
def wfStream (info : StreamInfo) (frames : List FrameData) : Prop :=
  (∀ f ∈ frames, f.channels = info.nchannels) ∧
  (∀ (i : Nat) (hi : i < frames.length), frames[i].sampleNum = startOf frames i) ∧
  info.nsamples = startOf frames frames.length ∧
  info.nsamples ≠ 0 ∧ info.nsamples < U64

/-- On a well-formed stream, `ParseNext` at frame `i` with the counter at
frame `i`'s starting sample succeeds and moves the counter to frame `i+1`'s
starting sample. -/
theorem ParseNext_wf_run (info : StreamInfo) (frames : List FrameData)
    (hwf : wfStream info frames) (i : Nat) (hi : i < frames.length)
    (sd : Nat) (hsd : sd = startOf frames i) (tbl : Option (List SeekPoint)) :
    ParseNext info frames ⟨i, sd, tbl⟩ =
      (.ok frames[i], ⟨i + 1, startOf frames (i + 1), tbl⟩) := by
  obtain ⟨hch, hsn, htot, hnz, hub⟩ := hwf
  unfold ParseNext validateSampleCount
  simp only [List.getElem?_eq_getElem hi]
  have hchi : frames[i].channels = info.nchannels := hch frames[i] (List.getElem_mem hi)
  have hsum : (sd + frames[i].blockSize) % U64 = startOf frames (i + 1) := by
    rw [hsd, ← startOf_succ frames i hi]
    exact Nat.mod_eq_of_lt (by
      have := startOf_le_total frames (i + 1)
      omega)
  simp only [hchi, ne_eq, not_true_eq_false, if_false, ite_false, hsum]
  have hle : ¬ info.nsamples < startOf frames (i + 1) := by
    have := startOf_le_total frames (i + 1)
    omega
  simp [hnz, hle]

/-- On a well-formed stream the seek-table scan, started at frame `i` with
counter and cumulative sample both at `startOf i`, consumes every remaining
frame, emits their synthesized points and ends at the end of the stream. -/
theorem makeSeekTableScan_wf_run (info : StreamInfo) (frames : List FrameData)
    (hwf : wfStream info frames) (tbl : Option (List SeekPoint)) :
    ∀ (n i : Nat), frames.length - i ≤ n → i ≤ frames.length →
      ∀ (points : List SeekPoint),
      makeSeekTableScan info frames (startOf frames i) points ⟨i, startOf frames i, tbl⟩ =
        (.ok (points ++ synthPointsFrom (startOf frames i) i (frames.drop i)),
          ⟨frames.length, startOf frames frames.length, tbl⟩) := by
  have hbase : ∀ (i : Nat), i = frames.length → ∀ (points : List SeekPoint),
      makeSeekTableScan info frames (startOf frames i) points ⟨i, startOf frames i, tbl⟩ =
        (.ok (points ++ synthPointsFrom (startOf frames i) i (frames.drop i)),
          ⟨frames.length, startOf frames frames.length, tbl⟩) := by
    intro i hieq points
    rw [makeSeekTableScan]
    have hnone : frames[i]? = none := List.getElem?_eq_none (by omega)
    have hp : ParseNext info frames ⟨i, startOf frames i, tbl⟩ =
        (.error .eof, ⟨i, startOf frames i, tbl⟩) := by
      unfold ParseNext
      simp [hnone]
    rw [hp]
    rw [List.drop_of_length_le (by omega)]
    subst hieq
    simp [synthPointsFrom]
  intro n
  induction n with
  | zero =>
    intro i hn hi points
    exact hbase i (by omega) points
  | succ n ih =>
    intro i hn hi points
    rcases Nat.eq_or_lt_of_le hi with heq | hlt
    · exact hbase i heq points
    · rw [makeSeekTableScan]
      have hp := ParseNext_wf_run info frames hwf i hlt _ rfl tbl
      have hmod : (startOf frames i + frames[i].blockSize) % U64 = startOf frames (i + 1) := by
        rw [← startOf_succ frames i hlt]
        refine Nat.mod_eq_of_lt ?_
        have h1 := startOf_le_total frames (i + 1)
        obtain ⟨-, -, htot, -, hub⟩ := hwf
        omega
      have hdrop : frames.drop i = frames[i] :: frames.drop (i + 1) :=
        List.drop_eq_getElem_cons hlt
      split
      · rename_i st' heq
        rw [hp] at heq
        exact absurd heq (by simp)
      · rename_i e st' heq
        rw [hp] at heq
        exact absurd heq (by simp)
      · rename_i f st' heq
        rw [hp] at heq
        rw [Prod.mk.injEq] at heq
        obtain ⟨hf, hst⟩ := heq
        cases hf
        cases hst
        have hrec := ih (i + 1) (by omega) (by omega)
          (points ++ [⟨startOf frames i, i, frames[i].blockSize⟩])
        simp only [hmod]
        rw [hrec, hdrop]
        simp only [synthPointsFrom, hmod]
        simp

/-- On a well-formed stream, `makeSeekTable` succeeds and produces the
synthesized seek table while restoring position and sample counter. -/
theorem makeSeekTable_wf_run (info : StreamInfo) (frames : List FrameData)
    (hwf : wfStream info frames) (st : StreamState) :
    makeSeekTable info frames st =
      (.ok (), ⟨st.pos, st.samplesDecoded, some (synthPoints frames)⟩) := by
  simp only [makeSeekTable]
  have hscan := makeSeekTableScan_wf_run info frames hwf st.seekTable
    frames.length 0 (by omega) (by omega) []
  rw [startOf_zero] at hscan
  have hst : ({ st with pos := 0, samplesDecoded := 0 } : StreamState) =
      ⟨0, 0, st.seekTable⟩ := rfl
  rw [hst, hscan]
  simp [synthPoints]

theorem c9_make_seek_table_restores_witness :
    (makeSeekTable ⟨1, 20⟩ [⟨1, 10, 0⟩, ⟨1, 10, 10⟩] ⟨1, 7, none⟩).2.samplesDecoded = 7 ∧
    (makeSeekTable ⟨1, 20⟩ [⟨1, 10, 0⟩, ⟨1, 10, 10⟩] ⟨1, 7, none⟩).2.pos = 1 ∧
    (makeSeekTable ⟨1, 20⟩ [⟨1, 10, 0⟩, ⟨1, 10, 10⟩] ⟨1, 7, none⟩).2.seekTable =
      some (synthPoints [⟨1, 10, 0⟩, ⟨1, 10, 10⟩]) := by
  have hwf : wfStream ⟨1, 20⟩ [⟨1, 10, 0⟩, ⟨1, 10, 10⟩] := by
    refine ⟨by decide, ?_, by decide, by decide, by norm_num [U64]⟩
    decide
  have hrun := makeSeekTable_wf_run ⟨1, 20⟩ [⟨1, 10, 0⟩, ⟨1, 10, 10⟩] hwf ⟨1, 7, none⟩
  have h := c9_make_seek_table_restores ⟨1, 20⟩ [⟨1, 10, 0⟩, ⟨1, 10, 10⟩]
    ⟨1, 7, none⟩ _ hrun
  rw [hrun]
  simpa using h

/-- On a well-formed stream, the forward scan started at frame `j` (with the
counter at frame `j`'s start) lands on the unique frame `m ≥ j` whose samples
cover the target, rewinds to it and returns its starting sample. -/
theorem seekScan_wf_run (info : StreamInfo) (frames : List FrameData)
    (hwf : wfStream info frames) (t : Nat) (tbl : Option (List SeekPoint)) :
    ∀ (n j : Nat), frames.length - j ≤ n → startOf frames j ≤ t →
      t < startOf frames frames.length →
      ∃ m, ∃ (hm : m < frames.length), j ≤ m ∧ startOf frames m ≤ t ∧
        t < startOf frames (m + 1) ∧
        seekScan info frames t ⟨j, startOf frames j, tbl⟩ =
          (.ok (startOf frames m), ⟨m, startOf frames m, tbl⟩) := by
  intro n
  induction n with
  | zero =>
    intro j hn hj ht
    exfalso
    have : startOf frames j = startOf frames frames.length :=
      startOf_of_ge frames j (by omega)
    omega
  | succ n ih =>
    intro j hn hj ht
    rcases Nat.lt_or_ge j frames.length with hlt | hge
    · have hp := ParseNext_wf_run info frames hwf j hlt _ rfl tbl
      have hsnj : frames[j].sampleNum = startOf frames j := hwf.2.1 j hlt
      have hmod : (frames[j].sampleNum + frames[j].blockSize) % U64 = startOf frames (j + 1) := by
        rw [hsnj, ← startOf_succ frames j hlt]
        refine Nat.mod_eq_of_lt ?_
        have h1 := startOf_le_total frames (j + 1)
        obtain ⟨-, -, htot, -, hub⟩ := hwf
        omega
      rw [seekScan]
      split
      · rename_i e st' heq
        rw [hp] at heq
        exact absurd heq (by simp)
      · rename_i f st' heq
        rw [hp] at heq
        rw [Prod.mk.injEq] at heq
        obtain ⟨hf, hst⟩ := heq
        cases hf
        cases hst
        rw [hmod]
        by_cases hc : t < startOf frames (j + 1)
        · rw [if_pos hc]
          exact ⟨j, hlt, le_rfl, hj, hc, by rw [hsnj]⟩
        · rw [if_neg hc]
          obtain ⟨m, hm, hjm, h1, h2, h3⟩ := ih (j + 1) (by omega) (by omega) ht
          exact ⟨m, hm, by omega, h1, h2, h3⟩
    · exfalso
      have : startOf frames j = startOf frames frames.length :=
        startOf_of_ge frames j hge
      omega

/-- The seek-table scan returns either its initial `prev` or one of the
scanned points. -/
theorem searchGo_mem (t : Nat) :
    ∀ (ps : List SeekPoint) (prev : SeekPoint), searchGo t prev ps ∈ prev :: ps := by
  intro ps
  induction ps with
  | nil => intro prev; simp [searchGo]
  | cons p rest ih =>
    intro prev
    simp only [searchGo]
    by_cases h : t ≤ (p.sampleNum + p.nSamples) % U64
    · simp [h]
    · rw [if_neg h]
      have := ih p
      rcases List.mem_cons.mp this with h1 | h1
      · simp [h1]
      · simp [List.mem_cons_of_mem, h1]

/-- When every scanned point's (non-wrapping) sum stays below the target
whenever the scan advances past it, the returned point starts at or before
the target. -/
theorem searchGo_sampleNum_le (t : Nat) :
    ∀ (ps : List SeekPoint) (prev : SeekPoint),
      prev.sampleNum ≤ t → (∀ p ∈ ps, p.sampleNum + p.nSamples < U64) →
      (searchGo t prev ps).sampleNum ≤ t := by
  intro ps
  induction ps with
  | nil => intro prev hprev _; exact hprev
  | cons p rest ih =>
    intro prev hprev hnw
    simp only [searchGo]
    by_cases h : t ≤ (p.sampleNum + p.nSamples) % U64
    · simpa [h] using hprev
    · rw [if_neg h]
      have hpnw : p.sampleNum + p.nSamples < U64 := hnw p (List.mem_cons_self p rest)
      rw [Nat.mod_eq_of_lt hpnw] at h
      exact ih p (by omega) (fun q hq => hnw q (List.mem_cons_of_mem p hq))

/-- Every synthesized seek point for the frames from index `j` on is the
canonical point of some frame `i ≥ j`. -/
theorem synthPointsFrom_mem (info : StreamInfo) (frames : List FrameData)
    (hwf : wfStream info frames) :
    ∀ (n j : Nat), frames.length - j ≤ n → j ≤ frames.length →
      ∀ p ∈ synthPointsFrom (startOf frames j) j (frames.drop j),
        ∃ i, ∃ (hi : i < frames.length), j ≤ i ∧
          p = ⟨startOf frames i, i, frames[i].blockSize⟩ := by
  intro n
  induction n with
  | zero =>
    intro j hn hj p hp
    have : j = frames.length := by omega
    subst this
    rw [List.drop_of_length_le le_rfl] at hp
    simp [synthPointsFrom] at hp
  | succ n ih =>
    intro j hn hj p hp
    rcases Nat.eq_or_lt_of_le hj with heq | hlt
    · subst heq
      rw [List.drop_of_length_le le_rfl] at hp
      simp [synthPointsFrom] at hp
    · rw [List.drop_eq_getElem_cons hlt] at hp
      simp only [synthPointsFrom] at hp
      have hmod : (startOf frames j + frames[j].blockSize) % U64 = startOf frames (j + 1) := by
        rw [← startOf_succ frames j hlt]
        refine Nat.mod_eq_of_lt ?_
        have h1 := startOf_le_total frames (j + 1)
        obtain ⟨-, -, htot, -, hub⟩ := hwf
        omega
      rcases List.mem_cons.mp hp with rfl | hp'
      · exact ⟨j, hlt, le_rfl, rfl⟩
      · rw [hmod] at hp'
        obtain ⟨i, hi, hji, hpi⟩ := ih (j + 1) (by omega) (by omega) p hp'
        exact ⟨i, hi, by omega, hpi⟩

/-- On a well-formed non-empty stream, the lookup over the synthesized seek
table returns the canonical point of a frame starting at or before the
target. -/
theorem searchFromStart_synth (info : StreamInfo) (frames : List FrameData)
    (hwf : wfStream info frames) (t : Nat)
    (hne : frames ≠ []) :
    ∃ i, ∃ (hi : i < frames.length), startOf frames i ≤ t ∧
      searchFromStart (synthPoints frames) t =
        .ok ⟨startOf frames i, i, frames[i].blockSize⟩ := by
  have hsynth : synthPoints frames =
      synthPointsFrom (startOf frames 0) 0 (frames.drop 0) := by
    simp [synthPoints, startOf_zero]
  obtain ⟨f0, rest, hfr⟩ := List.exists_cons_of_ne_nil hne
  have hhead : synthPoints frames =
      ⟨0, 0, f0.blockSize⟩ :: synthPointsFrom ((0 + f0.blockSize) % U64) 1 rest := by
    rw [hfr]
    simp [synthPoints, synthPointsFrom]
  obtain ⟨p0, ps, hps⟩ : ∃ p0 ps, synthPoints frames = p0 :: ps :=
    ⟨_, _, hhead⟩
  have hp0 : p0.sampleNum = 0 := by
    rw [hhead] at hps
    cases hps
    rfl
  have hsearch : searchFromStart (synthPoints frames) t =
      .ok (searchGo t p0 (p0 :: ps)) := by
    rw [hps]
    rfl
  set r := searchGo t p0 (p0 :: ps) with hr
  have hmem : r ∈ p0 :: p0 :: ps := searchGo_mem t (p0 :: ps) p0
  have hmem' : r ∈ synthPoints frames := by
    rcases List.mem_cons.mp hmem with h1 | h1
    · rw [hps, h1]
      exact List.mem_cons_self p0 ps
    · rw [hps]
      exact h1
  have hforms := synthPointsFrom_mem info frames hwf frames.length 0 (by omega) (by omega)
  rw [← hsynth] at hforms
  have hnw : ∀ p ∈ p0 :: ps, p.sampleNum + p.nSamples < U64 := by
    intro p hp
    obtain ⟨i, hi, -, rfl⟩ := hforms p (hps ▸ hp)
    simp only []
    rw [← startOf_succ frames i hi]
    have h1 := startOf_le_total frames (i + 1)
    obtain ⟨-, -, htot, -, hub⟩ := hwf
    omega
  have hle : r.sampleNum ≤ t := by
    refine searchGo_sampleNum_le t (p0 :: ps) p0 ?_ hnw
    rw [hp0]
    exact Nat.zero_le t
  obtain ⟨i, hi, -, hform⟩ := hforms r hmem'
  refine ⟨i, hi, ?_, ?_⟩
  · rw [hform] at hle
    exact hle
  · rw [hsearch, hform]

/-- C1 (amended): on a well-formed seekable stream opened without an embedded
seek table (so `Seek` synthesizes one, whose lookup always lands at or before
the target), `Seek(t)` for `t` below the declared total returns the starting
sample of the frame containing `t`, the following `ParseNext` returns that
frame `F` with `F.sampleNumber ≤ t < F.sampleNumber + F.blockSize`, and the
counter afterwards equals `F.sampleNumber + F.blockSize`. -/
theorem c1_seek_then_parse (info : StreamInfo) (seekTableSize : Nat)
    (frames : List FrameData) (st : StreamState) (t : Nat)
    (hwf : wfStream info frames) (htbl : st.seekTable = none)
    (hsize : 0 < seekTableSize) (ht : t < info.nsamples) :
    ∃ (sn : Nat) (st1 st2 : StreamState) (F : FrameData),
      Seek info seekTableSize frames st t = (.ok sn, st1) ∧
      ParseNext info frames st1 = (.ok F, st2) ∧
      F.sampleNum = sn ∧ sn ≤ t ∧ t < sn + F.blockSize ∧
      st2.samplesDecoded = sn + F.blockSize := by
  have hne : frames ≠ [] := by
    intro hnil
    obtain ⟨-, -, htot, hnz, -⟩ := hwf
    rw [hnil] at htot
    simp [startOf] at htot
    exact hnz htot
  have hmk := makeSeekTable_wf_run info frames hwf st
  obtain ⟨i, hi, hit, hsfs⟩ := searchFromStart_synth info frames hwf t hne
  have httotal : t < startOf frames frames.length := by
    obtain ⟨-, -, htot, -, -⟩ := hwf
    omega
  obtain ⟨m, hm, him, hmt, hmt2, hscan⟩ := seekScan_wf_run info frames hwf t
    (some (synthPoints frames)) frames.length i (by omega) hit httotal
  have hparse := ParseNext_wf_run info frames hwf m hm _ rfl (some (synthPoints frames))
  refine ⟨startOf frames m, ⟨m, startOf frames m, some (synthPoints frames)⟩,
    ⟨m + 1, startOf frames (m + 1), some (synthPoints frames)⟩, frames[m],
    ?_, hparse, hwf.2.1 m hm, hmt, ?_, ?_⟩
  · unfold Seek
    rw [if_pos ⟨htbl, hsize⟩]
    split
    · rename_i e st1 heq
      rw [hmk] at heq
      exact absurd heq (by simp)
    · rename_i u st1 heq
      rw [hmk] at heq
      rw [Prod.mk.injEq] at heq
      obtain ⟨-, hst1⟩ := heq
      cases hst1
      rw [if_neg (by omega)]
      split
      · rename_i heqtbl
        exact absurd heqtbl (by simp)
      · rename_i pts heqtbl
        have hpts : pts = synthPoints frames := by
          have : some (synthPoints frames) = some pts := heqtbl
          exact (Option.some.inj this).symm
        subst hpts
        split
        · rename_i e heqs
          rw [hsfs] at heqs
          exact absurd heqs (by simp)
        · rename_i point heqs
          rw [hsfs] at heqs
          have hpoint : point = ⟨startOf frames i, i, frames[i].blockSize⟩ :=
            (Except.ok.inj heqs).symm
          subst hpoint
          exact hscan
  · rw [← startOf_succ frames m hm]
    exact hmt2
  · simp only []
    rw [← startOf_succ frames m hm]

theorem c1_seek_then_parse_witness :
    ∃ (sn : Nat) (st1 st2 : StreamState) (F : FrameData),
      Seek ⟨1, 20⟩ 100 [⟨1, 10, 0⟩, ⟨1, 10, 10⟩] ⟨0, 0, none⟩ 15 = (.ok sn, st1) ∧
      ParseNext ⟨1, 20⟩ [⟨1, 10, 0⟩, ⟨1, 10, 10⟩] st1 = (.ok F, st2) ∧
      F.sampleNum = sn ∧ sn ≤ 15 ∧ 15 < sn + F.blockSize ∧
      st2.samplesDecoded = sn + F.blockSize := by
  refine c1_seek_then_parse ⟨1, 20⟩ 100 [⟨1, 10, 0⟩, ⟨1, 10, 10⟩] ⟨0, 0, none⟩ 15
    ?_ rfl (by decide) (by decide)
  refine ⟨by decide, by decide, by decide, by decide, by norm_num [U64]⟩

/-- C1 counterexample: a well-formed seekable stream (two contiguous frames of
10 samples, declared total 20) whose metadata seek table holds a single point
starting at sample 10.  `Seek(5)` uses that table, lands on the frame starting
at sample 10 and returns 10, and the subsequent `ParseNext` returns a frame
whose starting sample 10 exceeds the target 5 — refuting
`F.sampleNumber ≤ t`. -/
theorem c1_counterexample :
    Seek ⟨1, 20⟩ 100 [⟨1, 10, 0⟩, ⟨1, 10, 10⟩] ⟨0, 0, some [⟨10, 1, 10⟩]⟩ 5 =
      (.ok 10, ⟨1, 10, some [⟨10, 1, 10⟩]⟩) ∧
    ParseNext ⟨1, 20⟩ [⟨1, 10, 0⟩, ⟨1, 10, 10⟩] ⟨1, 10, some [⟨10, 1, 10⟩]⟩ =
      (.ok ⟨1, 10, 10⟩, ⟨2, 20, some [⟨10, 1, 10⟩]⟩) ∧
    ¬ ((10 : Nat) ≤ 5) := by
  have hp : ParseNext ⟨1, 20⟩ [⟨1, 10, 0⟩, ⟨1, 10, 10⟩] ⟨1, 10, some [⟨10, 1, 10⟩]⟩ =
      (.ok ⟨1, 10, 10⟩, ⟨2, 20, some [⟨10, 1, 10⟩]⟩) := rfl
  refine ⟨?_, hp, by decide⟩
  have hscan : seekScan ⟨1, 20⟩ [⟨1, 10, 0⟩, ⟨1, 10, 10⟩] 5 ⟨1, 10, some [⟨10, 1, 10⟩]⟩ =
      (.ok 10, ⟨1, 10, some [⟨10, 1, 10⟩]⟩) := by
    rw [seekScan]
    split
    · rename_i e st' heq
      rw [hp] at heq
      exact absurd heq (by simp)
    · rename_i f st' heq
      rw [hp] at heq
      rw [Prod.mk.injEq] at heq
      obtain ⟨hf, hst⟩ := heq
      cases hf
      cases hst
      norm_num [U64]
  unfold Seek
  rw [if_neg (by simp)]
  split
  · rename_i e st1 heq
    exact absurd heq (by simp)
  · rename_i u st1 heq
    rw [Prod.mk.injEq] at heq
    obtain ⟨-, hst1⟩ := heq
    cases hst1
    rw [if_neg (by decide)]
    split
    · rename_i heqtbl
      exact absurd heqtbl (by simp)
    · rename_i pts heqtbl
      have hpts : pts = [⟨10, 1, 10⟩] := by
        have : some [(⟨10, 1, 10⟩ : SeekPoint)] = some pts := heqtbl
        exact (Option.some.inj this).symm
      subst hpts
      split
      · rename_i e heqs
        exact absurd heqs (by simp [searchFromStart, searchGo, U64])
      · rename_i point heqs
        have hpoint : point = ⟨10, 1, 10⟩ := by
          have h2 : searchFromStart [(⟨10, 1, 10⟩ : SeekPoint)] 5 = .ok ⟨10, 1, 10⟩ := rfl
          rw [h2] at heqs
          exact (Except.ok.inj heqs).symm
        subst hpoint
        exact hscan

end Flac

namespace Meta

/-- The FLAC stream signature bytes `fLaC`. -/
def flacSignature : List Nat := [102, 76, 97, 67]

/-- The ID3 signature bytes marking a prepended ID3v2 tag. -/
def id3Signature : List Nat := [73, 68, 51]

/-- `io.ReadFull` of a 4-byte buffer from a byte-list source: `io.EOF` when
no byte is available, `io.ErrUnexpectedEOF` on a short read. -/
def readFull4 (l : List Nat) : Except Err (List Nat × List Nat) :=
  if 4 ≤ l.length then .ok (l.take 4, l.drop 4)
  else if l.length = 0 then .error .eof
  else .error .unexpectedEof

/-- A single `bufio.Read` into the zero-initialized 4-byte `sizeBuf`: delivers
up to 4 available bytes (the rest of the array stays zero), errors only when
the source is empty.  `skipID3v2` ignores the returned byte count. -/
def bufRead4 (l : List Nat) : Except Err (List Nat × List Nat) :=
  match l with
  | [] => .error .eof
  | _ => .ok (l.take 4 ++ List.replicate (4 - l.length) 0, l.drop 4)

/-- `bufio.Reader.Discard n`: errors when fewer than `n` bytes can be
skipped. -/
def discard (n : Nat) (l : List Nat) : Except Err (List Nat) :=
  if l.length < n then .error .eof else .ok (l.drop n)

/-- The synchsafe ID3v2 size exactly as the Go code assembles it:
`int(b0)<<21 | int(b1)<<14 | int(b2)<<7 | int(b3)`. -/
def id3Size (s0 s1 s2 s3 : Nat) : Nat :=
  (s0 <<< 21) ||| (s1 <<< 14) ||| (s2 <<< 7) ||| s3

/-- `Stream.skipID3v2`: discard the 2 remaining version/flags bytes (the
first 4 header bytes were consumed by the caller's signature read), read the
4 synchsafe size bytes, and discard that many payload bytes.  The
`bufio.NewReader(stream.r)` wrapper returns `stream.r` itself when it is
already a `*bufio.Reader` (the `New`/`Parse` paths), so the byte source is
consumed in sequence. -/
def skipID3v2 (l : List Nat) : Except Err (List Nat) :=
  match discard 2 l with
  | .error e => .error e
  | .ok l =>
    match bufRead4 l with
    | .error e => .error e
    | .ok (sb, l) =>
      let size := id3Size (sb.headD 0) ((sb.drop 1).headD 0)
        ((sb.drop 2).headD 0) ((sb.drop 3).headD 0)
      discard size l

/-- The body of the first metadata block as seen by `parseStreamInfo`'s type
assertion: either a StreamInfo payload (of abstract type `σ`) or some other
body. -/
inductive MetaBody (σ : Type) where
  | streamInfo (si : σ)
  | other
deriving DecidableEq

/-- `Stream.parseStreamInfo` over a byte-list source, with the metadata block
parser (`meta.Parse`, external to this package's core) abstracted as
`metaParse`: verify the FLAC signature — skipping a prepended ID3v2 tag and
re-reading the signature once — then parse the first metadata block and
require a StreamInfo body. -/
def parseStreamInfo (σ : Type) (metaParse : List Nat → Except Err (MetaBody σ × List Nat))
    (l : List Nat) : Except Err (σ × List Nat) :=
  match readFull4 l with
  | .error e => .error e
  | .ok (buf, l) =>
    match (if buf.take 3 = id3Signature then
            (match skipID3v2 l with
             | .error e => .error e
             | .ok l' => readFull4 l' : Except Err (List Nat × List Nat))
           else .ok (buf, l)) with
    | .error e => .error e
    | .ok (buf, l) =>
      if buf ≠ flacSignature then .error .invalidSignature
      else
        match metaParse l with
        | .error e => .error e
        | .ok (body, l) =>
          match body with
          | .streamInfo si => .ok (si, l)
          | .other => .error .invalidStreamInfo

/-- With synchsafe bytes (high bit clear) the Go shift-or assembly of the
ID3v2 size equals the positional value. -/
theorem id3Size_eq (s0 s1 s2 s3 : Nat) (h0 : s0 < 128) (h1 : s1 < 128)
    (h2 : s2 < 128) (h3 : s3 < 128) :
    id3Size s0 s1 s2 s3 = s0 * 2 ^ 21 + s1 * 2 ^ 14 + s2 * 2 ^ 7 + s3 := by
  unfold id3Size
  rw [Nat.shiftLeft_eq, Nat.shiftLeft_eq, Nat.shiftLeft_eq]
  have e1 : s0 * 2 ^ 21 ||| s1 * 2 ^ 14 = s0 * 2 ^ 21 + s1 * 2 ^ 14 := by
    have h := Nat.mul_add_lt_is_or (i := 21) (b := s1 * 2 ^ 14) (by omega) s0
    rw [mul_comm s0 (2 ^ 21)]
    exact h.symm
  rw [e1]
  have e2 : (s0 * 2 ^ 21 + s1 * 2 ^ 14) ||| s2 * 2 ^ 7 =
      s0 * 2 ^ 21 + s1 * 2 ^ 14 + s2 * 2 ^ 7 := by
    have hrw : s0 * 2 ^ 21 + s1 * 2 ^ 14 = 2 ^ 14 * (s0 * 2 ^ 7 + s1) := by ring
    have h := Nat.mul_add_lt_is_or (i := 14) (b := s2 * 2 ^ 7) (by omega) (s0 * 2 ^ 7 + s1)
    rw [hrw]
    exact h.symm
  rw [e2]
  have hrw : s0 * 2 ^ 21 + s1 * 2 ^ 14 + s2 * 2 ^ 7 =
      2 ^ 7 * (s0 * 2 ^ 14 + s1 * 2 ^ 7 + s2) := by ring
  have h := Nat.mul_add_lt_is_or (i := 7) (b := s3) (by omega) (s0 * 2 ^ 14 + s1 * 2 ^ 7 + s2)
  rw [hrw]
  exact h.symm

/-- C5: for inputs consisting of an ID3v2 tag — the `ID3` marker, the
remaining header bytes, a 4-byte synchsafe size and that many payload bytes —
followed by any remaining stream that does not itself start with `ID3` (in
particular a valid FLAC stream), `parseStreamInfo` behaves exactly as on the
remaining stream alone: opening succeeds if and only if the embedded stream
opens, with the same parsed StreamInfo. -/
theorem c5_id3v2_prefix (σ : Type)
    (metaParse : List Nat → Except Err (MetaBody σ × List Nat))
    (v1 v2 fl s0 s1 s2 s3 : Nat) (payload s : List Nat)
    (h0 : s0 < 128) (h1 : s1 < 128) (h2 : s2 < 128) (h3 : s3 < 128)
    (hlen : payload.length = s0 * 2 ^ 21 + s1 * 2 ^ 14 + s2 * 2 ^ 7 + s3)
    (hs : s.take 3 ≠ id3Signature) :
    parseStreamInfo σ metaParse
      ([73, 68, 51, v1, v2, fl, s0, s1, s2, s3] ++ payload ++ s) =
    parseStreamInfo σ metaParse s := by
  have hsize : id3Size s0 s1 s2 s3 = payload.length := by
    rw [id3Size_eq s0 s1 s2 s3 h0 h1 h2 h3, hlen]
  have hd2 : discard 2 (v2 :: fl :: s0 :: s1 :: s2 :: s3 :: (payload ++ s)) =
      .ok (s0 :: s1 :: s2 :: s3 :: (payload ++ s)) := by
    unfold discard
    rw [if_neg (by simp)]
    simp
  have hbr : bufRead4 (s0 :: s1 :: s2 :: s3 :: (payload ++ s)) =
      .ok ([s0, s1, s2, s3], payload ++ s) := by
    simp only [bufRead4]
    have hz : 4 - (s0 :: s1 :: s2 :: s3 :: (payload ++ s)).length = 0 := by
      simp
    rw [hz]
    simp
  have hskip : skipID3v2 (v2 :: fl :: s0 :: s1 :: s2 :: s3 :: (payload ++ s)) = .ok s := by
    simp only [skipID3v2, hd2, hbr]
    simp only [List.headD_cons, List.drop_succ_cons, List.drop_zero, hsize]
    unfold discard
    rw [if_neg (by simp only [List.length_append]; omega)]
    rw [List.drop_left]
  have hrf : readFull4
      (73 :: 68 :: 51 :: v1 :: v2 :: fl :: s0 :: s1 :: s2 :: s3 :: (payload ++ s)) =
      .ok ([73, 68, 51, v1], v2 :: fl :: s0 :: s1 :: s2 :: s3 :: (payload ++ s)) := by
    unfold readFull4
    rw [if_pos (by simp)]
    simp
  have hL : [73, 68, 51, v1, v2, fl, s0, s1, s2, s3] ++ payload ++ s =
      73 :: 68 :: 51 :: v1 :: v2 :: fl :: s0 :: s1 :: s2 :: s3 :: (payload ++ s) := by
    simp
  rw [hL]
  simp only [parseStreamInfo, hrf, hskip, id3Signature, List.take_succ_cons,
    List.take_zero, reduceIte]
  cases hrf2 : readFull4 s with
  | error e => rfl
  | ok p =>
    obtain ⟨buf, l⟩ := p
    have hbuf : buf = s.take 4 := by
      unfold readFull4 at hrf2
      split at hrf2
      · exact ((Prod.mk.injEq _ _ _ _).mp (Except.ok.inj hrf2)).1.symm
      · split at hrf2 <;> cases hrf2
    have hnid3 : ¬ (List.take 3 buf = [73, 68, 51]) := by
      rw [hbuf, List.take_take]
      simpa [id3Signature] using hs
    simp [hnid3]

theorem c5_id3v2_prefix_witness :
    parseStreamInfo Nat
      (fun l => match l with
        | [] => .error .eof
        | x :: rest => .ok (.streamInfo x, rest))
      ([73, 68, 51, 4, 0, 0, 0, 0, 0, 1] ++ [7] ++ [102, 76, 97, 67, 42]) =
    parseStreamInfo Nat
      (fun l => match l with
        | [] => .error .eof
        | x :: rest => .ok (.streamInfo x, rest))
      [102, 76, 97, 67, 42] :=
  c5_id3v2_prefix Nat _ 4 0 0 0 0 0 1 [7] [102, 76, 97, 67, 42]
    (by decide) (by decide) (by decide) (by decide) (by decide) (by decide)

end Meta

/-- `2 ^ 32`, the modulus of Go's `uint32` arithmetic. -/
def U32 : Nat := 2 ^ 32

namespace Bits

/-- The read-ahead buffer capacity of the bit reader (`readBufSize`). -/
def bufCap : Nat := 4096

/-- The buffered bit reader of the internal `bits` package.  `src` is the
byte stream the underlying `io.Reader` has not yet delivered; `buf` is the
unread window `buf[pos:end]` of the 4096-byte read-ahead buffer; `x`/`n` are
the partial-byte bit register (`x` holds the low `n` bits, `0 ≤ n ≤ 7`).
`consumed` is the ordered trace of bytes logically consumed from the buffer:
the Go code feeds exactly these bytes, in this order, to the CRC-8/CRC-16
accumulators when they are enabled, so the trace abstracts the CRC state
(equal traces with equal enable flags give equal accumulator values). -/
structure Reader where
  src : List Nat
  buf : List Nat
  x : Nat
  n : Nat
  consumed : List Nat
deriving DecidableEq, Repr

/-- `Reader.available`: buffered bytes not yet consumed (`end - pos`). -/
def Reader.available (br : Reader) : Nat := br.buf.length

/-- `Reader.fill`: shift the unread window to the front and read into the
remaining space.  The underlying source delivers as many bytes as are
available, up to the free space; a read at end of source returns `io.EOF`.
A zero-length read on a full buffer returns no error and no progress, as in
Go. -/
def Reader.fill (br : Reader) : Except Err Reader :=
  if br.src.isEmpty then .error .eof
  else
    .ok { br with buf := br.buf ++ br.src.take (bufCap - br.buf.length),
                  src := br.src.drop (bufCap - br.buf.length) }

theorem Reader.fill_ok (br br' : Reader) (h : br.fill = .ok br') :
    br'.buf = br.buf ++ br.src.take (bufCap - br.buf.length) ∧
    br'.src = br.src.drop (bufCap - br.buf.length) ∧
    br'.x = br.x ∧ br'.n = br.n ∧ br'.consumed = br.consumed ∧ br.src ≠ [] := by
  unfold Reader.fill at h
  split at h
  · cases h
  · rename_i hne
    have := Except.ok.inj h
    rw [← this]
    refine ⟨rfl, rfl, rfl, rfl, rfl, ?_⟩
    simpa [List.isEmpty_iff] using hne

/-- `Reader.needBytes`: loop filling until at least `n` bytes are buffered.
On a fill error: a (dead in practice) recheck of availability, then
`io.ErrUnexpectedEOF` when some but not all needed bytes are present, else
the error (`io.EOF`).  When a fill succeeds without progress the Go loop
never terminates; that happens only for `n > bufCap` (never reached from the
package's call sites, which need at most 9 bytes) and is modelled as
`io.EOF`. -/
def Reader.needBytes (br : Reader) (n : Nat) : (Except Err Unit) × Reader :=
  if n ≤ br.available then (.ok (), br)
  else
    match h : br.fill with
    | .error e =>
      if n ≤ br.available then (.ok (), br)
      else if 0 < br.available then (.error .unexpectedEof, br)
      else (.error e, br)
    | .ok br' =>
      if hp : br'.buf.length = br.buf.length then (.error .eof, br')
      else br'.needBytes n
termination_by br.src.length
decreasing_by
  obtain ⟨hbuf, hsrc, -, -, -, hne⟩ := Reader.fill_ok br br' h
  have hlen : br'.buf.length = br.buf.length + (br.src.take (bufCap - br.buf.length)).length := by
    rw [hbuf, List.length_append]
  have htake : (br.src.take (bufCap - br.buf.length)).length ≠ 0 := by
    intro h0
    rw [h0] at hlen
    omega
  have : br'.src.length = br.src.length - (bufCap - br.buf.length) := by
    rw [hsrc, List.length_drop]
  have h2 : (br.src.take (bufCap - br.buf.length)).length =
      min (bufCap - br.buf.length) br.src.length := by
    rw [List.length_take]
  omega

/-- The byte-accumulation loop shared by `Reader.Read` and `Reader.ReadRice`
(`for range nBytes - 1 { x <<= 8; x |= buf[pos]; pos++ }`), with the
`uint64` wrap of the Go shifts. -/
def accBytes (x : Nat) (bs : List Nat) : Nat :=
  bs.foldl (fun a b => (((a <<< 8) % U64) ||| b)) x

/-- `nBytes := rem/8; if rem%8 > 0 { nBytes++ }`: whole bytes needed for the
remaining `rem` bits. -/
def bytesNeeded (rem : Nat) : Nat := rem / 8 + (if rem % 8 = 0 then 0 else 1)

/-- Consuming `k` bytes from the front of the buffer, with the matching
`consumeBytes(oldPos, pos)` trace update. -/
def consumeBuf (br : Reader) (k : Nat) : Reader :=
  { br with buf := br.buf.drop k, consumed := br.consumed ++ br.buf.take k }

/-- The final-byte step shared verbatim by `Reader.Read` and
`Reader.ReadRice`: split the last byte at the requested bit count, buffering
the remainder in the bit register. -/
def finishPartial (x b rem : Nat) (br : Reader) : (Except Err Nat) × Reader :=
  if 0 < rem % 8 then
    (.ok (((x <<< (rem % 8)) % U64) |||
        ((b &&& ((255 <<< (8 - rem % 8)) % 256)) >>> (8 - rem % 8))),
      { br with n := 8 - rem % 8, x := b &&& (255 ^^^ ((255 <<< (8 - rem % 8)) % 256)) })
  else
    (.ok (((x <<< 8) % U64) ||| b), br)

/-- `Reader.Read`: read `n ≤ 64` bits, MSB first, serving from the bit
register first and then from whole buffered bytes.  As in Go, the register
byte `x` is left stale (not cleared) when the register is emptied. -/
def Reader.Read (br : Reader) (n : Nat) : (Except Err Nat) × Reader :=
  if n = 0 then (.ok 0, br)
  else if 64 < n then (.error .outOfRange, br)
  else if br.n = n then
    (.ok br.x, { br with n := 0 })
  else if n < br.n then
    (.ok ((br.x &&& ((255 <<< (br.n - n)) % 256)) >>> (br.n - n)),
      { br with n := br.n - n, x := br.x &&& (255 ^^^ ((255 <<< (br.n - n)) % 256)) })
  else
    match ({ br with n := 0 } : Reader).needBytes (bytesNeeded (n - br.n)) with
    | (.error e, br2) => (.error e, br2)
    | (.ok _, br2) =>
      finishPartial
        (accBytes (if 0 < br.n then br.x else 0) (br2.buf.take (bytesNeeded (n - br.n) - 1)))
        ((br2.buf.drop (bytesNeeded (n - br.n) - 1)).headD 0)
        (n - br.n)
        (consumeBuf br2 (bytesNeeded (n - br.n)))

/-- Fuelled bit length: `bitlenF fuel n` is the number of binary digits of
`n`, exact whenever `n < 2 ^ fuel`.  (Structural recursion keeps it
kernel-reducible.) -/
def bitlenF : Nat → Nat → Nat
  | 0, _ => 0
  | fuel + 1, m => if m = 0 then 0 else bitlenF fuel (m / 2) + 1

/-- The number of binary digits of a value below `2 ^ 64`. -/
def bitlen (m : Nat) : Nat := bitlenF 64 m

/-- `math/bits.LeadingZeros64` for `w < 2 ^ 64`. -/
def clz64 (w : Nat) : Nat := 64 - bitlen w

/-- `math/bits.LeadingZeros8` for `b < 2 ^ 8`. -/
def clz8 (b : Nat) : Nat := 8 - bitlen b

/-- `binary.BigEndian.Uint64` over the given byte list (8 bytes at the call
site). -/
def beUint64 (bs : List Nat) : Nat := bs.foldl (fun a b => a * 256 + b) 0

/-- The buffer scan of `Reader.ReadUnary`: the word-at-a-time loop (8-byte
big-endian view with a 64-bit leading-zero count whenever at least 8 bytes
are buffered) followed by the byte-at-a-time tail.  Returns
`(some value, _, br')` when the terminating 1-bit is found, else
`(none, acc', br')` with the whole buffer consumed.  The bytes consumed are
appended to the trace one span at a time, matching Go's batched
`consumeBytes` ranges byte-for-byte. -/
def unaryScanBuf (acc : Nat) (br : Reader) : (Option Nat) × Nat × Reader :=
  if h8 : 8 ≤ br.buf.length then
    let w := beUint64 (br.buf.take 8)
    if w = 0 then
      unaryScanBuf ((acc + 64) % U64)
        { br with buf := br.buf.drop 8, consumed := br.consumed ++ br.buf.take 8 }
    else
      let lz := clz64 w
      let adv := lz / 8 + 1
      let b := (br.buf.drop (adv - 1)).headD 0
      let n' := 7 - lz % 8
      (some ((acc + lz) % U64), 0,
        { br with buf := br.buf.drop adv, consumed := br.consumed ++ br.buf.take adv,
                  n := n', x := b &&& ((1 <<< n') - 1) })
  else
    match hbuf : br.buf with
    | [] => (none, acc, br)
    | b :: rest =>
      if b = 0 then
        unaryScanBuf ((acc + 8) % U64)
          { br with buf := rest, consumed := br.consumed ++ [b] }
      else
        let lz := clz8 b
        let n' := 7 - lz
        (some ((acc + lz) % U64), 0,
          { br with buf := rest, consumed := br.consumed ++ [b],
                    n := n', x := b &&& ((1 <<< n') - 1) })
termination_by br.buf.length
decreasing_by
  · simp only [List.length_drop]
    omega
  · rw [hbuf]
    simp

/-- The scan leaves the undelivered source untouched, and an exhausted scan
leaves an empty buffer. -/
theorem unaryScanBuf_src (acc : Nat) (br : Reader) :
    (unaryScanBuf acc br).2.2.src = br.src ∧
      ((unaryScanBuf acc br).1 = none → (unaryScanBuf acc br).2.2.buf = []) := by
  suffices key : ∀ (m : Nat) (acc : Nat) (br : Reader), br.buf.length ≤ m →
      (unaryScanBuf acc br).2.2.src = br.src ∧
        ((unaryScanBuf acc br).1 = none → (unaryScanBuf acc br).2.2.buf = []) by
    exact key br.buf.length acc br le_rfl
  intro m
  induction m with
  | zero =>
    intro acc br hm
    have hnil : br.buf = [] := List.eq_nil_of_length_eq_zero (by omega)
    rw [unaryScanBuf]
    rw [dif_neg (by omega)]
    split
    · exact ⟨rfl, fun _ => hnil⟩
    · rename_i b rest heq
      rw [hnil] at heq
      cases heq
  | succ m ih =>
    intro acc br hm
    rw [unaryScanBuf]
    by_cases h8 : 8 ≤ br.buf.length
    · rw [dif_pos h8]
      by_cases hw : beUint64 (br.buf.take 8) = 0
      · simp only [hw, if_true, ite_true]
        have := ih ((acc + 64) % U64)
          { br with buf := br.buf.drop 8, consumed := br.consumed ++ br.buf.take 8 }
          (by simp only [List.length_drop]; omega)
        simpa using this
      · simp only [hw, if_false, ite_false]
        simp
    · rw [dif_neg h8]
      split
      · rename_i heq
        exact ⟨rfl, fun _ => heq⟩
      · rename_i b rest heq
        by_cases hb : b = 0
        · simp only [hb, if_true, ite_true]
          have := ih ((acc + 8) % U64)
            { br with buf := rest, consumed := br.consumed ++ [0] }
            (by rw [heq] at hm; simp at hm ⊢; omega)
          simpa [hb] using this
        · simp only [hb, if_false, ite_false]
          simp

/-- The outer refill loop of `Reader.ReadUnary`: scan the buffer, then
refill and continue counting until the terminating 1-bit appears; a refill
error is returned as-is (register bits and zero-run bytes already consumed
are lost). -/
def unaryLoop (acc : Nat) (br : Reader) : (Except Err Nat) × Reader :=
  match hs : unaryScanBuf acc br with
  | (some v, _, br') => (.ok v, br')
  | (none, acc', br') =>
    match hf : br'.fill with
    | .error e => (.error e, br')
    | .ok br'' => unaryLoop acc' br''
termination_by br.src.length
decreasing_by
  obtain ⟨hsrc, hbuf⟩ := unaryScanBuf_src acc br
  rw [hs] at hsrc hbuf
  have h0 : br'.buf = [] := hbuf rfl
  obtain ⟨hbuf2, hsrc2, -, -, -, hne⟩ := Reader.fill_ok br' br'' hf
  have hp : 0 < br'.src.length := List.length_pos.mpr hne
  have hcap : 0 < bufCap := by norm_num [bufCap]
  have hlen2 : br''.src.length = br'.src.length - (bufCap - br'.buf.length) := by
    rw [hsrc2, List.length_drop]
  have hlen3 : br'.src.length = br.src.length := by rw [hsrc]
  rw [h0] at hlen2
  simp only [List.length_nil, Nat.sub_zero] at hlen2
  omega

/-- `Reader.ReadUnary`: count leading zero bits before the next 1-bit,
consuming that bit.  The bit register is checked first; when it holds only
zeros they are counted, the register is cleared and the byte scan takes
over. -/
def Reader.ReadUnary (br : Reader) : (Except Err Nat) × Reader :=
  if 0 < br.n then
    let lz := clz8 ((br.x <<< (8 - br.n)) % 256)
    if lz < br.n then
      let n' := br.n - (lz + 1)
      (.ok lz, { br with n := n', x := br.x &&& ((1 <<< n') - 1) })
    else
      unaryLoop br.n { br with n := 0, x := 0 }
  else
    unaryLoop 0 br

/-- Phase 2 of `Reader.ReadRice`: read the `k` low bits inline.  The fast
path serves `k ≤ n` directly from the bit register (clearing the consumed
bits); otherwise the register is drained (and, unlike `Reader.Read`,
explicitly zeroed) before whole bytes are consumed by the same inlined
logic as `Reader.Read`. -/
def riceLow (br : Reader) (k : Nat) : (Except Err Nat) × Reader :=
  if k = 0 then (.ok 0, br)
  else if k ≤ br.n then
    (.ok ((br.x &&& ((255 <<< (br.n - k)) % 256)) >>> (br.n - k)),
      { br with n := br.n - k, x := br.x &&& (255 ^^^ ((255 <<< (br.n - k)) % 256)) })
  else
    match (if 0 < br.n then ({ br with n := 0, x := 0 } : Reader) else br).needBytes
        (bytesNeeded (k - br.n)) with
    | (.error e, br2) => (.error e, br2)
    | (.ok _, br2) =>
      finishPartial
        (accBytes (if 0 < br.n then br.x else 0) (br2.buf.take (bytesNeeded (k - br.n) - 1)))
        ((br2.buf.drop (bytesNeeded (k - br.n) - 1)).headD 0)
        (k - br.n)
        (consumeBuf br2 (bytesNeeded (k - br.n)))

/-- The ZigZag decode `int32(folded>>1) ^ -int32(folded&1)` of a `uint32`
value: `folded >> 1` fits 31 bits so the first cast is non-negative, and
xoring with `-1` (when the low bit is set) is two's-complement negation
minus one. -/
def zigzagDecode (folded : Nat) : Int :=
  if folded % 2 = 1 then -(Int.ofNat (folded / 2) + 1) else Int.ofNat (folded / 2)

/-- `Reader.ReadRice`: fused unary prefix, `k` low bits and ZigZag decode.
The fold `uint32(high<<k | low)` is the `uint64` shift-or truncated to 32
bits. -/
def Reader.ReadRice (br : Reader) (k : Nat) : (Except Err Int) × Reader :=
  match br.ReadUnary with
  | (.error e, br1) => (.error e, br1)
  | (.ok high, br1) =>
    match riceLow br1 k with
    | (.error e, br2) => (.error e, br2)
    | (.ok low, br2) =>
      let folded := (((high <<< k) % U64) ||| low) % U32
      (.ok (zigzagDecode folded), br2)

/-- `NewReader`: a fresh bit reader over a byte source. -/
def NewReader (src : List Nat) : Reader := ⟨src, [], 0, 0, []⟩

/-- `needBytes` succeeds whenever the buffer and the source together hold
the requested bytes (at most the buffer capacity): at most one refill is
needed, and it moves as much of the source as fits. -/
theorem needBytes_ok_spec (br : Reader) (n : Nat) (hn : n ≤ bufCap)
    (h : n ≤ br.buf.length + br.src.length) :
    br.needBytes n = (.ok (),
      if n ≤ br.buf.length then br
      else { br with buf := br.buf ++ br.src.take (bufCap - br.buf.length),
                     src := br.src.drop (bufCap - br.buf.length) }) := by
  rw [Reader.needBytes]
  by_cases h1 : n ≤ br.buf.length
  · rw [if_pos (show n ≤ br.available from h1), if_pos h1]
  · rw [if_neg (show ¬ (n ≤ br.available) from h1), if_neg h1]
    have hsrc : ¬ br.src.isEmpty := by
      rw [List.isEmpty_iff]
      intro h0
      rw [h0] at h
      simp at h
      omega
    have hfill : br.fill = .ok { br with
        buf := br.buf ++ br.src.take (bufCap - br.buf.length),
        src := br.src.drop (bufCap - br.buf.length) } := by
      unfold Reader.fill
      rw [if_neg (by simpa using hsrc)]
    split
    · rename_i e heq
      rw [hfill] at heq
      cases heq
    · rename_i br' heq
      rw [hfill] at heq
      have hbr' := (Except.ok.inj heq).symm
      subst hbr'
      have hlen : (br.buf ++ br.src.take (bufCap - br.buf.length)).length =
          br.buf.length + min (bufCap - br.buf.length) br.src.length := by
        simp [List.length_append, List.length_take]
      have hne : ¬ (({ br with
          buf := br.buf ++ br.src.take (bufCap - br.buf.length),
          src := br.src.drop (bufCap - br.buf.length) } : Reader).buf.length =
          br.buf.length) := by
        show ¬ ((br.buf ++ br.src.take (bufCap - br.buf.length)).length = br.buf.length)
        rw [hlen]
        omega
      rw [dif_neg hne]
      rw [Reader.needBytes]
      have hge : n ≤ ({ br with
          buf := br.buf ++ br.src.take (bufCap - br.buf.length),
          src := br.src.drop (bufCap - br.buf.length) } : Reader).available := by
        show n ≤ (br.buf ++ br.src.take (bufCap - br.buf.length)).length
        rw [hlen]
        omega
      rw [if_pos hge]

/-- `needBytes` fails when the buffer and source together cannot supply the
requested bytes: the whole source is drained into the buffer and the error
is `io.EOF` exactly when not a single byte was available, else
`io.ErrUnexpectedEOF`. -/
theorem needBytes_err_spec (br : Reader) (n : Nat) (hn : n ≤ bufCap)
    (h : br.buf.length + br.src.length < n) :
    br.needBytes n =
      ((if 0 < br.buf.length + br.src.length then .error .unexpectedEof else .error .eof),
        { br with buf := br.buf ++ br.src, src := [] }) := by
  have h1 : ¬ (n ≤ br.available) := by
    show ¬ (n ≤ br.buf.length)
    omega
  by_cases hsrc : br.src = []
  · have hbr : ({ br with buf := br.buf ++ br.src, src := [] } : Reader) = br := by
      cases br
      simp_all
    rw [Reader.needBytes, if_neg h1, hbr]
    have hfill : br.fill = .error .eof := by
      unfold Reader.fill
      rw [if_pos (by rw [hsrc]; rfl)]
    split
    · rename_i e heq
      rw [hfill] at heq
      have he : e = .eof := (Except.error.inj heq).symm
      subst he
      rw [if_neg h1]
      rw [hsrc]
      simp only [List.length_nil, Nat.add_zero]
      by_cases h0 : 0 < br.buf.length
      · rw [if_pos (show 0 < br.available from h0), if_pos h0]
      · rw [if_neg (show ¬ (0 < br.available) from h0), if_neg h0]
    · rename_i br' heq
      rw [hfill] at heq
      cases heq
  · have hpos : 0 < br.src.length := List.length_pos.mpr hsrc
    rw [Reader.needBytes, if_neg h1]
    have hsmall : br.src.length ≤ bufCap - br.buf.length := by omega
    have htake : br.src.take (bufCap - br.buf.length) = br.src :=
      List.take_of_length_le hsmall
    have hdrop : br.src.drop (bufCap - br.buf.length) = [] :=
      List.drop_eq_nil_of_le hsmall
    have hfill : br.fill = .ok { br with buf := br.buf ++ br.src, src := [] } := by
      unfold Reader.fill
      rw [if_neg (by simpa [List.isEmpty_iff] using hsrc), htake, hdrop]
    split
    · rename_i e heq
      rw [hfill] at heq
      cases heq
    · rename_i br' heq
      rw [hfill] at heq
      have hbr' := (Except.ok.inj heq).symm
      subst hbr'
      have hne : ¬ (({ br with buf := br.buf ++ br.src, src := [] } : Reader).buf.length =
          br.buf.length) := by
        show ¬ ((br.buf ++ br.src).length = br.buf.length)
        rw [List.length_append]
        omega
      rw [dif_neg hne]
      rw [Reader.needBytes]
      have h2 : ¬ (n ≤ ({ br with buf := br.buf ++ br.src, src := [] } : Reader).available) := by
        show ¬ (n ≤ (br.buf ++ br.src).length)
        rw [List.length_append]
        omega
      rw [if_neg h2]
      have hfill2 : ({ br with buf := br.buf ++ br.src, src := [] } : Reader).fill =
          .error .eof := by
        unfold Reader.fill
        rw [if_pos (show ({ br with buf := br.buf ++ br.src, src := [] } : Reader).src.isEmpty =
          true from rfl)]
      split
      · rename_i e heq2
        rw [hfill2] at heq2
        have he : e = .eof := (Except.error.inj heq2).symm
        subst he
        rw [if_neg h2]
        have h3 : 0 < br.buf.length + br.src.length := by omega
        rw [if_pos h3]
        rw [if_pos (show 0 < ({ br with buf := br.buf ++ br.src, src := [] } : Reader).available by
          show 0 < (br.buf ++ br.src).length
          rw [List.length_append]
          omega)]
      · rename_i br' heq2
        rw [hfill2] at heq2
        cases heq2


/-- C6 (amended): when `Read(n)` must go to the byte source (the register
holds fewer than `n` bits), the outcome is classified by whole bytes: with
no byte available anywhere it returns `io.EOF` — even though the register
bits of the request were already consumed and destroyed (the post-state
register is empty) — with some but not all of the `⌈(n - register)/8⌉`
needed bytes available it returns `io.ErrUnexpectedEOF`, and with enough
bytes it succeeds. -/
theorem c6_read_eof_classification (br : Reader) (n : Nat)
    (hreg : br.n < n) (hn64 : n ≤ 64) (hwf : br.buf.length ≤ bufCap) :
    ((br.buf.length = 0 ∧ br.src.length = 0) →
      (br.Read n).1 = .error .eof ∧ (br.Read n).2.n = 0) ∧
    (0 < br.buf.length + br.src.length →
      br.buf.length + br.src.length < bytesNeeded (n - br.n) →
      (br.Read n).1 = .error .unexpectedEof) ∧
    (bytesNeeded (n - br.n) ≤ br.buf.length + br.src.length →
      ∃ v, (br.Read n).1 = .ok v) := by
  have hn0 : n ≠ 0 := by omega
  have hnb1 : 1 ≤ bytesNeeded (n - br.n) := by
    unfold bytesNeeded
    by_cases hz : (n - br.n) % 8 = 0
    · rw [if_pos hz]
      omega
    · rw [if_neg hz]
      omega
  have hnbcap : bytesNeeded (n - br.n) ≤ bufCap := by
    unfold bytesNeeded
    have h1 : (n - br.n) / 8 ≤ 8 := by omega
    have h2 : (if (n - br.n) % 8 = 0 then 0 else 1) ≤ 1 := by split <;> omega
    norm_num [bufCap]
    omega
  unfold Reader.Read
  rw [if_neg hn0, if_neg (show ¬ (64 < n) by omega), if_neg (show ¬ (br.n = n) by omega),
    if_neg (show ¬ (n < br.n) by omega)]
  refine ⟨?_, ?_, ?_⟩
  · rintro ⟨hb, hs⟩
    have herr := needBytes_err_spec { br with n := 0 } (bytesNeeded (n - br.n)) hnbcap
      (by show br.buf.length + br.src.length < bytesNeeded (n - br.n); omega)
    rw [if_neg (show ¬ (0 < ({ br with n := 0 } : Reader).buf.length +
      ({ br with n := 0 } : Reader).src.length) by
        show ¬ (0 < br.buf.length + br.src.length)
        omega)] at herr
    split
    · rename_i e br2 heq
      rw [herr] at heq
      rw [Prod.mk.injEq] at heq
      obtain ⟨he, hst⟩ := heq
      cases he
      refine ⟨rfl, ?_⟩
      rw [← hst]
    · rename_i u br2 heq
      rw [herr] at heq
      exact absurd heq (by simp)
  · intro hpos hlt
    have herr := needBytes_err_spec { br with n := 0 } (bytesNeeded (n - br.n)) hnbcap
      (by show br.buf.length + br.src.length < bytesNeeded (n - br.n); omega)
    rw [if_pos (show 0 < ({ br with n := 0 } : Reader).buf.length +
      ({ br with n := 0 } : Reader).src.length by
        show 0 < br.buf.length + br.src.length
        omega)] at herr
    split
    · rename_i e br2 heq
      rw [herr] at heq
      rw [Prod.mk.injEq] at heq
      obtain ⟨he, -⟩ := heq
      cases he
      rfl
    · rename_i u br2 heq
      rw [herr] at heq
      exact absurd heq (by simp)
  · intro hge
    have hok := needBytes_ok_spec { br with n := 0 } (bytesNeeded (n - br.n)) hnbcap
      (by show bytesNeeded (n - br.n) ≤ br.buf.length + br.src.length; omega)
    split
    · rename_i e br2 heq
      rw [hok] at heq
      exact absurd heq (by simp)
    · rename_i u br2 heq
      unfold finishPartial
      split
      · exact ⟨_, rfl⟩
      · exact ⟨_, rfl⟩

/-- C6 counterexample: after `Read(5)` on a one-byte source `0x85` the
reader holds 3 buffered bits and an exhausted source; `Read(10)` then
consumes those 3 bits of the request (the post-state register is empty) yet
returns `io.EOF`, not `io.ErrUnexpectedEOF`. -/
theorem c6_counterexample :
    (NewReader [133]).Read 5 = (.ok 16, ⟨[], [], 5, 3, [133]⟩) ∧
    (Reader.Read ⟨[], [], 5, 3, [133]⟩ 10).1 = .error .eof ∧
    (Reader.Read ⟨[], [], 5, 3, [133]⟩ 10).2 = ⟨[], [], 5, 0, [133]⟩ ∧
    Err.eof ≠ Err.unexpectedEof := by
  have hnb1 : (Reader.needBytes ⟨[133], [], 0, 0, []⟩ 1) = (.ok (), ⟨[], [133], 0, 0, []⟩) := by
    have := needBytes_ok_spec ⟨[133], [], 0, 0, []⟩ 1 (by norm_num [bufCap]) (by simp)
    simpa [bufCap] using this
  have hnb2 : (Reader.needBytes ⟨[], [], 5, 0, [133]⟩ 1) = (.error .eof, ⟨[], [], 5, 0, [133]⟩) := by
    have := needBytes_err_spec ⟨[], [], 5, 0, [133]⟩ 1 (by norm_num [bufCap]) (by simp)
    simpa using this
  refine ⟨?_, ?_, ?_, by decide⟩
  · show Reader.Read ⟨[133], [], 0, 0, []⟩ 5 = (.ok 16, ⟨[], [], 5, 3, [133]⟩)
    unfold Reader.Read
    norm_num [bytesNeeded]
    rw [show ({ (⟨[133], [], 0, 0, []⟩ : Reader) with n := 0 } : Reader) =
      ⟨[133], [], 0, 0, []⟩ from rfl] at *
    rw [hnb1]
    simp [finishPartial, accBytes, consumeBuf, U64]
    decide
  · unfold Reader.Read
    norm_num [bytesNeeded]
    rw [show ({ (⟨[], [], 5, 3, [133]⟩ : Reader) with n := 0 } : Reader) =
      ⟨[], [], 5, 0, [133]⟩ from rfl] at *
    rw [hnb2]
  · unfold Reader.Read
    norm_num [bytesNeeded]
    rw [show ({ (⟨[], [], 5, 3, [133]⟩ : Reader) with n := 0 } : Reader) =
      ⟨[], [], 5, 0, [133]⟩ from rfl] at *
    rw [hnb2]

theorem c6_read_eof_classification_witness :
    (Reader.Read ⟨[], [], 5, 3, [133]⟩ 10).1 = .error .eof ∧
    (Reader.Read ⟨[], [], 5, 3, [133]⟩ 10).2.n = 0 :=
  (c6_read_eof_classification ⟨[], [], 5, 3, [133]⟩ 10 (by decide) (by decide)
    (by norm_num [bufCap])).1 ⟨rfl, rfl⟩

/-- The `uint8` register invariant together with the buffer capacity bound:
`n` counts at most 7 buffered bits and `x` holds only those bits. -/
def WF (br : Reader) : Prop :=
  br.n ≤ 7 ∧ br.x < 2 ^ br.n ∧ br.buf.length ≤ bufCap

/-- Observational equivalence of reader states: all components agree, except
that the dead register byte `x` may differ when no bits are buffered. -/
def stateEquiv (s t : Reader) : Prop :=
  s.src = t.src ∧ s.buf = t.buf ∧ s.n = t.n ∧ s.consumed = t.consumed ∧
    (0 < s.n → s.x = t.x)

/-- The unfused composition described by the specification for `ReadRice`:
decode the unary prefix with `ReadUnary`, read the `k` low bits with `Read`
(skipped when `k = 0`), fold and ZigZag exactly as the fused code. -/
def readRiceUnfused (br : Reader) (k : Nat) : (Except Err Int) × Reader :=
  match br.ReadUnary with
  | (.error e, br1) => (.error e, br1)
  | (.ok q, br1) =>
    match (if k = 0 then (.ok 0, br1) else br1.Read k) with
    | (.error e, br2) => (.error e, br2)
    | (.ok r, br2) =>
      (.ok (zigzagDecode ((((q <<< k) % U64) ||| r) % U32)), br2)

/-- `fill` reads only the buffer and source: the register byte passes
through unchanged. -/
theorem fill_x_irrel (st : Reader) (a : Nat) :
    Reader.fill { st with x := a } =
      (st.fill).map (fun t => { t with x := a }) := by
  unfold Reader.fill
  by_cases hs : st.src.isEmpty
  · rw [if_pos hs, if_pos hs]
    rfl
  · rw [if_neg hs, if_neg hs]
    rfl

/-- `needBytes` reads only the buffer and source: the register byte passes
through unchanged, and the outcome does not depend on it. -/
theorem needBytes_x_irrel (st : Reader) (a : Nat) (n : Nat) :
    Reader.needBytes { st with x := a } n =
      ((st.needBytes n).1, { (st.needBytes n).2 with x := a }) := by
  suffices key : ∀ (m : Nat) (st : Reader), st.src.length ≤ m → ∀ (a n : Nat),
      Reader.needBytes { st with x := a } n =
        ((st.needBytes n).1, { (st.needBytes n).2 with x := a }) by
    exact key st.src.length st le_rfl a n
  intro m
  induction m with
  | zero =>
    intro st hm a n
    have hs : st.src = [] := List.eq_nil_of_length_eq_zero (by omega)
    by_cases h1 : n ≤ st.available
    · rw [Reader.needBytes, Reader.needBytes,
        if_pos (show n ≤ ({ st with x := a } : Reader).available from h1), if_pos h1]
    · have hfill : st.fill = .error .eof := by
        unfold Reader.fill
        rw [if_pos (by rw [hs]; rfl)]
      have hfill' : Reader.fill { st with x := a } = .error .eof := by
        rw [fill_x_irrel, hfill]
        rfl
      by_cases h0 : 0 < st.available
      · have hR : st.needBytes n = (.error .unexpectedEof, st) := by
          rw [Reader.needBytes, if_neg h1]
          split
          · rename_i e heq
            rw [hfill] at heq
            have he := (Except.error.inj heq).symm
            subst he
            rw [if_neg h1, if_pos h0]
          · rename_i br' heq
            rw [hfill] at heq
            cases heq
        have hL : Reader.needBytes { st with x := a } n =
            (.error .unexpectedEof, { st with x := a }) := by
          rw [Reader.needBytes,
            if_neg (show ¬ (n ≤ ({ st with x := a } : Reader).available) from h1)]
          split
          · rename_i e heq
            rw [hfill'] at heq
            have he := (Except.error.inj heq).symm
            subst he
            rw [if_neg (show ¬ (n ≤ ({ st with x := a } : Reader).available) from h1),
              if_pos (show 0 < ({ st with x := a } : Reader).available from h0)]
          · rename_i br' heq
            rw [hfill'] at heq
            cases heq
        rw [hL, hR]
      · have hR : st.needBytes n = (.error .eof, st) := by
          rw [Reader.needBytes, if_neg h1]
          split
          · rename_i e heq
            rw [hfill] at heq
            have he := (Except.error.inj heq).symm
            subst he
            rw [if_neg h1, if_neg h0]
          · rename_i br' heq
            rw [hfill] at heq
            cases heq
        have hL : Reader.needBytes { st with x := a } n =
            (.error .eof, { st with x := a }) := by
          rw [Reader.needBytes,
            if_neg (show ¬ (n ≤ ({ st with x := a } : Reader).available) from h1)]
          split
          · rename_i e heq
            rw [hfill'] at heq
            have he := (Except.error.inj heq).symm
            subst he
            rw [if_neg (show ¬ (n ≤ ({ st with x := a } : Reader).available) from h1),
              if_neg (show ¬ (0 < ({ st with x := a } : Reader).available) from h0)]
          · rename_i br' heq
            rw [hfill'] at heq
            cases heq
        rw [hL, hR]
  | succ m ih =>
    intro st hm a n
    by_cases h1 : n ≤ st.available
    · rw [Reader.needBytes, Reader.needBytes,
        if_pos (show n ≤ ({ st with x := a } : Reader).available from h1), if_pos h1]
    · cases hfill : st.fill with
      | error e =>
        have hfill' : Reader.fill { st with x := a } = .error e := by
          rw [fill_x_irrel, hfill]
          rfl
        by_cases h0 : 0 < st.available
        · have hR : st.needBytes n = (.error .unexpectedEof, st) := by
            rw [Reader.needBytes, if_neg h1]
            split
            · rename_i e2 heq
              rw [hfill] at heq
              have he := (Except.error.inj heq).symm
              subst he
              rw [if_neg h1, if_pos h0]
            · rename_i br' heq
              rw [hfill] at heq
              cases heq
          have hL : Reader.needBytes { st with x := a } n =
              (.error .unexpectedEof, { st with x := a }) := by
            rw [Reader.needBytes,
              if_neg (show ¬ (n ≤ ({ st with x := a } : Reader).available) from h1)]
            split
            · rename_i e2 heq
              rw [hfill'] at heq
              have he := (Except.error.inj heq).symm
              subst he
              rw [if_neg (show ¬ (n ≤ ({ st with x := a } : Reader).available) from h1),
                if_pos (show 0 < ({ st with x := a } : Reader).available from h0)]
            · rename_i br' heq
              rw [hfill'] at heq
              cases heq
          rw [hL, hR]
        · have hR : st.needBytes n = (.error e, st) := by
            rw [Reader.needBytes, if_neg h1]
            split
            · rename_i e2 heq
              rw [hfill] at heq
              have he := (Except.error.inj heq).symm
              subst he
              rw [if_neg h1, if_neg h0]
            · rename_i br' heq
              rw [hfill] at heq
              cases heq
          have hL : Reader.needBytes { st with x := a } n =
              (.error e, { st with x := a }) := by
            rw [Reader.needBytes,
              if_neg (show ¬ (n ≤ ({ st with x := a } : Reader).available) from h1)]
            split
            · rename_i e2 heq
              rw [hfill'] at heq
              have he := (Except.error.inj heq).symm
              subst he
              rw [if_neg (show ¬ (n ≤ ({ st with x := a } : Reader).available) from h1),
                if_neg (show ¬ (0 < ({ st with x := a } : Reader).available) from h0)]
            · rename_i br' heq
              rw [hfill'] at heq
              cases heq
          rw [hL, hR]
      | ok st' =>
        have hfill' : Reader.fill { st with x := a } = .ok { st' with x := a } := by
          rw [fill_x_irrel, hfill]
          rfl
        by_cases hp : st'.buf.length = st.buf.length
        · have hR : st.needBytes n = (.error .eof, st') := by
            rw [Reader.needBytes, if_neg h1]
            split
            · rename_i e heq
              rw [hfill] at heq
              cases heq
            · rename_i br' heq
              rw [hfill] at heq
              have hb := (Except.ok.inj heq).symm
              subst hb
              rw [dif_pos hp]
          have hL : Reader.needBytes { st with x := a } n =
              (.error .eof, { st' with x := a }) := by
            rw [Reader.needBytes,
              if_neg (show ¬ (n ≤ ({ st with x := a } : Reader).available) from h1)]
            split
            · rename_i e heq
              rw [hfill'] at heq
              cases heq
            · rename_i br' heq
              rw [hfill'] at heq
              have hb := (Except.ok.inj heq).symm
              subst hb
              rw [dif_pos (show ({ st' with x := a } : Reader).buf.length =
                ({ st with x := a } : Reader).buf.length from hp)]
          rw [hL, hR]
        · have hR : st.needBytes n = st'.needBytes n := by
            rw [Reader.needBytes, if_neg h1]
            split
            · rename_i e heq
              rw [hfill] at heq
              cases heq
            · rename_i br' heq
              rw [hfill] at heq
              have hb := (Except.ok.inj heq).symm
              subst hb
              rw [dif_neg hp]
          have hL : Reader.needBytes { st with x := a } n =
              Reader.needBytes { st' with x := a } n := by
            rw [Reader.needBytes,
              if_neg (show ¬ (n ≤ ({ st with x := a } : Reader).available) from h1)]
            split
            · rename_i e heq
              rw [hfill'] at heq
              cases heq
            · rename_i br' heq
              rw [hfill'] at heq
              have hb := (Except.ok.inj heq).symm
              subst hb
              rw [dif_neg (show ¬ (({ st' with x := a } : Reader).buf.length =
                ({ st with x := a } : Reader).buf.length) from hp)]
          obtain ⟨hbuf, hsrc, -, -, -, hne⟩ := Reader.fill_ok st st' hfill
          have hlt : st'.src.length ≤ m := by
            have h2 : st'.src.length = st.src.length - (bufCap - st.buf.length) := by
              rw [hsrc, List.length_drop]
            have h3 : (st.src.take (bufCap - st.buf.length)).length =
                min (bufCap - st.buf.length) st.src.length := List.length_take ..
            have h4 : st'.buf.length = st.buf.length +
                (st.src.take (bufCap - st.buf.length)).length := by
              rw [hbuf, List.length_append]
            have hp5 : 0 < st.src.length := List.length_pos.mpr hne
            omega
          rw [hL, hR]
          exact ih st' hlt a n

/-- `stateEquiv` is reflexive. -/
theorem stateEquiv_refl (s : Reader) : stateEquiv s s :=
  ⟨rfl, rfl, rfl, rfl, fun _ => rfl⟩

/-- Writing the already-zero bit count back is the identity on the state. -/
theorem Reader.eta0 (br : Reader) (h : br.n = 0) : ({ br with n := 0 } : Reader) = br := by
  cases br with
  | mk s b x n c =>
    simp only at h
    subst h
    rfl

/-- `Reader.Read 0` returns `0` at once. -/
theorem Read_zero (br : Reader) : br.Read 0 = (.ok 0, br) := by
  unfold Reader.Read
  rw [if_pos rfl]

/-- `needBytes` never touches the bit register: `n` and `x` pass through. -/
theorem needBytes_nx (br : Reader) (nb : Nat) :
    (br.needBytes nb).2.n = br.n ∧ (br.needBytes nb).2.x = br.x := by
  suffices key : ∀ (m : Nat) (br : Reader), br.src.length ≤ m → ∀ (nb : Nat),
      (br.needBytes nb).2.n = br.n ∧ (br.needBytes nb).2.x = br.x by
    exact key br.src.length br le_rfl nb
  intro m
  induction m with
  | zero =>
    intro br hm nb
    have hs : br.src = [] := List.eq_nil_of_length_eq_zero (by omega)
    rw [Reader.needBytes]
    by_cases h1 : nb ≤ br.available
    · rw [if_pos h1]
      exact ⟨rfl, rfl⟩
    · rw [if_neg h1]
      have hfill : br.fill = .error .eof := by
        unfold Reader.fill
        rw [if_pos (by rw [hs]; rfl)]
      split
      · split
        · exact ⟨rfl, rfl⟩
        · split
          · exact ⟨rfl, rfl⟩
          · exact ⟨rfl, rfl⟩
      · rename_i br' heq
        rw [hfill] at heq
        cases heq
  | succ m ih =>
    intro br hm nb
    rw [Reader.needBytes]
    by_cases h1 : nb ≤ br.available
    · rw [if_pos h1]
      exact ⟨rfl, rfl⟩
    · rw [if_neg h1]
      split
      · split
        · exact ⟨rfl, rfl⟩
        · split
          · exact ⟨rfl, rfl⟩
          · exact ⟨rfl, rfl⟩
      · rename_i br' heq
        obtain ⟨hbuf, hsrc, hx, hn, -, hne⟩ := Reader.fill_ok br br' heq
        by_cases hp : br'.buf.length = br.buf.length
        · rw [dif_pos hp]
          exact ⟨hn, hx⟩
        · rw [dif_neg hp]
          have hlt : br'.src.length ≤ m := by
            have h2 : br'.src.length = br.src.length - (bufCap - br.buf.length) := by
              rw [hsrc, List.length_drop]
            have h3 : (br.src.take (bufCap - br.buf.length)).length =
                min (bufCap - br.buf.length) br.src.length := List.length_take ..
            have h4 : br'.buf.length = br.buf.length +
                (br.src.take (bufCap - br.buf.length)).length := by
              rw [hbuf, List.length_append]
            have hp5 : 0 < br.src.length := List.length_pos.mpr hne
            omega
          obtain ⟨ihn, ihx⟩ := ih br' hlt nb
          exact ⟨ihn.trans hn, ihx.trans hx⟩

/-- A successful buffer scan leaves a well-formed bit register: at most 7
bits, and only those bits set. -/
theorem unaryScanBuf_some_reg (acc : Nat) (br : Reader) (v m2 : Nat) (br' : Reader)
    (h : unaryScanBuf acc br = (some v, m2, br')) :
    br'.n ≤ 7 ∧ br'.x < 2 ^ br'.n := by
  suffices key : ∀ (m : Nat) (acc : Nat) (br : Reader), br.buf.length ≤ m →
      ∀ (v m2 : Nat) (br' : Reader), unaryScanBuf acc br = (some v, m2, br') →
      br'.n ≤ 7 ∧ br'.x < 2 ^ br'.n by
    exact key br.buf.length acc br le_rfl v m2 br' h
  intro m
  induction m with
  | zero =>
    intro acc br hm v m2 br' h
    have hnil : br.buf = [] := List.eq_nil_of_length_eq_zero (by omega)
    rw [unaryScanBuf, dif_neg (by omega)] at h
    split at h
    · cases h
    · rename_i b rest heq
      rw [hnil] at heq
      cases heq
  | succ m ih =>
    intro acc br hm v m2 br' h
    rw [unaryScanBuf] at h
    by_cases h8 : 8 ≤ br.buf.length
    · rw [dif_pos h8] at h
      by_cases hw : beUint64 (br.buf.take 8) = 0
      · rw [if_pos hw] at h
        exact ih ((acc + 64) % U64) _ (by simp only [List.length_drop]; omega) v m2 br' h
      · rw [if_neg hw] at h
        have hbr' := (Prod.mk.inj (Prod.mk.inj h).2).2.symm
        subst hbr'
        refine ⟨(by omega : 7 - clz64 (beUint64 (br.buf.take 8)) % 8 ≤ 7), ?_⟩
        show ((br.buf.drop (clz64 (beUint64 (br.buf.take 8)) / 8 + 1 - 1)).headD 0) &&&
            ((1 <<< (7 - clz64 (beUint64 (br.buf.take 8)) % 8)) - 1) <
          2 ^ (7 - clz64 (beUint64 (br.buf.take 8)) % 8)
        calc _ ≤ (1 <<< (7 - clz64 (beUint64 (br.buf.take 8)) % 8)) - 1 := Nat.and_le_right
        _ < 2 ^ (7 - clz64 (beUint64 (br.buf.take 8)) % 8) := by
            rw [Nat.shiftLeft_eq, one_mul]
            have h2p : 0 < 2 ^ (7 - clz64 (beUint64 (br.buf.take 8)) % 8) :=
              pow_pos (by norm_num) _
            omega
    · rw [dif_neg h8] at h
      split at h
      · cases h
      · rename_i b rest heq
        by_cases hb : b = 0
        · rw [if_pos hb] at h
          refine ih ((acc + 8) % U64) _ ?_ v m2 br' h
          rw [heq] at hm
          simp at hm ⊢
          omega
        · rw [if_neg hb] at h
          have hbr' := (Prod.mk.inj (Prod.mk.inj h).2).2.symm
          subst hbr'
          refine ⟨(by omega : 7 - clz8 b ≤ 7), ?_⟩
          show b &&& ((1 <<< (7 - clz8 b)) - 1) < 2 ^ (7 - clz8 b)
          calc b &&& ((1 <<< (7 - clz8 b)) - 1) ≤ (1 <<< (7 - clz8 b)) - 1 := Nat.and_le_right
          _ < 2 ^ (7 - clz8 b) := by
              rw [Nat.shiftLeft_eq, one_mul]
              have h2p : 0 < 2 ^ (7 - clz8 b) := pow_pos (by norm_num) _
              omega

/-- A successful unary byte loop leaves a well-formed bit register. -/
theorem unaryLoop_reg (acc : Nat) (br : Reader) (v : Nat) (br' : Reader)
    (h : unaryLoop acc br = (.ok v, br')) :
    br'.n ≤ 7 ∧ br'.x < 2 ^ br'.n := by
  suffices key : ∀ (m : Nat) (acc : Nat) (br : Reader), br.src.length ≤ m →
      ∀ (v : Nat) (br' : Reader), unaryLoop acc br = (.ok v, br') →
      br'.n ≤ 7 ∧ br'.x < 2 ^ br'.n by
    exact key br.src.length acc br le_rfl v br' h
  intro m
  induction m with
  | zero =>
    intro acc br hm v br' h
    rw [unaryLoop] at h
    split at h
    · rename_i v2 m2 br2 heq
      obtain ⟨h1, h2⟩ := Prod.mk.inj h
      rw [← h2]
      exact unaryScanBuf_some_reg acc br v2 m2 br2 heq
    · rename_i acc2 br2 heq
      split at h
      · cases h
      · rename_i br3 hf
        obtain ⟨hsrc, hbufnil⟩ := unaryScanBuf_src acc br
        rw [heq] at hsrc hbufnil
        obtain ⟨-, -, -, -, -, hne⟩ := Reader.fill_ok br2 br3 hf
        have hpos : 0 < br2.src.length := List.length_pos.mpr hne
        simp only at hsrc
        have hl : br2.src.length = br.src.length := by rw [hsrc]
        omega
  | succ m ih =>
    intro acc br hm v br' h
    rw [unaryLoop] at h
    split at h
    · rename_i v2 m2 br2 heq
      obtain ⟨h1, h2⟩ := Prod.mk.inj h
      rw [← h2]
      exact unaryScanBuf_some_reg acc br v2 m2 br2 heq
    · rename_i acc2 br2 heq
      split at h
      · cases h
      · rename_i br3 hf
        obtain ⟨hsrc, hbufnil⟩ := unaryScanBuf_src acc br
        rw [heq] at hsrc hbufnil
        simp only at hsrc hbufnil
        have hb0 : br2.buf = [] := hbufnil trivial
        have hl : br2.src.length = br.src.length := by rw [hsrc]
        obtain ⟨hbuf3, hsrc3, -, -, -, hne⟩ := Reader.fill_ok br2 br3 hf
        have hp : 0 < br2.src.length := List.length_pos.mpr hne
        have hlen2 : br3.src.length = br2.src.length - (bufCap - br2.buf.length) := by
          rw [hsrc3, List.length_drop]
        have hcap : 0 < bufCap := by norm_num [bufCap]
        rw [hb0] at hlen2
        simp only [List.length_nil, Nat.sub_zero] at hlen2
        exact ih acc2 br3 (by omega) v br' h

/-- A successful `ReadUnary` leaves a well-formed bit register, provided the
incoming bit count is in range (at most 7, as the `uint` field always is). -/
theorem ReadUnary_reg (br : Reader) (hn : br.n ≤ 7) (q : Nat) (br1 : Reader)
    (h : br.ReadUnary = (.ok q, br1)) :
    br1.n ≤ 7 ∧ br1.x < 2 ^ br1.n := by
  unfold Reader.ReadUnary at h
  by_cases h0 : 0 < br.n
  · rw [if_pos h0] at h
    by_cases hlz : clz8 ((br.x <<< (8 - br.n)) % 256) < br.n
    · rw [if_pos hlz] at h
      have hbr1 := (Prod.mk.inj h).2.symm
      subst hbr1
      refine ⟨by simp only; omega, ?_⟩
      show br.x &&& ((1 <<< (br.n - (clz8 ((br.x <<< (8 - br.n)) % 256) + 1))) - 1) <
        2 ^ (br.n - (clz8 ((br.x <<< (8 - br.n)) % 256) + 1))
      calc _ ≤ (1 <<< (br.n - (clz8 ((br.x <<< (8 - br.n)) % 256) + 1))) - 1 :=
            Nat.and_le_right
      _ < 2 ^ (br.n - (clz8 ((br.x <<< (8 - br.n)) % 256) + 1)) := by
          rw [Nat.shiftLeft_eq, one_mul]
          have h2p : 0 < 2 ^ (br.n - (clz8 ((br.x <<< (8 - br.n)) % 256) + 1)) :=
            pow_pos (by norm_num) _
          omega
    · rw [if_neg hlz] at h
      exact unaryLoop_reg _ _ _ _ h
  · rw [if_neg h0] at h
    exact unaryLoop_reg _ _ _ _ h

/-- Phase 2 of `ReadRice` against the full `Read` entry path: for a register
byte in `uint8` range and a bit count in range, both return the same value,
and the same state except that the inlined path zeroes the dead register
byte where `Read` leaves it stale. -/
theorem riceLow_Read (br : Reader) (k : Nat) (hx : br.x < 256) (hk : k ≤ 64) :
    (riceLow br k).1 = (br.Read k).1 ∧ stateEquiv (riceLow br k).2 (br.Read k).2 := by
  by_cases hk0 : k = 0
  · subst hk0
    rw [Read_zero]
    unfold riceLow
    rw [if_pos rfl]
    exact ⟨rfl, stateEquiv_refl br⟩
  · by_cases hkn : k ≤ br.n
    · by_cases hkeq : br.n = k
      · have hL : riceLow br k = (.ok (br.x &&& 255), { br with n := 0, x := 0 }) := by
          unfold riceLow
          rw [if_neg hk0, if_pos hkn, show br.n - k = 0 from by omega]
          simp
        have hR : br.Read k = (.ok br.x, { br with n := 0 }) := by
          unfold Reader.Read
          rw [if_neg hk0, if_neg (by omega : ¬ 64 < k), if_pos hkeq]
        rw [hL, hR]
        refine ⟨?_, rfl, rfl, rfl, rfl, fun hpos => absurd (show (0:Nat) < 0 from hpos) (by omega)⟩
        show Except.ok (br.x &&& 255) = Except.ok br.x
        have hand : br.x &&& 255 = br.x := by
          have h255 : (255 : Nat) = 2 ^ 8 - 1 := by norm_num
          rw [h255, Nat.and_pow_two_sub_one_eq_mod, Nat.mod_eq_of_lt hx]
        rw [hand]
      · have hklt : k < br.n := by omega
        have hL : riceLow br k = (.ok ((br.x &&& ((255 <<< (br.n - k)) % 256)) >>> (br.n - k)),
            { br with n := br.n - k, x := br.x &&& (255 ^^^ ((255 <<< (br.n - k)) % 256)) }) := by
          unfold riceLow
          rw [if_neg hk0, if_pos hkn]
        have hR : br.Read k = (.ok ((br.x &&& ((255 <<< (br.n - k)) % 256)) >>> (br.n - k)),
            { br with n := br.n - k, x := br.x &&& (255 ^^^ ((255 <<< (br.n - k)) % 256)) }) := by
          unfold Reader.Read
          rw [if_neg hk0, if_neg (by omega : ¬ 64 < k), if_neg hkeq, if_pos hklt]
        rw [hL, hR]
        exact ⟨rfl, stateEquiv_refl _⟩
    · have hklt : br.n < k := by omega
      by_cases h0n : 0 < br.n
      · rcases hres : Reader.needBytes ({ br with n := 0 } : Reader) (bytesNeeded (k - br.n))
          with ⟨res, br2R⟩
        have hres0 : Reader.needBytes ({ br with n := 0, x := 0 } : Reader)
            (bytesNeeded (k - br.n)) = (res, { br2R with x := 0 }) := by
          have h := needBytes_x_irrel ({ br with n := 0 } : Reader) 0 (bytesNeeded (k - br.n))
          rw [hres] at h
          exact h
        have hn2 : br2R.n = 0 := by
          have h := (needBytes_nx ({ br with n := 0 } : Reader) (bytesNeeded (k - br.n))).1
          rw [hres] at h
          exact h
        cases res with
        | error e =>
          have hL : riceLow br k = (.error e, { br2R with x := 0 }) := by
            unfold riceLow
            rw [if_neg hk0, if_neg hkn, if_pos h0n, hres0]
          have hR : br.Read k = (.error e, br2R) := by
            unfold Reader.Read
            rw [if_neg hk0, if_neg (by omega : ¬ 64 < k), if_neg (by omega : ¬ br.n = k),
              if_neg (by omega : ¬ k < br.n), hres]
          rw [hL, hR]
          exact ⟨rfl, rfl, rfl, rfl, rfl,
            fun hpos => absurd (show 0 < br2R.n from hpos) (by omega)⟩
        | ok u =>
          have hL : riceLow br k = finishPartial
              (accBytes br.x (br2R.buf.take (bytesNeeded (k - br.n) - 1)))
              ((br2R.buf.drop (bytesNeeded (k - br.n) - 1)).headD 0)
              (k - br.n)
              (consumeBuf { br2R with x := 0 } (bytesNeeded (k - br.n))) := by
            unfold riceLow
            rw [if_neg hk0, if_neg hkn, if_pos h0n, if_pos h0n, hres0]
          have hR : br.Read k = finishPartial
              (accBytes br.x (br2R.buf.take (bytesNeeded (k - br.n) - 1)))
              ((br2R.buf.drop (bytesNeeded (k - br.n) - 1)).headD 0)
              (k - br.n)
              (consumeBuf br2R (bytesNeeded (k - br.n))) := by
            unfold Reader.Read
            rw [if_neg hk0, if_neg (by omega : ¬ 64 < k), if_neg (by omega : ¬ br.n = k),
              if_neg (by omega : ¬ k < br.n), if_pos h0n, hres]
          rw [hL, hR]
          unfold finishPartial
          by_cases he : 0 < (k - br.n) % 8
          · rw [if_pos he, if_pos he]
            exact ⟨rfl, stateEquiv_refl _⟩
          · rw [if_neg he, if_neg he]
            exact ⟨rfl, rfl, rfl, rfl, rfl,
              fun hpos => absurd (show 0 < br2R.n from hpos) (by omega)⟩
      · have hn0 : br.n = 0 := by omega
        have heta : ({ br with n := 0 } : Reader) = br := Reader.eta0 br hn0
        rcases hres : br.needBytes (bytesNeeded (k - br.n)) with ⟨res, br2R⟩
        cases res with
        | error e =>
          have hL : riceLow br k = (.error e, br2R) := by
            unfold riceLow
            rw [if_neg hk0, if_neg hkn, if_neg h0n, hres]
          have hR : br.Read k = (.error e, br2R) := by
            unfold Reader.Read
            rw [if_neg hk0, if_neg (by omega : ¬ 64 < k), if_neg (by omega : ¬ br.n = k),
              if_neg (by omega : ¬ k < br.n), heta, hres]
          rw [hL, hR]
          exact ⟨rfl, stateEquiv_refl _⟩
        | ok u =>
          have hL : riceLow br k = finishPartial
              (accBytes 0 (br2R.buf.take (bytesNeeded (k - br.n) - 1)))
              ((br2R.buf.drop (bytesNeeded (k - br.n) - 1)).headD 0)
              (k - br.n)
              (consumeBuf br2R (bytesNeeded (k - br.n))) := by
            unfold riceLow
            rw [if_neg hk0, if_neg hkn, if_neg h0n, if_neg h0n, hres]
          have hR : br.Read k = finishPartial
              (accBytes 0 (br2R.buf.take (bytesNeeded (k - br.n) - 1)))
              ((br2R.buf.drop (bytesNeeded (k - br.n) - 1)).headD 0)
              (k - br.n)
              (consumeBuf br2R (bytesNeeded (k - br.n))) := by
            unfold Reader.Read
            rw [if_neg hk0, if_neg (by omega : ¬ 64 < k), if_neg (by omega : ¬ br.n = k),
              if_neg (by omega : ¬ k < br.n), if_neg h0n, heta, hres]
          rw [hL, hR]
          exact ⟨rfl, stateEquiv_refl _⟩

/-- Computation rule for `ReadRice` from the results of its two phases. -/
theorem ReadRice_run (br br1 br2 : Reader) (k q low : Nat)
    (h1 : br.ReadUnary = (.ok q, br1)) (h2 : riceLow br1 k = (.ok low, br2)) :
    br.ReadRice k = (.ok (zigzagDecode ((((q <<< k) % U64) ||| low) % U32)), br2) := by
  unfold Reader.ReadRice
  split
  · rename_i e br1' heq
    rw [h1] at heq
    injection heq with ha hb
    cases ha
  · rename_i q' br1' heq
    rw [h1] at heq
    injection heq with ha hb
    have hq : q = q' := Except.ok.inj ha
    subst hq
    subst hb
    split
    · rename_i e br2' heq2
      rw [h2] at heq2
      injection heq2 with ha2 hb2
      cases ha2
    · rename_i low' br2' heq2
      rw [h2] at heq2
      injection heq2 with ha2 hb2
      have hlow : low = low' := Except.ok.inj ha2
      subst hlow
      subst hb2
      rfl

/-- Computation rule for the unfused composition from the results of its two
phases. -/
theorem readRiceUnfused_run (br br1 br2 : Reader) (k q low : Nat)
    (h1 : br.ReadUnary = (.ok q, br1)) (h2 : br1.Read k = (.ok low, br2)) :
    readRiceUnfused br k = (.ok (zigzagDecode ((((q <<< k) % U64) ||| low) % U32)), br2) := by
  unfold readRiceUnfused
  have h2' : (if k = 0 then ((.ok 0 : Except Err Nat), br1) else br1.Read k) = (.ok low, br2) := by
    by_cases hk0 : k = 0
    · rw [if_pos hk0]
      rw [hk0, Read_zero] at h2
      injection h2 with ha hb
      rw [← hb]
      have : (0 : Nat) = low := Except.ok.inj ha
      rw [← this]
    · rw [if_neg hk0]
      exact h2
  split
  · rename_i e br1' heq
    rw [h1] at heq
    injection heq with ha hb
    cases ha
  · rename_i q' br1' heq
    rw [h1] at heq
    injection heq with ha hb
    have hq : q = q' := Except.ok.inj ha
    subst hq
    subst hb
    split
    · rename_i e br2' heq2
      rw [h2'] at heq2
      injection heq2 with ha2 hb2
      cases ha2
    · rename_i low' br2' heq2
      rw [h2'] at heq2
      injection heq2 with ha2 hb2
      have hlow : low = low' := Except.ok.inj ha2
      subst hlow
      subst hb2
      rfl

/-- Computation rule for `ReadRice` when the low-bits phase fails. -/
theorem ReadRice_run_err (br br1 br2 : Reader) (k q : Nat) (e : Err)
    (h1 : br.ReadUnary = (.ok q, br1)) (h2 : riceLow br1 k = (.error e, br2)) :
    br.ReadRice k = (.error e, br2) := by
  unfold Reader.ReadRice
  split
  · rename_i e2 br1' heq
    rw [h1] at heq
    injection heq with ha hb
    cases ha
  · rename_i q' br1' heq
    rw [h1] at heq
    injection heq with ha hb
    have hq : q = q' := Except.ok.inj ha
    subst hq
    subst hb
    split
    · rename_i e2 br2' heq2
      rw [h2] at heq2
      injection heq2 with ha2 hb2
      have he : e = e2 := Except.error.inj ha2
      subst he
      subst hb2
      rfl
    · rename_i low' br2' heq2
      rw [h2] at heq2
      injection heq2 with ha2 hb2
      cases ha2

/-- Computation rule for the unfused composition when the low-bits phase
fails. -/
theorem readRiceUnfused_run_err (br br1 br2 : Reader) (k q : Nat) (e : Err)
    (h1 : br.ReadUnary = (.ok q, br1)) (h2 : br1.Read k = (.error e, br2)) :
    readRiceUnfused br k = (.error e, br2) := by
  unfold readRiceUnfused
  have h2' : (if k = 0 then ((.ok 0 : Except Err Nat), br1) else br1.Read k) =
      (.error e, br2) := by
    by_cases hk0 : k = 0
    · rw [hk0, Read_zero] at h2
      injection h2 with ha hb
      cases ha
    · rw [if_neg hk0]
      exact h2
  split
  · rename_i e2 br1' heq
    rw [h1] at heq
    injection heq with ha hb
    cases ha
  · rename_i q' br1' heq
    rw [h1] at heq
    injection heq with ha hb
    have hq : q = q' := Except.ok.inj ha
    subst hq
    subst hb
    split
    · rename_i e2 br2' heq2
      rw [h2'] at heq2
      injection heq2 with ha2 hb2
      have he : e = e2 := Except.error.inj ha2
      subst he
      subst hb2
      rfl
    · rename_i low' br2' heq2
      rw [h2'] at heq2
      injection heq2 with ha2 hb2
      cases ha2

/-- C7: for every Rice parameter `k ≤ 64` and every reader state whose bit
count is in its `uint` range, the fused `ReadRice(k)` returns the same value
as the unfused composition `ReadUnary` / `Read(k)` (skipped when `k = 0`)
with the same fold and ZigZag decode, and leaves the reader in the same
state up to the dead register byte `x` (which carries no information once
`n = 0`): the fused path zeroes it where `Read` leaves it stale. -/
theorem c7_rice_fusion (br : Reader) (k : Nat) (hn : br.n ≤ 7) (hk : k ≤ 64) :
    (br.ReadRice k).1 = (readRiceUnfused br k).1 ∧
    stateEquiv (br.ReadRice k).2 (readRiceUnfused br k).2 := by
  rcases hu : br.ReadUnary with ⟨res1, br1⟩
  cases res1 with
  | error e =>
    have hL : br.ReadRice k = (.error e, br1) := by
      unfold Reader.ReadRice
      rw [hu]
    have hR : readRiceUnfused br k = (.error e, br1) := by
      unfold readRiceUnfused
      rw [hu]
    rw [hL, hR]
    exact ⟨rfl, stateEquiv_refl _⟩
  | ok q =>
    obtain ⟨hn1, hx1⟩ := ReadUnary_reg br hn q br1 hu
    have hx256 : br1.x < 256 := by
      have h2 : (2:Nat) ^ br1.n ≤ 2 ^ 7 := Nat.pow_le_pow_right (by norm_num) hn1
      omega
    obtain ⟨hv, hs⟩ := riceLow_Read br1 k hx256 hk
    rcases hr : riceLow br1 k with ⟨res2, br2⟩
    rcases hre : br1.Read k with ⟨res3, br3⟩
    rw [hr, hre] at hv hs
    simp only at hv hs
    cases res2 with
    | error e2 =>
      cases res3 with
      | error e3 =>
        have he : e2 = e3 := by
          injection hv
        subst he
        have hL := ReadRice_run_err br br1 br2 k q e2 hu hr
        have hR := readRiceUnfused_run_err br br1 br3 k q e2 hu hre
        rw [hL, hR]
        exact ⟨rfl, hs⟩
      | ok low3 => cases hv
    | ok low2 =>
      cases res3 with
      | error e3 => cases hv
      | ok low3 =>
        have hlow : low2 = low3 := Except.ok.inj hv
        subst hlow
        have hL := ReadRice_run br br1 br2 k q low2 hu hr
        have hR := readRiceUnfused_run br br1 br3 k q low2 hu hre
        rw [hL, hR]
        exact ⟨rfl, hs⟩

theorem c7_rice_fusion_witness :
    (Reader.ReadRice (NewReader [255]) 7).1 = (readRiceUnfused (NewReader [255]) 7).1 ∧
    stateEquiv (Reader.ReadRice (NewReader [255]) 7).2 (readRiceUnfused (NewReader [255]) 7).2 :=
  c7_rice_fusion (NewReader [255]) 7 (by decide) (by decide)

/-- `bitlenF` of zero is zero for every fuel. -/
theorem bitlenF_zero (fuel : Nat) : bitlenF fuel 0 = 0 := by
  cases fuel with
  | zero => rfl
  | succ fuel => rw [bitlenF, if_pos rfl]

/-- With enough fuel, `bitlenF` computes the exact binary length. -/
theorem bitlenF_bounds : ∀ (fuel m : Nat), m < 2 ^ fuel → 0 < m →
    2 ^ (bitlenF fuel m - 1) ≤ m ∧ m < 2 ^ (bitlenF fuel m) := by
  intro fuel
  induction fuel with
  | zero =>
    intro m hm h0
    simp at hm
    omega
  | succ fuel ih =>
    intro m hm h0
    rw [bitlenF, if_neg (by omega)]
    by_cases h2 : m / 2 = 0
    · have hm1 : m = 1 := by omega
      subst hm1
      rw [h2, bitlenF_zero]
      norm_num
    · have hm2 : m / 2 < 2 ^ fuel := by
        rw [pow_succ] at hm
        omega
      obtain ⟨hlo, hhi⟩ := ih (m / 2) hm2 (by omega)
      have hpos : 0 < bitlenF fuel (m / 2) := by
        by_contra hcon
        have : bitlenF fuel (m / 2) = 0 := by omega
        rw [this] at hhi
        simp at hhi
        omega
      constructor
      · have : 2 ^ (bitlenF fuel (m / 2) + 1 - 1) = 2 * 2 ^ (bitlenF fuel (m / 2) - 1) := by
          rw [← pow_succ']
          congr 1
          omega
        rw [this]
        omega
      · have : 2 ^ (bitlenF fuel (m / 2) + 1) = 2 * 2 ^ (bitlenF fuel (m / 2)) := by
          rw [← pow_succ']
        rw [this]
        omega

/-- Exactness of `bitlen` below `2 ^ 64`. -/
theorem bitlen_bounds (m : Nat) (hm : m < 2 ^ 64) (h0 : 0 < m) :
    2 ^ (bitlen m - 1) ≤ m ∧ m < 2 ^ (bitlen m) :=
  bitlenF_bounds 64 m hm h0

/-- `bitlen` is monotone against powers of two. -/
theorem bitlen_le (m j : Nat) (hm : m < 2 ^ 64) (h : m < 2 ^ j) : bitlen m ≤ j := by
  by_cases h0 : m = 0
  · subst h0
    rw [show bitlen 0 = 0 from rfl]
    omega
  · obtain ⟨hlo, hhi⟩ := bitlen_bounds m hm (by omega)
    by_contra hcon
    push_neg at hcon
    have hle : 2 ^ j ≤ 2 ^ (bitlen m - 1) := Nat.pow_le_pow_right (by norm_num) (by omega)
    omega

/-- The binary length is determined by a power-of-two sandwich. -/
theorem bitlen_unique (m j : Nat) (hm : m < 2 ^ 64) (h1 : 2 ^ (j - 1) ≤ m)
    (h2 : m < 2 ^ j) (hj : 0 < j) : bitlen m = j := by
  have h0 : 0 < m := by
    have : (0:Nat) < 2 ^ (j - 1) := pow_pos (by norm_num) _
    omega
  obtain ⟨hlo, hhi⟩ := bitlen_bounds m hm h0
  have hle : bitlen m ≤ j := bitlen_le m j hm h2
  have hge : j ≤ bitlen m := by
    by_contra hcon
    push_neg at hcon
    have : 2 ^ (j - 1) ≥ 2 ^ (bitlen m) := Nat.pow_le_pow_right (by norm_num) (by omega)
    omega
  omega

/-- Binary length of a value shifted past a smaller remainder. -/
theorem bitlen_mul_pow (B m W : Nat) (hB : 0 < B) (hW : W < 2 ^ m)
    (h64 : B * 2 ^ m + W < 2 ^ 64) : bitlen (B * 2 ^ m + W) = bitlen B + m := by
  have hB64 : B < 2 ^ 64 := by
    have h1 : (1:Nat) ≤ 2 ^ m := Nat.one_le_two_pow
    nlinarith
  obtain ⟨hlo, hhi⟩ := bitlen_bounds B hB64 hB
  have hpos : 0 < bitlen B := by
    by_contra hcon
    have h0 : bitlen B = 0 := by omega
    rw [h0] at hhi
    simp at hhi
    omega
  refine bitlen_unique _ _ h64 ?_ ?_ (by omega)
  · have he : bitlen B + m - 1 = (bitlen B - 1) + m := by omega
    rw [he, pow_add]
    have := Nat.mul_le_mul_right (2 ^ m) hlo
    omega
  · rw [pow_add]
    have h1 : B * 2 ^ m + W < (B + 1) * 2 ^ m := by
      have : (B + 1) * 2 ^ m = B * 2 ^ m + 2 ^ m := by ring
      omega
    have h2 : (B + 1) * 2 ^ m ≤ 2 ^ bitlen B * 2 ^ m := by
      have : B + 1 ≤ 2 ^ bitlen B := by omega
      exact Nat.mul_le_mul_right _ this
    omega

/-- The big-endian fold from an arbitrary accumulator. -/
theorem beUint64_general : ∀ (l : List Nat) (a : Nat),
    l.foldl (fun acc b => acc * 256 + b) a = a * 256 ^ l.length + beUint64 l := by
  intro l
  induction l with
  | nil =>
    intro a
    simp [beUint64]
  | cons b l ih =>
    intro a
    show (l.foldl (fun acc b => acc * 256 + b) (a * 256 + b)) = _
    rw [ih (a * 256 + b)]
    have h2 : beUint64 (b :: l) = b * 256 ^ l.length + beUint64 l := by
      show (l.foldl (fun acc b => acc * 256 + b) (0 * 256 + b)) = _
      rw [ih (0 * 256 + b)]
      ring_nf
    rw [h2]
    simp [List.length_cons, pow_succ]
    ring

/-- The big-endian word of a byte list is bounded by `256 ^ length`. -/
theorem beUint64_lt : ∀ (l : List Nat), (∀ b ∈ l, b < 256) →
    beUint64 l < 256 ^ l.length := by
  intro l
  induction l with
  | nil =>
    intro h
    show beUint64 [] < 256 ^ 0
    norm_num [beUint64]
  | cons b l ih =>
    intro h
    have hb : b < 256 := h b (by simp)
    have hl := ih (fun x hx => h x (by simp [hx]))
    have hcons : beUint64 (b :: l) = b * 256 ^ l.length + beUint64 l := by
      show (l.foldl (fun acc b => acc * 256 + b) (0 * 256 + b)) = _
      rw [beUint64_general l (0 * 256 + b)]
      ring_nf
    rw [hcons]
    simp only [List.length_cons, pow_succ]
    nlinarith

/-- Leading zero bytes do not contribute to the big-endian word. -/
theorem beUint64_zeros : ∀ (z : Nat) (l : List Nat),
    beUint64 (List.replicate z 0 ++ l) = beUint64 l := by
  intro z
  induction z with
  | zero => intro l; rfl
  | succ z ih =>
    intro l
    show beUint64 (0 :: (List.replicate z 0 ++ l)) = beUint64 l
    show ((List.replicate z 0 ++ l).foldl (fun acc b => acc * 256 + b) (0 * 256 + 0)) = _
    have h0 : (0:Nat) * 256 + 0 = 0 := by norm_num
    rw [h0]
    exact ih l

/-- Leading-zero count of a big-endian 8-byte word with `z` zero bytes
followed by a nonzero byte: `8 z` plus the byte's leading zeros. -/
theorem clz64_word (z : Nat) (B : Nat) (t : List Nat) (hz8 : z + 1 + t.length = 8)
    (hB : 0 < B) (hB256 : B < 256) (ht : ∀ b ∈ t, b < 256) :
    clz64 (beUint64 (List.replicate z 0 ++ B :: t)) = 8 * z + clz8 B := by
  have hcons : beUint64 (B :: t) = B * 256 ^ t.length + beUint64 t := by
    show (t.foldl (fun acc b => acc * 256 + b) (0 * 256 + B)) = _
    rw [beUint64_general t (0 * 256 + B)]
    ring_nf
  have hpow : (256 : Nat) ^ t.length = 2 ^ (8 * t.length) := by
    rw [show (256 : Nat) = 2 ^ 8 from by norm_num, ← pow_mul]
  have hWlt : beUint64 t < 2 ^ (8 * t.length) := by
    rw [← hpow]
    exact beUint64_lt t ht
  have h64 : B * 2 ^ (8 * t.length) + beUint64 t < 2 ^ 64 := by
    have h1 : B * 2 ^ (8 * t.length) + beUint64 t < (B + 1) * 2 ^ (8 * t.length) := by
      have : (B + 1) * 2 ^ (8 * t.length) = B * 2 ^ (8 * t.length) + 2 ^ (8 * t.length) := by
        ring
      omega
    have h2 : (B + 1) * 2 ^ (8 * t.length) ≤ 2 ^ 8 * 2 ^ (8 * t.length) := by
      exact Nat.mul_le_mul_right _ (by omega)
    have h3 : (2:Nat) ^ 8 * 2 ^ (8 * t.length) = 2 ^ (8 + 8 * t.length) := by
      rw [pow_add]
    have h4 : (8:Nat) + 8 * t.length ≤ 64 := by omega
    have h5 : (2:Nat) ^ (8 + 8 * t.length) ≤ 2 ^ 64 := Nat.pow_le_pow_right (by norm_num) h4
    omega
  have hblen : bitlen (beUint64 (List.replicate z 0 ++ B :: t)) = bitlen B + 8 * t.length := by
    rw [beUint64_zeros, hcons, hpow]
    exact bitlen_mul_pow B (8 * t.length) (beUint64 t) hB hWlt h64
  have hB64 : B < 2 ^ 64 := by
    have : (2:Nat) ^ 8 ≤ 2 ^ 64 := Nat.pow_le_pow_right (by norm_num) (by norm_num)
    norm_num at this ⊢
    omega
  have hle8 : bitlen B ≤ 8 := bitlen_le B 8 hB64 (by norm_num; omega)
  have hpos : 0 < bitlen B := by
    obtain ⟨hlo, hhi⟩ := bitlen_bounds B hB64 hB
    by_contra hcon
    have h0 : bitlen B = 0 := by omega
    rw [h0] at hhi
    simp at hhi
    omega
  show 64 - bitlen (beUint64 (List.replicate z 0 ++ B :: t)) = 8 * z + (8 - bitlen B)
  rw [hblen]
  omega

/-- Scanning a buffer of `L` zero bytes consumes it entirely, counting `8 L`
zero bits and touching nothing else. -/
theorem unaryScanBuf_zeros : ∀ (m L acc : Nat) (br : Reader), L ≤ m →
    br.buf = List.replicate L 0 → acc + 8 * L < U64 →
    (unaryScanBuf acc br).1 = none ∧
    (unaryScanBuf acc br).2.1 = acc + 8 * L ∧
    (unaryScanBuf acc br).2.2.src = br.src ∧
    (unaryScanBuf acc br).2.2.buf = [] ∧
    (unaryScanBuf acc br).2.2.n = br.n ∧
    (unaryScanBuf acc br).2.2.x = br.x := by
  intro m
  induction m with
  | zero =>
    intro L acc br hm hbuf hacc
    have hL : L = 0 := by omega
    subst hL
    have hnil : br.buf = [] := by rw [hbuf]; rfl
    rw [unaryScanBuf, dif_neg (by rw [hnil]; simp)]
    split
    · exact ⟨rfl, (by omega : acc = acc + 8 * 0), rfl, hnil, rfl, rfl⟩
    · rename_i b rest heq
      rw [hnil] at heq
      cases heq
  | succ m ih =>
    intro L acc br hm hbuf hacc
    have hlen : br.buf.length = L := by rw [hbuf, List.length_replicate]
    by_cases h8 : 8 ≤ L
    · rw [unaryScanBuf, dif_pos (by omega)]
      have htake : br.buf.take 8 = List.replicate 8 0 := by
        rw [hbuf, List.take_replicate]
        congr 1
        omega
      have hw : beUint64 (br.buf.take 8) = 0 := by
        rw [htake]
        rfl
      rw [if_pos hw]
      have hmod : (acc + 64) % U64 = acc + 64 := Nat.mod_eq_of_lt (by omega)
      rw [hmod]
      have hdrop : br.buf.drop 8 = List.replicate (L - 8) 0 := by
        rw [hbuf, List.drop_replicate]
      obtain ⟨i1, i2, i3, i4, i5, i6⟩ := ih (L - 8) (acc + 64)
        { br with buf := br.buf.drop 8, consumed := br.consumed ++ br.buf.take 8 }
        (by omega) (by show br.buf.drop 8 = List.replicate (L - 8) 0; exact hdrop) (by omega)
      refine ⟨i1, ?_, i3, i4, i5, i6⟩
      rw [i2]
      omega
    · rw [unaryScanBuf, dif_neg (by omega)]
      split
      · rename_i heq
        have hL0 : L = 0 := by
          rw [heq] at hlen
          simp at hlen
          omega
        subst hL0
        exact ⟨rfl, (by omega : acc = acc + 8 * 0), rfl, heq, rfl, rfl⟩
      · rename_i b rest heq
        have hL1 : 1 ≤ L := by
          by_contra hcon
          have : L = 0 := by omega
          subst this
          rw [heq] at hbuf
          cases hbuf
        have hcons : List.replicate L (0:Nat) = 0 :: List.replicate (L - 1) 0 := by
          conv_lhs => rw [show L = (L - 1) + 1 from by omega]
          rw [List.replicate_succ]
        have hb0 : b = 0 ∧ rest = List.replicate (L - 1) 0 := by
          rw [hbuf, hcons] at heq
          exact ⟨(List.cons.inj heq).1.symm, (List.cons.inj heq).2.symm⟩
        obtain ⟨hb, hrest⟩ := hb0
        rw [if_pos hb]
        have hmod : (acc + 8) % U64 = acc + 8 := Nat.mod_eq_of_lt (by omega)
        rw [hmod]
        obtain ⟨i1, i2, i3, i4, i5, i6⟩ := ih (L - 1) (acc + 8)
          { br with buf := rest, consumed := br.consumed ++ [b] }
          (by omega) (by show rest = List.replicate (L - 1) 0; exact hrest) (by omega)
        refine ⟨i1, ?_, i3, i4, i5, i6⟩
        rw [i2]
        omega

/-- Leading zeros of a nonzero byte lie between 0 and 7. -/
theorem clz8_le7 (B : Nat) (hB : 0 < B) (hB256 : B < 256) : clz8 B ≤ 7 := by
  have hB64 : B < 2 ^ 64 := by
    have : (256:Nat) ≤ 2 ^ 64 := by norm_num
    omega
  obtain ⟨hlo, hhi⟩ := bitlen_bounds B hB64 hB
  have hpos : 0 < bitlen B := by
    by_contra hcon
    have h0 : bitlen B = 0 := by omega
    rw [h0] at hhi
    simp at hhi
    omega
  show 8 - bitlen B ≤ 7
  omega

/-- The big-endian fold over a cons. -/
theorem beUint64_cons (b : Nat) (l : List Nat) :
    beUint64 (b :: l) = b * 256 ^ l.length + beUint64 l := by
  show (l.foldl (fun acc b => acc * 256 + b) (0 * 256 + b)) = _
  rw [beUint64_general l (0 * 256 + b)]
  ring_nf

/-- Scanning a buffer of `Z` zero bytes followed by a nonzero byte finds the
terminating 1-bit: the value counts `8 Z` plus the byte's leading zeros, the
remaining bits of that byte enter the register, and the rest of the buffer
survives. -/
theorem unaryScanBuf_find : ∀ (m Z acc B : Nat) (T1 : List Nat) (br : Reader),
    br.buf.length ≤ m →
    br.buf = List.replicate Z 0 ++ B :: T1 →
    0 < B → B < 256 → (∀ b ∈ T1, b < 256) →
    acc + 8 * Z + 8 ≤ U64 →
    (unaryScanBuf acc br).1 = some (acc + 8 * Z + clz8 B) ∧
    (unaryScanBuf acc br).2.2.src = br.src ∧
    (unaryScanBuf acc br).2.2.buf = T1 ∧
    (unaryScanBuf acc br).2.2.n = 7 - clz8 B ∧
    (unaryScanBuf acc br).2.2.x = B % 2 ^ (7 - clz8 B) := by
  intro m
  induction m with
  | zero =>
    intro Z acc B T1 br hm hbuf hB hB256 hT hacc
    have : br.buf.length = 0 := by omega
    rw [hbuf] at this
    simp at this
  | succ m ih =>
    intro Z acc B T1 br hm hbuf hB hB256 hT hacc
    have hc8 := clz8_le7 B hB hB256
    have hlen : br.buf.length = Z + 1 + T1.length := by
      rw [hbuf]
      simp
      omega
    by_cases h8 : 8 ≤ br.buf.length
    · rw [unaryScanBuf, dif_pos h8]
      by_cases hZ8 : 8 ≤ Z
      · have htake : br.buf.take 8 = List.replicate 8 0 := by
          rw [hbuf, List.take_append_eq_append_take, List.take_replicate,
            List.length_replicate, show 8 - Z = 0 from by omega, List.take_zero,
            List.append_nil]
          congr 1
          omega
        have hw : beUint64 (br.buf.take 8) = 0 := by
          rw [htake]
          rfl
        rw [if_pos hw]
        have hmod : (acc + 64) % U64 = acc + 64 := Nat.mod_eq_of_lt (by omega)
        rw [hmod]
        have hdrop : br.buf.drop 8 = List.replicate (Z - 8) 0 ++ B :: T1 := by
          rw [hbuf, List.drop_append_eq_append_drop, List.drop_replicate,
            List.length_replicate, show 8 - Z = 0 from by omega, List.drop_zero]
        obtain ⟨i1, i2, i3, i4, i5⟩ := ih (Z - 8) (acc + 64) B T1
          { br with buf := br.buf.drop 8, consumed := br.consumed ++ br.buf.take 8 }
          (by simp only [List.length_drop]; omega)
          (by show br.buf.drop 8 = _; exact hdrop) hB hB256 hT (by omega)
        refine ⟨?_, i2, i3, i4, i5⟩
        rw [i1]
        congr 1
        omega
      · have hT1len : 7 - Z ≤ T1.length := by omega
        have htake : br.buf.take 8 = List.replicate Z 0 ++ B :: T1.take (7 - Z) := by
          rw [hbuf, List.take_append_eq_append_take, List.take_replicate,
            List.length_replicate, show min 8 Z = Z from by omega,
            show 8 - Z = (7 - Z) + 1 from by omega, List.take_succ_cons]
        have htlen : (T1.take (7 - Z)).length = 7 - Z := by
          rw [List.length_take]
          omega
        have hlz : clz64 (beUint64 (br.buf.take 8)) = 8 * Z + clz8 B := by
          rw [htake]
          rw [clz64_word Z B (T1.take (7 - Z)) (by omega) hB hB256
            (fun b hb => hT b (List.take_subset _ _ hb))]
      -- w ≠ 0 since its top byte is nonzero
        have hw0 : beUint64 (br.buf.take 8) ≠ 0 := by
          rw [htake, beUint64_zeros, beUint64_cons]
          have h1 : (1:Nat) ≤ 256 ^ (T1.take (7 - Z)).length := Nat.one_le_pow _ _ (by norm_num)
          nlinarith
        rw [if_neg hw0]
        have hadv : clz64 (beUint64 (br.buf.take 8)) / 8 + 1 = Z + 1 := by
          rw [hlz]
          omega
        have hadv1 : clz64 (beUint64 (br.buf.take 8)) / 8 + 1 - 1 = Z := by
          rw [hlz]
          omega
        have hmod8 : clz64 (beUint64 (br.buf.take 8)) % 8 = clz8 B := by
          rw [hlz]
          omega
        have hdropZ : br.buf.drop Z = B :: T1 := by
          rw [hbuf, List.drop_append_eq_append_drop, List.drop_replicate,
            List.length_replicate, show Z - Z = 0 from by omega]
          simp
        refine ⟨?_, rfl, ?_, ?_, ?_⟩
        · show some ((acc + clz64 (beUint64 (br.buf.take 8))) % U64) = _
          rw [hlz, Nat.mod_eq_of_lt (by omega)]
          congr 1
          omega
        · show br.buf.drop (clz64 (beUint64 (br.buf.take 8)) / 8 + 1) = T1
          rw [hadv, hbuf, List.drop_append_eq_append_drop, List.drop_replicate,
            List.length_replicate, show Z - (Z + 1) = 0 from by omega,
            show Z + 1 - Z = 1 from by omega]
          simp
        · show 7 - clz64 (beUint64 (br.buf.take 8)) % 8 = 7 - clz8 B
          rw [hmod8]
        · show ((br.buf.drop (clz64 (beUint64 (br.buf.take 8)) / 8 + 1 - 1)).headD 0) &&&
            ((1 <<< (7 - clz64 (beUint64 (br.buf.take 8)) % 8)) - 1) =
            B % 2 ^ (7 - clz8 B)
          rw [hadv1, hmod8, hdropZ]
          show B &&& ((1 <<< (7 - clz8 B)) - 1) = B % 2 ^ (7 - clz8 B)
          rw [Nat.shiftLeft_eq, one_mul, Nat.and_pow_two_sub_one_eq_mod]
    · rw [unaryScanBuf, dif_neg h8]
      split
      · rename_i heq
        rw [hbuf] at heq
        simp at heq
      · rename_i b rest heq
        by_cases hZ0 : Z = 0
        · subst hZ0
          have hbT : b = B ∧ rest = T1 := by
            rw [hbuf] at heq
            simp at heq
            exact ⟨heq.1.symm, heq.2.symm⟩
          obtain ⟨hb, hrest⟩ := hbT
          subst hb
          subst hrest
          rw [if_neg (by omega)]
          refine ⟨?_, rfl, rfl, rfl, ?_⟩
          · show some ((acc + clz8 b) % U64) = some (acc + 8 * 0 + clz8 b)
            rw [Nat.mod_eq_of_lt (by omega)]
            congr 1
          · show b &&& ((1 <<< (7 - clz8 b)) - 1) = b % 2 ^ (7 - clz8 b)
            rw [Nat.shiftLeft_eq, one_mul, Nat.and_pow_two_sub_one_eq_mod]
        · have hZ1 : 1 ≤ Z := by omega
          have hcons : List.replicate Z (0:Nat) ++ B :: T1 =
              0 :: (List.replicate (Z - 1) 0 ++ B :: T1) := by
            conv_lhs => rw [show Z = (Z - 1) + 1 from by omega]
            rw [List.replicate_succ]
            rfl
          have hbT : b = 0 ∧ rest = List.replicate (Z - 1) 0 ++ B :: T1 := by
            rw [hbuf, hcons] at heq
            exact ⟨(List.cons.inj heq).1.symm, (List.cons.inj heq).2.symm⟩
          obtain ⟨hb, hrest⟩ := hbT
          rw [if_pos hb]
          have hmod : (acc + 8) % U64 = acc + 8 := Nat.mod_eq_of_lt (by omega)
          rw [hmod]
          obtain ⟨i1, i2, i3, i4, i5⟩ := ih (Z - 1) (acc + 8) B T1
            { br with buf := rest, consumed := br.consumed ++ [b] }
            (by show rest.length ≤ m; rw [heq] at hm; simp at hm; omega)
            (by show rest = _; exact hrest) hB hB256 hT (by omega)
          refine ⟨?_, i2, i3, i4, i5⟩
          rw [i1]
          congr 1
          omega

/-- The unary byte loop over a stream of `Z` zero bytes followed by a
nonzero byte `B`: across any number of refills it returns `8 Z` plus the
leading zeros of `B`, buffers the remaining bits of `B`, and leaves exactly
the bytes after `B` unread. -/
theorem unaryLoop_run : ∀ (m Z acc B : Nat) (T : List Nat) (br : Reader),
    br.src.length ≤ m →
    br.buf ++ br.src = List.replicate Z 0 ++ B :: T →
    0 < B → B < 256 → (∀ b ∈ br.buf ++ br.src, b < 256) →
    acc + 8 * Z + 8 ≤ U64 →
    ∃ br', unaryLoop acc br = (.ok (acc + 8 * Z + clz8 B), br') ∧
      br'.buf ++ br'.src = T ∧ br'.n = 7 - clz8 B ∧ br'.x = B % 2 ^ (7 - clz8 B) := by
  intro m
  induction m with
  | zero =>
    intro Z acc B T br hm hsplit hB hB256 hmem hacc
    -- the source is empty, so the nonzero byte sits in the buffer
    have hsrc0 : br.src = [] := List.eq_nil_of_length_eq_zero (by omega)
    rw [hsrc0, List.append_nil] at hsplit hmem
    have hZlt : Z < br.buf.length := by
      have hlen2 : br.buf.length = (List.replicate Z 0 ++ B :: T).length := by rw [hsplit]
      rw [List.length_append, List.length_replicate, List.length_cons] at hlen2
      omega
    obtain ⟨f1, f2, f3, f4, f5⟩ := unaryScanBuf_find br.buf.length Z acc B T br le_rfl
      hsplit hB hB256 (fun b hb => hmem b (by rw [hsplit]; simp [hb])) hacc
    rcases hscan : unaryScanBuf acc br with ⟨o, a2, br2⟩
    rw [hscan] at f1 f2 f3 f4 f5
    refine ⟨br2, ?_, ?_, f4, f5⟩
    · rw [unaryLoop]
      split
      · rename_i v m2 br2' hs
        rw [hscan] at hs
        obtain ⟨h1, h2⟩ := Prod.mk.inj hs
        obtain ⟨h3, h4⟩ := Prod.mk.inj h2
        have ho2 : o = some (acc + 8 * Z + clz8 B) := f1
        have hval : v = acc + 8 * Z + clz8 B :=
          (Option.some.inj (ho2.symm.trans h1)).symm
        rw [← h4, hval]
      · rename_i acc' br2' hs
        rw [hscan] at hs
        obtain ⟨h1, -⟩ := Prod.mk.inj hs
        have ho2 : o = some (acc + 8 * Z + clz8 B) := f1
        rw [ho2] at h1
        cases h1
    · rw [f3, f2, hsrc0, List.append_nil]
  | succ m ih =>
    intro Z acc B T br hm hsplit hB hB256 hmem hacc
    by_cases hZcase : br.buf.length ≤ Z
    · -- the buffer is all zeros; one scan, one refill, then recurse
      have hbufz : br.buf = List.replicate br.buf.length 0 := by
        have h1 : (br.buf ++ br.src).take br.buf.length = br.buf := List.take_left ..
        rw [hsplit, List.take_append_eq_append_take, List.take_replicate,
          List.length_replicate, show min br.buf.length Z = br.buf.length from by omega,
          show br.buf.length - Z = 0 from by omega, List.take_zero, List.append_nil] at h1
        exact h1.symm
      have hsrcsh : br.src = List.replicate (Z - br.buf.length) 0 ++ B :: T := by
        have h1 : (br.buf ++ br.src).drop br.buf.length = br.src := List.drop_left ..
        rw [hsplit, List.drop_append_eq_append_drop, List.drop_replicate,
          List.length_replicate, show br.buf.length - Z = 0 from by omega,
          List.drop_zero] at h1
        exact h1.symm
      obtain ⟨s1, s2, s3, s4, s5, s6⟩ := unaryScanBuf_zeros br.buf.length br.buf.length acc
        br le_rfl hbufz (by omega)
      rcases hscan : unaryScanBuf acc br with ⟨o, a2, br2⟩
      rw [hscan] at s1 s2 s3 s4 s5 s6
      have ho : o = none := s1
      subst ho
      have hsrcne : br.src ≠ [] := by
        rw [hsrcsh]
        simp
      have hfill : br2.fill = .ok { br2 with
          buf := br2.buf ++ br2.src.take (bufCap - br2.buf.length),
          src := br2.src.drop (bufCap - br2.buf.length) } := by
        unfold Reader.fill
        rw [if_neg (by rw [List.isEmpty_iff, s3]; exact hsrcne)]
      have hstep : unaryLoop acc br = unaryLoop a2 { br2 with
          buf := br2.buf ++ br2.src.take (bufCap - br2.buf.length),
          src := br2.src.drop (bufCap - br2.buf.length) } := by
        rw [unaryLoop]
        split
        · rename_i v m2 br2' hs
          rw [hscan] at hs
          obtain ⟨h1, -⟩ := Prod.mk.inj hs
          cases h1
        · rename_i acc' br2' hs
          rw [hscan] at hs
          obtain ⟨-, h2⟩ := Prod.mk.inj hs
          obtain ⟨h3, h4⟩ := Prod.mk.inj h2
          subst h3
          subst h4
          split
          · rename_i e hf
            rw [hfill] at hf
            cases hf
          · rename_i br3' hf
            rw [hfill] at hf
            rw [← Except.ok.inj hf]
      set br3 : Reader := { br2 with
          buf := br2.buf ++ br2.src.take (bufCap - br2.buf.length),
          src := br2.src.drop (bufCap - br2.buf.length) } with hbr3
      have hjoin : br3.buf ++ br3.src = List.replicate (Z - br.buf.length) 0 ++ B :: T := by
        show (br2.buf ++ br2.src.take (bufCap - br2.buf.length)) ++
          br2.src.drop (bufCap - br2.buf.length) = _
        rw [List.append_assoc, List.take_append_drop, s4, s3, List.nil_append]
        exact hsrcsh
      have hcap : 0 < bufCap := by norm_num [bufCap]
      have hsrclen : 0 < br.src.length := List.length_pos.mpr hsrcne
      have hfuel : br3.src.length ≤ m := by
        show (br2.src.drop (bufCap - br2.buf.length)).length ≤ m
        rw [List.length_drop, s4, s3]
        simp only [List.length_nil, Nat.sub_zero]
        omega
      obtain ⟨br', hloop, hrest, hn, hx⟩ := ih (Z - br.buf.length) a2 B T br3 hfuel hjoin
        hB hB256
        (by
          intro b hb
          refine hmem b ?_
          rw [hjoin, ← hsrcsh] at hb
          simp at hb ⊢
          tauto)
        (by have ha2 : a2 = acc + 8 * br.buf.length := s2; omega)
      refine ⟨br', ?_, hrest, hn, hx⟩
      have ha2 : a2 = acc + 8 * br.buf.length := s2
      rw [hstep, hloop, ha2]
      congr 2
      omega
    · -- the nonzero byte is inside the buffer: single scan hit
      push_neg at hZcase
      have htakeZ : br.buf.take Z = List.replicate Z 0 := by
        have h1 : (br.buf ++ br.src).take Z = br.buf.take Z := by
          rw [List.take_append_eq_append_take, show Z - br.buf.length = 0 from by omega,
            List.take_zero, List.append_nil]
        rw [hsplit, List.take_append_eq_append_take, List.take_replicate,
          List.length_replicate, show min Z Z = Z from by omega,
          show Z - Z = 0 from by omega, List.take_zero, List.append_nil] at h1
        exact h1.symm
      have hdropZ : br.buf.drop Z ++ br.src = B :: T := by
        have h1 : (br.buf ++ br.src).drop Z = br.buf.drop Z ++ br.src := by
          rw [List.drop_append_eq_append_drop, show Z - br.buf.length = 0 from by omega,
            List.drop_zero]
        rw [hsplit, List.drop_append_eq_append_drop, List.drop_replicate,
          List.length_replicate, show Z - Z = 0 from by omega, List.drop_zero] at h1
        simp at h1
        exact h1.symm
      have hne : br.buf.drop Z ≠ [] := by
        have : (br.buf.drop Z).length = br.buf.length - Z := List.length_drop ..
        intro hcon
        rw [hcon] at this
        simp at this
        omega
      obtain ⟨b0, T1, hd⟩ := List.exists_cons_of_ne_nil hne
      rw [hd] at hdropZ
      have hb0 : B = b0 := ((List.cons.inj hdropZ).1).symm
      have hT1 : T1 ++ br.src = T := (List.cons.inj hdropZ).2
      subst hb0
      have hbufshape : br.buf = List.replicate Z 0 ++ B :: T1 := by
        have h1 : br.buf.take Z ++ br.buf.drop Z = br.buf := List.take_append_drop ..
        rw [htakeZ, hd] at h1
        exact h1.symm
      obtain ⟨f1, f2, f3, f4, f5⟩ := unaryScanBuf_find br.buf.length Z acc B T1 br le_rfl
        hbufshape hB hB256
        (by
          intro b hb
          refine hmem b ?_
          rw [hbufshape]
          simp [hb])
        hacc
      rcases hscan : unaryScanBuf acc br with ⟨o, a2, br2⟩
      rw [hscan] at f1 f2 f3 f4 f5
      refine ⟨br2, ?_, ?_, f4, f5⟩
      · rw [unaryLoop]
        split
        · rename_i v m2 br2' hs
          rw [hscan] at hs
          obtain ⟨h1, h2⟩ := Prod.mk.inj hs
          obtain ⟨h3, h4⟩ := Prod.mk.inj h2
          have ho2 : o = some (acc + 8 * Z + clz8 B) := f1
          have hval : v = acc + 8 * Z + clz8 B :=
            (Option.some.inj (ho2.symm.trans h1)).symm
          rw [← h4, hval]
        · rename_i acc' br2' hs
          rw [hscan] at hs
          obtain ⟨h1, -⟩ := Prod.mk.inj hs
          have ho2 : o = some (acc + 8 * Z + clz8 B) := f1
          rw [ho2] at h1
          cases h1
      · rw [f3, f2, hT1]

/-- One refill round of the unary loop. -/
theorem unaryLoop_step_none (acc : Nat) (br br3 : Reader) (acc2 : Nat) (br2 : Reader)
    (hs : unaryScanBuf acc br = (none, acc2, br2)) (hf : br2.fill = .ok br3) :
    unaryLoop acc br = unaryLoop acc2 br3 := by
  rw [unaryLoop]
  split
  · rename_i v m2 br2' hs2
    rw [hs] at hs2
    obtain ⟨h1, -⟩ := Prod.mk.inj hs2
    cases h1
  · rename_i acc' br2' hs2
    rw [hs] at hs2
    obtain ⟨-, h2⟩ := Prod.mk.inj hs2
    obtain ⟨h3, h4⟩ := Prod.mk.inj h2
    subst h3
    subst h4
    split
    · rename_i e hf2
      rw [hf] at hf2
      cases hf2
    · rename_i br3' hf2
      rw [hf] at hf2
      rw [← Except.ok.inj hf2]

/-- The unary loop stops at a scan hit. -/
theorem unaryLoop_step_some (acc : Nat) (br : Reader) (v m2 : Nat) (br2 : Reader)
    (hs : unaryScanBuf acc br = (some v, m2, br2)) :
    unaryLoop acc br = (.ok v, br2) := by
  rw [unaryLoop]
  split
  · rename_i v' m2' br2' hs2
    rw [hs] at hs2
    obtain ⟨h1, h2⟩ := Prod.mk.inj hs2
    obtain ⟨-, h4⟩ := Prod.mk.inj h2
    rw [← h4, Option.some.inj h1]
  · rename_i acc' br2' hs2
    rw [hs] at hs2
    obtain ⟨h1, -⟩ := Prod.mk.inj hs2
    cases h1

/-- Concrete run: `ReadUnary` over the single byte `0xFF` returns 0 and
buffers the remaining seven set bits. -/
theorem readUnary_eval_255 :
    Reader.ReadUnary (NewReader [255]) = (.ok 0, ⟨[], [], 127, 7, [255]⟩) := by
  have hs1 : unaryScanBuf 0 (NewReader [255]) = (none, 0, NewReader [255]) := by
    rw [unaryScanBuf]
    rfl
  have hf1 : Reader.fill (NewReader [255]) = .ok ⟨[], [255], 0, 0, []⟩ := by
    unfold Reader.fill
    rw [if_neg (by decide)]
    rfl
  have hs2 : unaryScanBuf 0 ⟨[], [255], 0, 0, []⟩ = (some 0, 0, ⟨[], [], 127, 7, [255]⟩) := by
    rw [unaryScanBuf]
    rfl
  have hloop : unaryLoop 0 (NewReader [255]) = (.ok 0, ⟨[], [], 127, 7, [255]⟩) := by
    rw [unaryLoop_step_none 0 (NewReader [255]) ⟨[], [255], 0, 0, []⟩ 0 (NewReader [255]) hs1 hf1]
    exact unaryLoop_step_some 0 ⟨[], [255], 0, 0, []⟩ 0 0 ⟨[], [], 127, 7, [255]⟩ hs2
  unfold Reader.ReadUnary
  rw [if_neg (by decide)]
  exact hloop

/-- C7 counterexample: on the single source byte `0xFF` with `k = 7`, the
fused `ReadRice` and the unfused `ReadUnary` + `Read(7)` return the same
value but leave the reader in different states: the fused path zeroes the
register byte, the unfused path leaves the seven consumed bits stale in
`x`. -/
theorem c7_counterexample :
    (Reader.ReadRice (NewReader [255]) 7).1 = (readRiceUnfused (NewReader [255]) 7).1 ∧
    (Reader.ReadRice (NewReader [255]) 7).2.x = 0 ∧
    (readRiceUnfused (NewReader [255]) 7).2.x = 127 ∧
    (Reader.ReadRice (NewReader [255]) 7).2 ≠ (readRiceUnfused (NewReader [255]) 7).2 := by
  have hrl : riceLow ⟨[], [], 127, 7, [255]⟩ 7 = (.ok 127, ⟨[], [], 0, 0, [255]⟩) := rfl
  have hrd : Reader.Read ⟨[], [], 127, 7, [255]⟩ 7 = (.ok 127, ⟨[], [], 127, 0, [255]⟩) := rfl
  have hf := ReadRice_run (NewReader [255]) ⟨[], [], 127, 7, [255]⟩ ⟨[], [], 0, 0, [255]⟩ 7 0 127
    readUnary_eval_255 hrl
  have hg := readRiceUnfused_run (NewReader [255]) ⟨[], [], 127, 7, [255]⟩
    ⟨[], [], 127, 0, [255]⟩ 7 0 127 readUnary_eval_255 hrd
  rw [hf, hg]
  exact ⟨rfl, rfl, rfl, by decide⟩

/-- C10: in `ReadRice(k)` the folded value `(q <<< k) ||| low` is reduced
modulo `2 ^ 32` (the `uint32` cast) before ZigZag decoding: whenever the two
phases succeed, the result is the ZigZag decode of the low 32 bits of
`q * 2 ^ k + low`, and no error is raised for an overflowing fold. -/
theorem c10_folded_mod32 (br br1 br2 : Reader) (k q low : Nat) (hk : k ≤ 32)
    (h1 : br.ReadUnary = (.ok q, br1)) (h2 : riceLow br1 k = (.ok low, br2))
    (hlow : low < 2 ^ k) :
    br.ReadRice k = (.ok (zigzagDecode ((q * 2 ^ k + low) % U32)), br2) := by
  rw [ReadRice_run br br1 br2 k q low h1 h2]
  congr 3
  rw [Nat.shiftLeft_eq]
  have hsplit64 : (U64:Nat) = 2 ^ (64 - k) * 2 ^ k := by
    show (2:Nat) ^ 64 = 2 ^ (64 - k) * 2 ^ k
    rw [← pow_add]
    congr 1
    omega
  have hmod : q * 2 ^ k % U64 = 2 ^ k * (q % 2 ^ (64 - k)) := by
    rw [hsplit64, Nat.mul_mod_mul_right, Nat.mul_comm]
  rw [hmod, ← Nat.mul_add_lt_is_or hlow, hmod.symm]
  have hdvd : (U32:Nat) ∣ U64 := by
    show (2:Nat) ^ 32 ∣ 2 ^ 64
    exact pow_dvd_pow 2 (by norm_num)
  rw [Nat.add_mod, Nat.mod_mod_of_dvd _ hdvd, ← Nat.add_mod]

theorem c10_folded_mod32_witness :
    Reader.ReadRice (NewReader [255]) 1 =
      (.ok (zigzagDecode ((0 * 2 ^ 1 + 1) % U32)), ⟨[], [], 63, 6, [255]⟩) := by
  have hrl : riceLow ⟨[], [], 127, 7, [255]⟩ 1 = (.ok 1, ⟨[], [], 63, 6, [255]⟩) := rfl
  exact c10_folded_mod32 (NewReader [255]) ⟨[], [], 127, 7, [255]⟩ ⟨[], [], 63, 6, [255]⟩ 1 0 1
    (by norm_num) readUnary_eval_255 hrl (by norm_num)

/-- MSB-first value of a bit sequence. -/
def bitsToNat (bs : List Bool) : Nat :=
  bs.foldl (fun a b => 2 * a + (if b then 1 else 0)) 0

/-- The low `k` bits of `v`, most significant first: the bit pattern that
the encoder-side bit writer (`bitio.Writer.WriteBits(v, k)`, external to
this package) appends to its stream. -/
def natBits (v : Nat) : Nat → List Bool
  | 0 => []
  | k + 1 => (decide (v / 2 ^ k % 2 = 1)) :: natBits v k

/-- The byte completed from the first (up to) eight bits of a sequence,
zero-padded on the right as the bit writer pads its final partial byte. -/
def byteOf (bs : List Bool) : Nat :=
  bitsToNat (bs.take 8 ++ List.replicate (8 - bs.length) false)

/-- The byte stream the bit writer emits for a whole bit sequence. -/
def bytesOfBits (bs : List Bool) : List Nat :=
  if bs = [] then [] else byteOf bs :: bytesOfBits (bs.drop 8)
termination_by bs.length
decreasing_by
  rename_i h
  rw [List.length_drop]
  have hne : bs.length ≠ 0 := fun h0 => h (List.eq_nil_of_length_eq_zero h0)
  omega

/-- `WriteUnary` as a bit sequence: the Go loop writes a zero byte while
`x > 8`, then `WriteBits(1, x+1)`, i.e. `x` zero bits and a one bit. -/
def WriteUnary (x : Nat) : List Bool :=
  if 8 < x then List.replicate 8 false ++ WriteUnary (x - 8) else natBits 1 (x + 1)
termination_by x

/-- The MSB-first fold from an arbitrary accumulator. -/
theorem bitsToNat_general : ∀ (bs : List Bool) (a : Nat),
    bs.foldl (fun a b => 2 * a + (if b then 1 else 0)) a =
      a * 2 ^ bs.length + bitsToNat bs := by
  intro bs
  induction bs with
  | nil =>
    intro a
    simp [bitsToNat]
  | cons b bs ih =>
    intro a
    show (bs.foldl (fun a b => 2 * a + (if b then 1 else 0))
      (2 * a + (if b then 1 else 0))) = _
    rw [ih (2 * a + (if b then 1 else 0))]
    have h2 : bitsToNat (b :: bs) =
        (if b then 1 else 0) * 2 ^ bs.length + bitsToNat bs := by
      show (bs.foldl (fun a b => 2 * a + (if b then 1 else 0))
        (2 * 0 + (if b then 1 else 0))) = _
      rw [ih (2 * 0 + (if b then 1 else 0))]
      ring_nf
    rw [h2]
    simp only [List.length_cons, pow_succ]
    ring

/-- Splitting a bit sequence splits its value. -/
theorem bitsToNat_append (u v : List Bool) :
    bitsToNat (u ++ v) = bitsToNat u * 2 ^ v.length + bitsToNat v := by
  show ((u ++ v).foldl (fun a b => 2 * a + (if b then 1 else 0)) 0) = _
  rw [List.foldl_append, bitsToNat_general v]
  rfl

/-- A bit sequence's value is bounded by `2 ^ length`. -/
theorem bitsToNat_lt : ∀ (bs : List Bool), bitsToNat bs < 2 ^ bs.length := by
  intro bs
  induction bs with
  | nil =>
    show bitsToNat [] < 2 ^ 0
    norm_num [bitsToNat]
  | cons b bs ih =>
    have hcons : bitsToNat (b :: bs) =
        (if b then 1 else 0) * 2 ^ bs.length + bitsToNat bs := by
      show (bs.foldl (fun a b => 2 * a + (if b then 1 else 0))
        (2 * 0 + (if b then 1 else 0))) = _
      rw [bitsToNat_general bs]
      ring_nf
    rw [hcons]
    simp only [List.length_cons, pow_succ]
    by_cases hb : b
    · rw [if_pos hb]
      omega
    · rw [if_neg hb]
      omega

/-- Zero bits carry no value. -/
theorem bitsToNat_replicate_false : ∀ (m : Nat),
    bitsToNat (List.replicate m false) = 0 := by
  intro m
  induction m with
  | zero => rfl
  | succ m ih =>
    rw [List.replicate_succ]
    have hcons : bitsToNat (false :: List.replicate m false) =
        (if false then 1 else 0) * 2 ^ m + bitsToNat (List.replicate m false) := by
      show ((List.replicate m false).foldl (fun a b => 2 * a + (if b then 1 else 0))
        (2 * 0 + (if false then 1 else 0))) = _
      rw [bitsToNat_general]
      simp
    rw [hcons, ih]
    simp

/-- Right zero-padding multiplies the value by a power of two. -/
theorem bitsToNat_append_false (u : List Bool) (m : Nat) :
    bitsToNat (u ++ List.replicate m false) = bitsToNat u * 2 ^ m := by
  rw [bitsToNat_append, bitsToNat_replicate_false, List.length_replicate]
  omega

/-- `natBits` produces exactly `k` bits. -/
theorem natBits_length (v : Nat) : ∀ (k : Nat), (natBits v k).length = k := by
  intro k
  induction k with
  | zero => rfl
  | succ k ih =>
    show (_ :: natBits v k).length = k + 1
    rw [List.length_cons, ih]

/-- The `k` written bits decode to the low `k` bits of the value. -/
theorem bitsToNat_natBits (v : Nat) : ∀ (k : Nat),
    bitsToNat (natBits v k) = v % 2 ^ k := by
  intro k
  induction k with
  | zero =>
    show bitsToNat [] = v % 1
    simp [bitsToNat, Nat.mod_one]
  | succ k ih =>
    show bitsToNat ((decide (v / 2 ^ k % 2 = 1)) :: natBits v k) = v % 2 ^ (k + 1)
    have hcons : bitsToNat ((decide (v / 2 ^ k % 2 = 1)) :: natBits v k) =
        (if v / 2 ^ k % 2 = 1 then 1 else 0) * 2 ^ k + bitsToNat (natBits v k) := by
      show ((natBits v k).foldl (fun a b => 2 * a + (if b then 1 else 0))
        (2 * 0 + (if decide (v / 2 ^ k % 2 = 1) = true then 1 else 0))) = _
      rw [bitsToNat_general, natBits_length]
      simp
    rw [hcons, ih]
    have hsplit : v % 2 ^ (k + 1) = 2 ^ k * (v / 2 ^ k % 2) + v % 2 ^ k := by
      rw [pow_succ, Nat.mod_mul]
      omega
    by_cases hbit : v / 2 ^ k % 2 = 1
    · rw [if_pos hbit, hsplit, hbit]
      omega
    · have h0 : v / 2 ^ k % 2 = 0 := by omega
      rw [if_neg hbit, hsplit, h0]
      omega

/-- `WriteBits(1, x+1)` is `x` zero bits and a one bit. -/
theorem natBits_one : ∀ (x : Nat),
    natBits 1 (x + 1) = List.replicate x false ++ [true] := by
  intro x
  induction x with
  | zero =>
    show (decide ((1:Nat) / 2 ^ 0 % 2 = 1)) :: natBits 1 0 = [true]
    norm_num
    rfl
  | succ x ih =>
    show (decide ((1:Nat) / 2 ^ (x + 1) % 2 = 1)) :: natBits 1 (x + 1) = _
    have hz : (1:Nat) / 2 ^ (x + 1) % 2 = 0 := by
      have h2 : (2:Nat) ≤ 2 ^ (x + 1) := by
        calc (2:Nat) = 2 ^ 1 := by norm_num
        _ ≤ 2 ^ (x + 1) := Nat.pow_le_pow_right (by norm_num) (by omega)
      rw [Nat.div_eq_of_lt (by omega)]
    rw [ih, show List.replicate (x + 1) false = false :: List.replicate x false from
      List.replicate_succ .., hz]
    norm_num

/-- The Go `WriteUnary` loop emits exactly `q` zero bits and a one bit. -/
theorem WriteUnary_eq (q : Nat) : WriteUnary q = List.replicate q false ++ [true] := by
  suffices key : ∀ (m q : Nat), q ≤ m → WriteUnary q = List.replicate q false ++ [true] by
    exact key q q le_rfl
  intro m
  induction m with
  | zero =>
    intro q hq
    have h0 : q = 0 := by omega
    subst h0
    rw [WriteUnary, if_neg (by omega)]
    exact natBits_one 0
  | succ m ih =>
    intro q hq
    rw [WriteUnary]
    by_cases h8 : 8 < q
    · rw [if_pos h8, ih (q - 8) (by omega)]
      rw [← List.append_assoc, ← List.replicate_add]
      congr 2
      omega
    · rw [if_neg h8]
      exact natBits_one q

/-- Value of a cons cell of bits. -/
theorem bitsToNat_cons (b : Bool) (bs : List Bool) :
    bitsToNat (b :: bs) = (if b then 1 else 0) * 2 ^ bs.length + bitsToNat bs := by
  show (bs.foldl (fun a b => 2 * a + (if b then 1 else 0))
    (2 * 0 + (if b then 1 else 0))) = _
  rw [bitsToNat_general]
  ring_nf

/-- Every emitted byte is a byte. -/
theorem byteOf_lt (bs : List Bool) : byteOf bs < 256 := by
  have hlen : (bs.take 8 ++ List.replicate (8 - bs.length) false).length = 8 := by
    rw [List.length_append, List.length_take, List.length_replicate]
    omega
  have h := bitsToNat_lt (bs.take 8 ++ List.replicate (8 - bs.length) false)
  rw [hlen] at h
  exact h

/-- Unfolding `bytesOfBits` on a nonempty sequence. -/
theorem bytesOfBits_cons (bs : List Bool) (h : bs ≠ []) :
    bytesOfBits bs = byteOf bs :: bytesOfBits (bs.drop 8) := by
  rw [bytesOfBits, if_neg h]

/-- The writer emits `ceil(length / 8)` bytes — the same count `bytesNeeded`
computes for the read side. -/
theorem bytesOfBits_length (bs : List Bool) :
    (bytesOfBits bs).length = bytesNeeded bs.length := by
  suffices key : ∀ (m : Nat) (bs : List Bool), bs.length ≤ m →
      (bytesOfBits bs).length = bytesNeeded bs.length by
    exact key bs.length bs le_rfl
  intro m
  induction m with
  | zero =>
    intro bs hm
    have hnil : bs = [] := List.eq_nil_of_length_eq_zero (by omega)
    subst hnil
    rw [bytesOfBits, if_pos rfl]
    show 0 = bytesNeeded 0
    norm_num [bytesNeeded]
  | succ m ih =>
    intro bs hm
    by_cases hnil : bs = []
    · subst hnil
      rw [bytesOfBits, if_pos rfl]
      show 0 = bytesNeeded 0
      norm_num [bytesNeeded]
    · have hpos : 0 < bs.length := List.length_pos.mpr hnil
      rw [bytesOfBits_cons bs hnil, List.length_cons,
        ih (bs.drop 8) (by rw [List.length_drop]; omega), List.length_drop]
      unfold bytesNeeded
      by_cases hm8 : bs.length % 8 = 0
      · rw [if_pos hm8, if_pos (by omega)]
        omega
      · by_cases hm2 : (bs.length - 8) % 8 = 0
        · rw [if_neg hm8, if_pos hm2]
          omega
        · rw [if_neg hm8, if_neg hm2]
          omega

/-- Dropping written bytes is dropping eight bits per byte. -/
theorem bytesOfBits_drop : ∀ (j : Nat) (bs : List Bool),
    (bytesOfBits bs).drop j = bytesOfBits (bs.drop (8 * j)) := by
  intro j
  induction j with
  | zero =>
    intro bs
    simp
  | succ j ih =>
    intro bs
    by_cases hnil : bs = []
    · subst hnil
      rw [bytesOfBits, if_pos rfl]
      simp
      rw [bytesOfBits, if_pos rfl]
    · rw [bytesOfBits_cons bs hnil, List.drop_succ_cons, ih (bs.drop 8),
        List.drop_drop]
      congr 2
      omega

/-- Every member of the emitted byte stream is a byte. -/
theorem bytesOfBits_mem : ∀ (m : Nat) (bs : List Bool), bs.length ≤ m →
    ∀ b ∈ bytesOfBits bs, b < 256 := by
  intro m
  induction m with
  | zero =>
    intro bs hm b hb
    have hnil : bs = [] := List.eq_nil_of_length_eq_zero (by omega)
    subst hnil
    rw [bytesOfBits, if_pos rfl] at hb
    cases hb
  | succ m ih =>
    intro bs hm b hb
    by_cases hnil : bs = []
    · subst hnil
      rw [bytesOfBits, if_pos rfl] at hb
      cases hb
    · have hpos : 0 < bs.length := List.length_pos.mpr hnil
      rw [bytesOfBits_cons bs hnil] at hb
      rcases List.mem_cons.mp hb with h | h
      · rw [h]
        exact byteOf_lt bs
      · exact ih (bs.drop 8) (by rw [List.length_drop]; omega) b h

/-- Each whole zero byte of the unary prefix becomes a zero output byte. -/
theorem bytesOfBits_zero_chunks : ∀ (Q u : Nat) (X : List Bool),
    bytesOfBits (List.replicate (8 * Q + u) false ++ X) =
      List.replicate Q 0 ++ bytesOfBits (List.replicate u false ++ X) := by
  intro Q
  induction Q with
  | zero =>
    intro u X
    rw [show 8 * 0 + u = u from by omega]
    simp
  | succ Q ih =>
    intro u X
    have hn : 8 * (Q + 1) + u = 8 + (8 * Q + u) := by omega
    rw [hn]
    have hne : List.replicate (8 + (8 * Q + u)) false ++ X ≠ [] := by
      intro hcon
      have := congrArg List.length hcon
      simp at this
    rw [bytesOfBits_cons _ hne]
    have hrep : List.replicate (8 + (8 * Q + u)) (false : Bool) =
        List.replicate 8 false ++ List.replicate (8 * Q + u) false :=
      List.replicate_add ..
    have hbyte : byteOf (List.replicate (8 + (8 * Q + u)) false ++ X) = 0 := by
      unfold byteOf
      rw [hrep, List.append_assoc, List.take_append_eq_append_take,
        List.take_replicate, List.length_replicate,
        show min 8 8 = 8 from by omega, show (8:Nat) - 8 = 0 from by omega,
        List.take_zero, List.append_nil, ← List.replicate_add]
      exact bitsToNat_replicate_false _
    have hdrop : (List.replicate (8 + (8 * Q + u)) false ++ X).drop 8 =
        List.replicate (8 * Q + u) false ++ X := by
      rw [hrep, List.append_assoc, List.drop_append_eq_append_drop,
        List.drop_replicate, List.length_replicate,
        show (8:Nat) - 8 = 0 from by norm_num]
      simp
    rw [hbyte, hdrop, ih u X, List.replicate_succ]
    rfl

/-- The byte containing the terminating unary bit: `u` leading zero bits,
the one bit, then the first `7 - u` following bits (zero-padded). -/
theorem byteOf_split (u : Nat) (t : List Bool) (hu : u < 8) :
    byteOf (List.replicate u false ++ true :: t) =
      2 ^ (7 - u) + bitsToNat (t.take (7 - u) ++ List.replicate (7 - u - t.length) false) := by
  unfold byteOf
  have hlen : (List.replicate u false ++ true :: t).length = u + 1 + t.length := by
    simp
    omega
  have htake : (List.replicate u false ++ true :: t).take 8 =
      List.replicate u false ++ true :: t.take (7 - u) := by
    rw [List.take_append_eq_append_take, List.take_replicate, List.length_replicate,
      show min 8 u = u from by omega, show 8 - u = (7 - u) + 1 from by omega,
      List.take_succ_cons]
  rw [htake, hlen, show 8 - (u + 1 + t.length) = 7 - u - t.length from by omega]
  rw [List.append_assoc]
  rw [bitsToNat_append, bitsToNat_replicate_false]
  have hcons := bitsToNat_cons true (t.take (7 - u) ++ List.replicate (7 - u - t.length) false)
  rw [show (true :: (t.take (7 - u) ++ List.replicate (7 - u - t.length) false)) =
    true :: t.take (7 - u) ++ List.replicate (7 - u - t.length) false from rfl] at hcons
  rw [hcons]
  have hwlen : (t.take (7 - u) ++ List.replicate (7 - u - t.length) false).length = 7 - u := by
    rw [List.length_append, List.length_take, List.length_replicate]
    omega
  rw [hwlen]
  simp

/-- Extracting the top `8 - d` bits of a byte with the Go mask
`^uint8(0) << d`: masking then shifting is division by `2 ^ d`. -/
theorem mask_extract (d : Nat) (hd : d ≤ 7) :
    ∀ x, x < 256 → (x &&& ((255 <<< d) % 256)) >>> d = x / 2 ^ d := by
  interval_cases d <;> decide

/-- The byte-accumulation loop over the first `j` emitted bytes computes the
first `8 j` bits on top of the seed, with no `uint64` wrap below `2 ^ 64`. -/
theorem accBytes_run : ∀ (j : Nat) (t : List Bool) (x0 : Nat),
    8 * j ≤ t.length →
    x0 * 2 ^ (8 * j) + bitsToNat (t.take (8 * j)) < 2 ^ 64 →
    accBytes x0 ((bytesOfBits t).take j) =
      x0 * 2 ^ (8 * j) + bitsToNat (t.take (8 * j)) := by
  intro j
  induction j with
  | zero =>
    intro t x0 h1 h2
    rw [List.take_zero]
    show x0 = x0 * 2 ^ (8 * 0) + bitsToNat (t.take (8 * 0))
    rw [show 8 * 0 = 0 from rfl, List.take_zero]
    show x0 = x0 * 2 ^ 0 + bitsToNat []
    norm_num [bitsToNat]
  | succ j ih =>
    intro t x0 h1 h2
    have hne : t ≠ [] := by
      intro hcon
      subst hcon
      simp at h1
    have h8 : 8 ≤ t.length := by omega
    rw [bytesOfBits_cons t hne, List.take_succ_cons]
    show accBytes (((x0 <<< 8) % U64) ||| byteOf t) ((bytesOfBits (t.drop 8)).take j) = _
    have hpow : (2:Nat) ^ (8 * (j + 1)) = 2 ^ 8 * 2 ^ (8 * j) := by
      rw [← pow_add]
      congr 1
      omega
    have hx0b : x0 * 2 ^ 8 < 2 ^ 64 := by
      have hb1 : x0 * 2 ^ 8 ≤ x0 * 2 ^ (8 * (j + 1)) := by
        refine Nat.mul_le_mul_left x0 (Nat.pow_le_pow_right (by norm_num) (by omega))
      omega
    have hshift : (x0 <<< 8) % U64 = x0 * 2 ^ 8 := by
      rw [Nat.shiftLeft_eq]
      exact Nat.mod_eq_of_lt hx0b
    have hbyte : byteOf t = bitsToNat (t.take 8) := by
      unfold byteOf
      rw [show 8 - t.length = 0 from by omega]
      simp
    have hlt8 : bitsToNat (t.take 8) < 2 ^ 8 := by
      have h := bitsToNat_lt (t.take 8)
      have hl : (t.take 8).length = 8 := by
        rw [List.length_take]
        omega
      rw [hl] at h
      exact h
    have hor : x0 * 2 ^ 8 ||| byteOf t = x0 * 2 ^ 8 + bitsToNat (t.take 8) := by
      rw [hbyte, Nat.mul_comm x0 (2 ^ 8)]
      exact (Nat.mul_add_lt_is_or hlt8 x0).symm
    rw [hshift, hor]
    have hsplit : t.take (8 * (j + 1)) = t.take 8 ++ (t.drop 8).take (8 * j) := by
      rw [show 8 * (j + 1) = 8 + 8 * j from by omega, List.take_add]
    have hlen8j : ((t.drop 8).take (8 * j)).length = 8 * j := by
      rw [List.length_take, List.length_drop]
      omega
    have hval : x0 * 2 ^ (8 * (j + 1)) + bitsToNat (t.take (8 * (j + 1))) =
        (x0 * 2 ^ 8 + bitsToNat (t.take 8)) * 2 ^ (8 * j) +
          bitsToNat ((t.drop 8).take (8 * j)) := by
      rw [hsplit, bitsToNat_append, hlen8j, hpow]
      ring
    rw [ih (t.drop 8) (x0 * 2 ^ 8 + bitsToNat (t.take 8))
      (by rw [List.length_drop]; omega) (by rw [← hval]; exact h2)]
    exact hval.symm

/-- The byte the final-byte step reads is the `j`-th emitted byte. -/
theorem bytesOfBits_nth (t : List Bool) (j : Nat) (hj : 8 * j < t.length) :
    ((bytesOfBits t).drop j).headD 0 = byteOf (t.drop (8 * j)) := by
  rw [bytesOfBits_drop]
  have hne : t.drop (8 * j) ≠ [] := by
    intro hcon
    have hl := congrArg List.length hcon
    rw [List.length_drop] at hl
    simp at hl
    omega
  rw [bytesOfBits_cons _ hne]
  rfl

set_option maxHeartbeats 1600000 in
/-- `Read k` past the register: when the register holds the first `br.n`
bits of a `k`-bit field and the buffer plus source carry exactly the bytes
the bit writer emitted for the remaining bits, the value read is the whole
field. -/
theorem Read_correct (br : Reader) (t : List Bool) (k : Nat)
    (hn7 : br.n ≤ 7) (hkn : br.n < k) (hk : k ≤ 64) (htl : t.length = k)
    (hx : br.x = bitsToNat (t.take br.n))
    (hbytes : br.buf ++ br.src = bytesOfBits (t.drop br.n)) :
    ∃ br2, br.Read k = (.ok (bitsToNat t), br2) := by
  have hrem1 : 1 ≤ k - br.n := by omega
  have ht'len : (t.drop br.n).length = k - br.n := by
    rw [List.length_drop, htl]
  have hLlen : (bytesOfBits (t.drop br.n)).length = bytesNeeded (k - br.n) := by
    rw [bytesOfBits_length, ht'len]
  have hnb1 : 1 ≤ bytesNeeded (k - br.n) := by
    unfold bytesNeeded
    split <;> omega
  have hnb9 : bytesNeeded (k - br.n) ≤ 8 := by
    unfold bytesNeeded
    split <;> omega
  have h8nb : 8 * (bytesNeeded (k - br.n) - 1) < k - br.n := by
    unfold bytesNeeded
    split <;> omega
  have h8nbr : 8 * (bytesNeeded (k - br.n) - 1) + ((k - br.n) -
      8 * (bytesNeeded (k - br.n) - 1)) = k - br.n := by omega
  have hsum : br.buf.length + br.src.length = bytesNeeded (k - br.n) := by
    have hl := congrArg List.length hbytes
    rw [List.length_append] at hl
    rw [hl, hLlen]
  have hbc : bufCap = 4096 := rfl
  have hok := needBytes_ok_spec ({ br with n := 0 } : Reader) (bytesNeeded (k - br.n))
    (by show bytesNeeded (k - br.n) ≤ bufCap; omega)
    (by show bytesNeeded (k - br.n) ≤ br.buf.length + br.src.length; omega)
  obtain ⟨br2, hok2, hbuf2⟩ : ∃ br2 : Reader,
      Reader.needBytes { br with n := 0 } (bytesNeeded (k - br.n)) = (.ok (), br2) ∧
      br2.buf = bytesOfBits (t.drop br.n) := by
    by_cases hcase : bytesNeeded (k - br.n) ≤ br.buf.length
    · refine ⟨{ br with n := 0 }, ?_, ?_⟩
      · rw [hok, if_pos (show bytesNeeded (k - br.n) ≤
          ({ br with n := 0 } : Reader).buf.length from hcase)]
      · show br.buf = _
        have hsrc0 : br.src = [] := List.eq_nil_of_length_eq_zero (by omega)
        rw [hsrc0, List.append_nil] at hbytes
        exact hbytes
    · refine ⟨{ br with
          n := 0
          buf := br.buf ++ br.src.take (bufCap - br.buf.length)
          src := br.src.drop (bufCap - br.buf.length) }, ?_, ?_⟩
      · rw [hok, if_neg (show ¬ (bytesNeeded (k - br.n) ≤
          ({ br with n := 0 } : Reader).buf.length) from hcase)]
      · show br.buf ++ br.src.take (bufCap - br.buf.length) = bytesOfBits (t.drop br.n)
        have htk : br.src.take (bufCap - br.buf.length) = br.src :=
          List.take_of_length_le (by omega)
        rw [htk]
        exact hbytes
  -- seed and bound facts
  have hxlt : bitsToNat (t.take br.n) < 2 ^ br.n := by
    have h := bitsToNat_lt (t.take br.n)
    rw [List.length_take, show min br.n t.length = br.n from by omega] at h
    exact h
  have hjle : 8 * (bytesNeeded (k - br.n) - 1) ≤ (t.drop br.n).length := by
    rw [ht'len]
    omega
  have htklen : ((t.drop br.n).take (8 * (bytesNeeded (k - br.n) - 1))).length =
      8 * (bytesNeeded (k - br.n) - 1) := by
    rw [List.length_take]
    omega
  have hAless : bitsToNat (t.take br.n) * 2 ^ (8 * (bytesNeeded (k - br.n) - 1)) +
      bitsToNat ((t.drop br.n).take (8 * (bytesNeeded (k - br.n) - 1))) <
      2 ^ (br.n + 8 * (bytesNeeded (k - br.n) - 1)) := by
    have hblt := bitsToNat_lt ((t.drop br.n).take (8 * (bytesNeeded (k - br.n) - 1)))
    rw [htklen] at hblt
    have h2 : (bitsToNat (t.take br.n) + 1) * 2 ^ (8 * (bytesNeeded (k - br.n) - 1)) ≤
        2 ^ br.n * 2 ^ (8 * (bytesNeeded (k - br.n) - 1)) :=
      Nat.mul_le_mul_right _ (by omega)
    have h3 : (2:Nat) ^ br.n * 2 ^ (8 * (bytesNeeded (k - br.n) - 1)) =
        2 ^ (br.n + 8 * (bytesNeeded (k - br.n) - 1)) := (pow_add 2 _ _).symm
    nlinarith
  have hexp63 : br.n + 8 * (bytesNeeded (k - br.n) - 1) ≤ 63 := by omega
  have hA64 : bitsToNat (t.take br.n) * 2 ^ (8 * (bytesNeeded (k - br.n) - 1)) +
      bitsToNat ((t.drop br.n).take (8 * (bytesNeeded (k - br.n) - 1))) < 2 ^ 64 := by
    have h4 : (2:Nat) ^ (br.n + 8 * (bytesNeeded (k - br.n) - 1)) ≤ 2 ^ 63 :=
      Nat.pow_le_pow_right (by norm_num) hexp63
    have h5 : (2:Nat) ^ 63 < 2 ^ 64 := by norm_num
    omega
  have hwlen : ((t.drop br.n).drop (8 * (bytesNeeded (k - br.n) - 1))).length =
      (k - br.n) - 8 * (bytesNeeded (k - br.n) - 1) := by
    rw [List.length_drop, ht'len]
  have hwlt := bitsToNat_lt ((t.drop br.n).drop (8 * (bytesNeeded (k - br.n) - 1)))
  rw [hwlen] at hwlt
  have hsplit2 : bitsToNat (t.drop br.n) =
      bitsToNat ((t.drop br.n).take (8 * (bytesNeeded (k - br.n) - 1))) *
        2 ^ ((k - br.n) - 8 * (bytesNeeded (k - br.n) - 1)) +
      bitsToNat ((t.drop br.n).drop (8 * (bytesNeeded (k - br.n) - 1))) := by
    conv_lhs => rw [← List.take_append_drop (8 * (bytesNeeded (k - br.n) - 1)) (t.drop br.n)]
    rw [bitsToNat_append, hwlen]
  have hsplit1 : bitsToNat t =
      bitsToNat (t.take br.n) * 2 ^ (k - br.n) + bitsToNat (t.drop br.n) := by
    conv_lhs => rw [← List.take_append_drop br.n t]
    rw [bitsToNat_append, ht'len]
  refine ⟨(br.Read k).2, ?_⟩
  have hfst : (br.Read k).1 = .ok (bitsToNat t) := by
    unfold Reader.Read
    rw [if_neg (by omega : ¬ k = 0), if_neg (by omega : ¬ 64 < k),
      if_neg (by omega : ¬ br.n = k), if_neg (by omega : ¬ k < br.n), hok2]
    show (finishPartial
        (accBytes (if 0 < br.n then br.x else 0)
          (br2.buf.take (bytesNeeded (k - br.n) - 1)))
        ((br2.buf.drop (bytesNeeded (k - br.n) - 1)).headD 0)
        (k - br.n)
        (consumeBuf br2 (bytesNeeded (k - br.n)))).1 = .ok (bitsToNat t)
    rw [hbuf2]
    have hx0 : (if 0 < br.n then br.x else 0) = bitsToNat (t.take br.n) := by
      by_cases h0 : 0 < br.n
      · rw [if_pos h0]
        exact hx
      · rw [if_neg h0]
        rw [show br.n = 0 from by omega, List.take_zero]
        rfl
    rw [hx0]
    rw [accBytes_run (bytesNeeded (k - br.n) - 1) (t.drop br.n)
      (bitsToNat (t.take br.n)) hjle hA64]
    rw [bytesOfBits_nth (t.drop br.n) (bytesNeeded (k - br.n) - 1) (by omega)]
    unfold finishPartial
    by_cases he : 0 < (k - br.n) % 8
    · rw [if_pos he]
      have hwe : (k - br.n) - 8 * (bytesNeeded (k - br.n) - 1) = (k - br.n) % 8 := by
        unfold bytesNeeded
        split <;> omega
      have hmaskapp := mask_extract (8 - (k - br.n) % 8) (by omega)
        (byteOf ((t.drop br.n).drop (8 * (bytesNeeded (k - br.n) - 1)))) (byteOf_lt _)
      rw [hmaskapp]
      have hbw : byteOf ((t.drop br.n).drop (8 * (bytesNeeded (k - br.n) - 1))) =
          bitsToNat ((t.drop br.n).drop (8 * (bytesNeeded (k - br.n) - 1))) *
            2 ^ (8 - (k - br.n) % 8) := by
        unfold byteOf
        rw [List.take_of_length_le (by rw [hwlen, hwe]; omega), hwlen, hwe,
          bitsToNat_append_false]
      rw [hbw, Nat.mul_div_cancel _ (pow_pos (by norm_num) _)]
      have hshiftA : ((bitsToNat (t.take br.n) * 2 ^ (8 * (bytesNeeded (k - br.n) - 1)) +
          bitsToNat ((t.drop br.n).take (8 * (bytesNeeded (k - br.n) - 1)))) <<<
            ((k - br.n) % 8)) % U64 =
          (bitsToNat (t.take br.n) * 2 ^ (8 * (bytesNeeded (k - br.n) - 1)) +
          bitsToNat ((t.drop br.n).take (8 * (bytesNeeded (k - br.n) - 1)))) *
            2 ^ ((k - br.n) % 8) := by
        rw [Nat.shiftLeft_eq]
        refine Nat.mod_eq_of_lt ?_
        have hmul : (bitsToNat (t.take br.n) * 2 ^ (8 * (bytesNeeded (k - br.n) - 1)) +
            bitsToNat ((t.drop br.n).take (8 * (bytesNeeded (k - br.n) - 1)))) *
              2 ^ ((k - br.n) % 8) <
            2 ^ (br.n + 8 * (bytesNeeded (k - br.n) - 1)) * 2 ^ ((k - br.n) % 8) :=
          (Nat.mul_lt_mul_right
            (pow_pos (show (0:Nat) < 2 from by norm_num) ((k - br.n) % 8))).mpr hAless
        have hcomb : (2:Nat) ^ (br.n + 8 * (bytesNeeded (k - br.n) - 1)) *
            2 ^ ((k - br.n) % 8) = 2 ^ (br.n + 8 * (bytesNeeded (k - br.n) - 1) +
            (k - br.n) % 8) := (pow_add 2 _ _).symm
        have hle64 : br.n + 8 * (bytesNeeded (k - br.n) - 1) + (k - br.n) % 8 ≤ 64 := by
          omega
        have hfin : (2:Nat) ^ (br.n + 8 * (bytesNeeded (k - br.n) - 1) + (k - br.n) % 8) ≤
            2 ^ 64 := Nat.pow_le_pow_right (by norm_num) hle64
        rw [hcomb] at hmul
        exact lt_of_lt_of_le hmul hfin
      rw [hshiftA]
      have hwlt8 : bitsToNat ((t.drop br.n).drop (8 * (bytesNeeded (k - br.n) - 1))) <
          2 ^ ((k - br.n) % 8) := by
        have h := hwlt
        rw [hwe] at h
        exact h
      rw [Nat.mul_comm (bitsToNat (t.take br.n) * 2 ^ (8 * (bytesNeeded (k - br.n) - 1)) +
        bitsToNat ((t.drop br.n).take (8 * (bytesNeeded (k - br.n) - 1))))
        (2 ^ ((k - br.n) % 8)),
        ← Nat.mul_add_lt_is_or hwlt8]
      show Except.ok _ = Except.ok (bitsToNat t)
      congr 1
      have hre : (2:Nat) ^ (k - br.n) =
          2 ^ (8 * (bytesNeeded (k - br.n) - 1)) * 2 ^ ((k - br.n) % 8) := by
        rw [← pow_add]
        congr 1
        omega
      rw [hsplit1, hsplit2, hwe, hre]
      ring
    · rw [if_neg he]
      have hwe : (k - br.n) - 8 * (bytesNeeded (k - br.n) - 1) = 8 := by
        unfold bytesNeeded
        split <;> omega
      have hbw : byteOf ((t.drop br.n).drop (8 * (bytesNeeded (k - br.n) - 1))) =
          bitsToNat ((t.drop br.n).drop (8 * (bytesNeeded (k - br.n) - 1))) := by
        unfold byteOf
        rw [List.take_of_length_le (by rw [hwlen]; omega), hwlen, hwe]
        simp
      rw [hbw]
      have hshiftA : ((bitsToNat (t.take br.n) * 2 ^ (8 * (bytesNeeded (k - br.n) - 1)) +
          bitsToNat ((t.drop br.n).take (8 * (bytesNeeded (k - br.n) - 1)))) <<< 8) % U64 =
          (bitsToNat (t.take br.n) * 2 ^ (8 * (bytesNeeded (k - br.n) - 1)) +
          bitsToNat ((t.drop br.n).take (8 * (bytesNeeded (k - br.n) - 1)))) * 2 ^ 8 := by
        rw [Nat.shiftLeft_eq]
        refine Nat.mod_eq_of_lt ?_
        have hmul : (bitsToNat (t.take br.n) * 2 ^ (8 * (bytesNeeded (k - br.n) - 1)) +
            bitsToNat ((t.drop br.n).take (8 * (bytesNeeded (k - br.n) - 1)))) * 2 ^ 8 <
            2 ^ (br.n + 8 * (bytesNeeded (k - br.n) - 1)) * 2 ^ 8 :=
          (Nat.mul_lt_mul_right
            (pow_pos (show (0:Nat) < 2 from by norm_num) 8)).mpr hAless
        have hcomb : (2:Nat) ^ (br.n + 8 * (bytesNeeded (k - br.n) - 1)) * 2 ^ 8 =
            2 ^ (br.n + 8 * (bytesNeeded (k - br.n) - 1) + 8) := (pow_add 2 _ _).symm
        have hle64 : br.n + 8 * (bytesNeeded (k - br.n) - 1) + 8 ≤ 64 := by omega
        have hfin : (2:Nat) ^ (br.n + 8 * (bytesNeeded (k - br.n) - 1) + 8) ≤ 2 ^ 64 :=
          Nat.pow_le_pow_right (by norm_num) hle64
        rw [hcomb] at hmul
        exact lt_of_lt_of_le hmul hfin
      rw [hshiftA]
      have hwlt8 : bitsToNat ((t.drop br.n).drop (8 * (bytesNeeded (k - br.n) - 1))) <
          2 ^ 8 := by
        have h := hwlt
        rw [hwe] at h
        exact h
      rw [Nat.mul_comm (bitsToNat (t.take br.n) * 2 ^ (8 * (bytesNeeded (k - br.n) - 1)) +
        bitsToNat ((t.drop br.n).take (8 * (bytesNeeded (k - br.n) - 1)))) (2 ^ 8),
        ← Nat.mul_add_lt_is_or hwlt8]
      show Except.ok _ = Except.ok (bitsToNat t)
      congr 1
      have hre : (2:Nat) ^ (k - br.n) =
          2 ^ (8 * (bytesNeeded (k - br.n) - 1)) * 2 ^ 8 := by
        rw [← pow_add]
        congr 1
        omega
      rw [hsplit1, hsplit2, hwe, hre]
      ring
  rw [← hfst]

set_option maxHeartbeats 1600000 in
/-- C8: for every unary value `q` (a `uint64`), every Rice parameter
`k` in `0..31` and every `k`-bit remainder `r`, decoding the byte stream
produced by `WriteUnary(q)` followed by writing `r` in `k` bits — with
`ReadUnary` followed by `Read(k)` — returns exactly `q` and then `r`: the
round trip reconstructs the original values. -/
theorem c8_unary_rice_roundtrip (q k r : Nat) (hq : q < 2 ^ 64) (hk : k ≤ 31)
    (hr : r < 2 ^ k) :
    ∃ br1 br2 : Reader,
      Reader.ReadUnary (NewReader (bytesOfBits (WriteUnary q ++ natBits r k))) =
        (.ok q, br1) ∧
      br1.Read k = (.ok r, br2) := by
  have hu8 : q % 8 < 8 := Nat.mod_lt _ (by norm_num)
  have hbits : WriteUnary q ++ natBits r k =
      List.replicate q false ++ true :: natBits r k := by
    rw [WriteUnary_eq]
    simp
  have hqd : q = 8 * (q / 8) + q % 8 := by omega
  have hchunks : bytesOfBits (List.replicate q false ++ true :: natBits r k) =
      List.replicate (q / 8) 0 ++
        bytesOfBits (List.replicate (q % 8) false ++ true :: natBits r k) := by
    conv_lhs => rw [hqd]
    exact bytesOfBits_zero_chunks (q / 8) (q % 8) (true :: natBits r k)
  have hne2 : List.replicate (q % 8) false ++ true :: natBits r k ≠ [] := by
    intro hcon
    have hl := congrArg List.length hcon
    simp at hl
  have hhead : bytesOfBits (List.replicate (q % 8) false ++ true :: natBits r k) =
      byteOf (List.replicate (q % 8) false ++ true :: natBits r k) ::
        bytesOfBits ((natBits r k).drop (7 - q % 8)) := by
    rw [bytesOfBits_cons _ hne2]
    congr 2
    rw [List.drop_append_eq_append_drop, List.drop_replicate, List.length_replicate,
      show q % 8 - 8 = 0 from by omega,
      show (8:Nat) - q % 8 = (7 - q % 8) + 1 from by omega, List.drop_succ_cons]
    simp
  have hBsplit := byteOf_split (q % 8) (natBits r k) hu8
  have hvlen : ((natBits r k).take (7 - q % 8) ++
      List.replicate (7 - q % 8 - (natBits r k).length) false).length = 7 - q % 8 := by
    rw [List.length_append, List.length_take, List.length_replicate, natBits_length]
    omega
  have hvlt : bitsToNat ((natBits r k).take (7 - q % 8) ++
      List.replicate (7 - q % 8 - (natBits r k).length) false) < 2 ^ (7 - q % 8) := by
    have h := bitsToNat_lt ((natBits r k).take (7 - q % 8) ++
      List.replicate (7 - q % 8 - (natBits r k).length) false)
    rw [hvlen] at h
    exact h
  have hp128 : (2:Nat) ^ (7 - q % 8) ≤ 128 := by
    calc (2:Nat) ^ (7 - q % 8) ≤ 2 ^ 7 := Nat.pow_le_pow_right (by norm_num) (by omega)
    _ = 128 := by norm_num
  have hB1 : 0 < byteOf (List.replicate (q % 8) false ++ true :: natBits r k) := by
    rw [hBsplit]
    have := pow_pos (show (0:Nat) < 2 from by norm_num) (7 - q % 8)
    omega
  have hB256 : byteOf (List.replicate (q % 8) false ++ true :: natBits r k) < 256 :=
    byteOf_lt _
  have hbig : (256:Nat) ≤ 2 ^ 64 := by norm_num
  have hclz : clz8 (byteOf (List.replicate (q % 8) false ++ true :: natBits r k)) = q % 8 := by
    have hbl : bitlen (byteOf (List.replicate (q % 8) false ++ true :: natBits r k)) =
        8 - q % 8 := by
      rw [hBsplit]
      have hml := bitlen_mul_pow 1 (7 - q % 8)
        (bitsToNat ((natBits r k).take (7 - q % 8) ++
          List.replicate (7 - q % 8 - (natBits r k).length) false))
        (by norm_num) hvlt (by rw [one_mul]; omega)
      rw [one_mul] at hml
      rw [hml, show bitlen 1 = 1 from by decide]
      omega
    show 8 - bitlen (byteOf (List.replicate (q % 8) false ++ true :: natBits r k)) = q % 8
    rw [hbl]
    omega
  have hxmod : byteOf (List.replicate (q % 8) false ++ true :: natBits r k) %
      2 ^ (7 - q % 8) =
      bitsToNat ((natBits r k).take (7 - q % 8) ++
        List.replicate (7 - q % 8 - (natBits r k).length) false) := by
    rw [hBsplit, Nat.add_mod_left, Nat.mod_eq_of_lt hvlt]
  have hsplitsrc : (NewReader (bytesOfBits (WriteUnary q ++ natBits r k))).buf ++
      (NewReader (bytesOfBits (WriteUnary q ++ natBits r k))).src =
      List.replicate (q / 8) 0 ++
        byteOf (List.replicate (q % 8) false ++ true :: natBits r k) ::
          bytesOfBits ((natBits r k).drop (7 - q % 8)) := by
    show [] ++ bytesOfBits (WriteUnary q ++ natBits r k) = _
    rw [List.nil_append, hbits, hchunks, hhead]
  have hU : U64 = 18446744073709551616 := by norm_num [U64]
  have hq64 : q < 18446744073709551616 := by
    have h64 : (2:Nat) ^ 64 = 18446744073709551616 := by norm_num
    omega
  obtain ⟨br1, hloop, hrest, hn1, hx1⟩ := unaryLoop_run
    (NewReader (bytesOfBits (WriteUnary q ++ natBits r k))).src.length (q / 8) 0
    (byteOf (List.replicate (q % 8) false ++ true :: natBits r k))
    (bytesOfBits ((natBits r k).drop (7 - q % 8)))
    (NewReader (bytesOfBits (WriteUnary q ++ natBits r k))) le_rfl hsplitsrc hB1 hB256
    (by
      intro b hb
      rw [hsplitsrc] at hb
      rcases List.mem_append.mp hb with h | h
      · rw [List.eq_of_mem_replicate h]
        norm_num
      · rcases List.mem_cons.mp h with h2 | h2
        · rw [h2]
          exact hB256
        · exact bytesOfBits_mem ((natBits r k).drop (7 - q % 8)).length _ le_rfl b h2)
    (by omega)
  have hval : 0 + 8 * (q / 8) +
      clz8 (byteOf (List.replicate (q % 8) false ++ true :: natBits r k)) = q := by
    rw [hclz]
    omega
  rw [hval] at hloop
  have hRU : Reader.ReadUnary (NewReader (bytesOfBits (WriteUnary q ++ natBits r k))) =
      (.ok q, br1) := by
    unfold Reader.ReadUnary
    rw [if_neg (show ¬ 0 <
      (NewReader (bytesOfBits (WriteUnary q ++ natBits r k))).n from by
        norm_num [NewReader])]
    exact hloop
  rw [hclz] at hn1
  rw [hclz, hxmod] at hx1
  by_cases hk0 : k = 0
  · subst hk0
    refine ⟨br1, br1, hRU, ?_⟩
    have hr0 : r = 0 := by
      have : (2:Nat) ^ 0 = 1 := by norm_num
      omega
    rw [Read_zero, hr0]
  · by_cases hkreg : k ≤ br1.n
    · have hkle : k ≤ 7 - q % 8 := by omega
      have hvval : bitsToNat ((natBits r k).take (7 - q % 8) ++
          List.replicate (7 - q % 8 - (natBits r k).length) false) =
          r * 2 ^ (7 - q % 8 - k) := by
        rw [List.take_of_length_le (by rw [natBits_length]; omega), natBits_length,
          bitsToNat_append_false, bitsToNat_natBits, Nat.mod_eq_of_lt hr]
      by_cases hkeq : br1.n = k
      · refine ⟨br1, { br1 with n := 0 }, hRU, ?_⟩
        have hread : br1.Read k = (.ok br1.x, { br1 with n := 0 }) := by
          unfold Reader.Read
          rw [if_neg hk0, if_neg (by omega : ¬ 64 < k), if_pos hkeq]
        rw [hread, hx1, hvval, show 7 - q % 8 - k = 0 from by omega, pow_zero,
          Nat.mul_one]
      · have hklt : k < br1.n := by omega
        refine ⟨br1, { br1 with
            n := br1.n - k
            x := br1.x &&& (255 ^^^ ((255 <<< (br1.n - k)) % 256)) }, hRU, ?_⟩
        have hread : br1.Read k =
            (.ok ((br1.x &&& ((255 <<< (br1.n - k)) % 256)) >>> (br1.n - k)),
              { br1 with
                n := br1.n - k
                x := br1.x &&& (255 ^^^ ((255 <<< (br1.n - k)) % 256)) }) := by
          unfold Reader.Read
          rw [if_neg hk0, if_neg (by omega : ¬ 64 < k), if_neg hkeq, if_pos hklt]
        rw [hread]
        have hx256 : br1.x < 256 := by
          rw [hx1]
          omega
        rw [mask_extract (br1.n - k) (by omega) br1.x hx256, hx1, hvval, hn1,
          show 7 - q % 8 - k = 7 - q % 8 - k from rfl,
          Nat.mul_div_cancel _ (pow_pos (show (0:Nat) < 2 from by norm_num) (7 - q % 8 - k))]
    · have hklt2 : br1.n < k := by omega
      have hpad0 : 7 - q % 8 - (natBits r k).length = 0 := by
        rw [natBits_length]
        omega
      have hx1' : br1.x = bitsToNat ((natBits r k).take br1.n) := by
        rw [hx1, hpad0, hn1]
        simp
      obtain ⟨br2, hread⟩ := Read_correct br1 (natBits r k) k (by omega) hklt2 (by omega)
        (natBits_length r k) hx1' (by rw [hn1]; exact hrest)
      rw [bitsToNat_natBits, Nat.mod_eq_of_lt hr] at hread
      exact ⟨br1, br2, hRU, hread⟩

theorem c8_unary_rice_roundtrip_witness :
    0 < 2 ^ 64 - 9 ∧
    ∃ br1 br2 : Reader,
      Reader.ReadUnary (NewReader (bytesOfBits (WriteUnary 9 ++ natBits 5 3))) =
        (.ok 9, br1) ∧
      br1.Read 3 = (.ok 5, br2) :=
  ⟨by norm_num, c8_unary_rice_roundtrip 9 3 5 (by norm_num) (by norm_num) (by norm_num)⟩
